import Mathlib

/-!
# OOP_Lab_5: a tracking memory resource and a growable array built on it

A shallow embedding of `src/include/pmr_vector.h`.

* `CustomMemoryResource` keeps a registry of blocks (`used_blocks`), reuses the
  first free block that is large and aligned enough and otherwise asks the
  system allocator (`::operator new`) for a new one.
* `PmrVector` is a growable array that obtains its storage through that
  resource.
* `ArrayIterator` is the forward cursor of `PmrVector`.

Modelling conventions.

* Addresses are opaque handles (`Nat`).  A null pointer is `none`.
* `size_t` values are natural numbers.  A storage region of `2^63` or more
  elements cannot be obtained from the system allocator, so `capacity * 2` and
  `size + 1` do not wrap in any state the program can reach.
* `::operator new` is an oracle `sys_new : Nat → Nat`: the `k`-th request
  (counted from `0`) returns the address `sys_new k`.  Every request made is
  appended to the trace `sys_news`.  An allocation failure of the system
  allocator is fatal and is not modelled.
* Console output is not modelled.
* `std::pmr::polymorphic_allocator<T>` is library code: `allocate(n)` is the call
  `do_allocate(n * sizeof(T), alignof(T))` on the bound resource, `deallocate(p, n)` is
  `do_deallocate(p, n * sizeof(T), alignof(T))`, `construct` writes an object into a slot and
  `destroy` removes it.
* A C++ exception is a `Fault`.  Operations that can throw after having changed
  the state return the state together with the outcome.
* A reference argument (`const T&`) is a `Ref`: it names an object, and the object is read
  when the code reads it, not when the call is made.
-/

namespace PmrLab

/-- The ways an operation can fail. -/
inductive Fault where
  /-- Thrown as `std::out_of_range`. -/
  | out_of_range
  /-- Thrown as `std::logic_error` by `do_deallocate`: the invalid-release error. -/
  | logic_error
  /-- An exception thrown by a constructor of the element type. -/
  | ctor_failure
  /-- The program would read or destroy an object that is not there. -/
  | undefined_behaviour
  deriving DecidableEq, Repr

/-! ## The memory resource -/

/-- The record `CustomMemoryResource::MemoryBlock`. -/
structure MemoryBlock where
  ptr : Nat
  size : Nat
  alignment : Nat
  free : Bool
  deriving DecidableEq, Repr

/-- One request to `::operator new(bytes, std::align_val_t(alignment))` together with the
address it returned. -/
structure NewCall where
  ptr : Nat
  bytes : Nat
  alignment : Nat
  deriving DecidableEq, Repr

/-- The state of a `CustomMemoryResource`: the registry `used_blocks` (a `std::list`, in
insertion order) and the trace of the requests it made to the system allocator. -/
structure CustomMemoryResource where
  used_blocks : List MemoryBlock
  sys_news : List NewCall
  deriving DecidableEq, Repr

/-- The test of line 39: `b.free && b.size >= bytes && b.alignment >= alignment`. -/
def MemoryBlock.fits (b : MemoryBlock) (bytes alignment : Nat) : Bool :=
  b.free && decide (b.size ≥ bytes) && decide (b.alignment ≥ alignment)

/-- The loop of `do_allocate` (lines 38-44): the first fitting block is marked used and its
address returned; `none` when the loop runs to the end. -/
def allocate_scan (bytes alignment : Nat) : List MemoryBlock → Option (Nat × List MemoryBlock)
  | [] => none
  | b :: rest =>
    if b.fits bytes alignment then
      some (b.ptr, { b with free := false } :: rest)
    else
      match allocate_scan bytes alignment rest with
      | none => none
      | some (p, rest') => some (p, b :: rest')

/-- The method `CustomMemoryResource::do_allocate` (lines 37-50). -/
def do_allocate (sys_new : Nat → Nat) (mr : CustomMemoryResource) (bytes alignment : Nat) :
    Nat × CustomMemoryResource :=
  match allocate_scan bytes alignment mr.used_blocks with
  | some (p, blocks) => (p, { mr with used_blocks := blocks })
  | none =>
    let p := sys_new mr.sys_news.length
    (p, { used_blocks := mr.used_blocks ++ [{ ptr := p, size := bytes, alignment := alignment,
                                              free := false }],
          sys_news := mr.sys_news ++ [{ ptr := p, bytes := bytes, alignment := alignment }] })

/-- The loop of `do_deallocate` (lines 53-59): the first block with the given address is
marked free; `none` when the loop runs to the end. -/
def deallocate_scan (ptr : Nat) : List MemoryBlock → Option (List MemoryBlock)
  | [] => none
  | b :: rest =>
    if b.ptr = ptr then
      some ({ b with free := true } :: rest)
    else
      match deallocate_scan ptr rest with
      | none => none
      | some rest' => some (b :: rest')

/-- The method `CustomMemoryResource::do_deallocate` (lines 52-62).  The arguments `bytes` and
`alignment` are only printed by the source. -/
def do_deallocate (mr : CustomMemoryResource) (ptr : Nat) (_bytes _alignment : Nat) :
    Except Fault CustomMemoryResource :=
  match deallocate_scan ptr mr.used_blocks with
  | some blocks => .ok { mr with used_blocks := blocks }
  | none => .error .logic_error

/-- The addresses of the tracked blocks, in insertion order. -/
def CustomMemoryResource.ptrs (mr : CustomMemoryResource) : List Nat :=
  mr.used_blocks.map MemoryBlock.ptr


/-! ## The element type and the object memory -/

/-- What the array needs to know about its element type `T`.

* `sizeof`, `alignof`: the values of `sizeof(T)` and `alignof(T)`.
* `nothrow_move`: `std::move_if_noexcept` yields an rvalue, so growth moves the elements and
  the move cannot throw.  When it is `false` growth falls back to the copy constructor.
* `copy_throws x`: copy-constructing from the value `x` throws. -/
structure ElemType (T : Type) where
  sizeof : Nat
  alignof : Nat
  nothrow_move : Bool
  copy_throws : T → Bool

/-- Object memory: `m p i` is the live object in slot `i` of the storage region whose handle
is `p`, or `none` when that slot is raw (uninitialised or destroyed). -/
abbrev Mem (T : Type) := Nat → Nat → Option T

/-- Slot `i` of region `p` receives the content `x`. -/
def Mem.write {T : Type} (m : Mem T) (p i : Nat) (x : Option T) : Mem T :=
  fun q j => if q = p ∧ j = i then x else m q j

/-- Reading `ptr[i]`: the pointer must not be null and the slot must hold a live object. -/
def load {T : Type} (m : Mem T) : Option Nat → Nat → Except Fault T
  | none, _ => .error .undefined_behaviour
  | some p, i =>
    match m p i with
    | none => .error .undefined_behaviour
    | some x => .ok x

/-- The call `std::allocator_traits<allocator_type>::destroy(polymorphic_allocator, ptr + i)`:
the destructor runs on the live object of slot `i`, which becomes raw. -/
def destroy {T : Type} (m : Mem T) : Option Nat → Nat → Except Fault (Mem T)
  | none, _ => .error .undefined_behaviour
  | some p, i =>
    match m p i with
    | none => .error .undefined_behaviour
    | some _ => .ok (m.write p i none)

/-! ## The growable array -/

/-- The data members of `PmrVector` (lines 134-137).  The member `polymorphic_allocator` is
the binding to the one memory resource of the `Machine`. -/
structure PmrVector where
  data_pointer : Option Nat
  size : Nat
  capacity : Nat
  deriving DecidableEq, Repr

/-- One array together with the memory resource it allocates from and the object memory. -/
structure Machine (T : Type) where
  mr : CustomMemoryResource
  mem : Mem T
  vec : PmrVector

/-- The loop of lines 147-150 from index `i` with `n` iterations to go: the element of the old
slot is constructed into the new slot (moved, or copied when the move could throw) and then the
old slot is destroyed.  A throwing copy leaves the loop at once. -/
def transfer_loop {T : Type} (E : ElemType T) (old : Option Nat) (new_data : Nat) :
    Nat → Nat → Mem T → Except Fault Unit × Mem T
  | 0, _, m => (.ok (), m)
  | n + 1, i, m =>
    match load m old i with
    | .error e => (.error e, m)
    | .ok x =>
      if !E.nothrow_move && E.copy_throws x then
        (.error .ctor_failure, m)
      else
        let m1 := m.write new_data i (some x)
        match destroy m1 old i with
        | .error e => (.error e, m1)
        | .ok m2 => transfer_loop E old new_data n (i + 1) m2

/-- The method `PmrVector::ensure_capacity` (lines 139-157). -/
def ensure_capacity {T : Type} (E : ElemType T) (sys_new : Nat → Nat) (new_size : Nat)
    (s : Machine T) : Except Fault Unit × Machine T :=
  if new_size ≤ s.vec.capacity then
    (.ok (), s)
  else
    let new_capacity := max new_size (s.vec.capacity * 2)
    let a := do_allocate sys_new s.mr (new_capacity * E.sizeof) E.alignof
    match transfer_loop E s.vec.data_pointer a.1 s.vec.size 0 s.mem with
    | (.error e, m1) => (.error e, { s with mr := a.2, mem := m1 })
    | (.ok (), m1) =>
      match s.vec.data_pointer with
      | none =>
        (.ok (), { mr := a.2, mem := m1,
                   vec := { data_pointer := some a.1, size := s.vec.size,
                            capacity := new_capacity } })
      | some q =>
        match do_deallocate a.2 q (s.vec.capacity * E.sizeof) E.alignof with
        | .error e => (.error e, { s with mr := a.2, mem := m1 })
        | .ok mr2 =>
          (.ok (), { mr := mr2, mem := m1,
                     vec := { data_pointer := some a.1, size := s.vec.size,
                              capacity := new_capacity } })

/-- The constructor `PmrVector(capacity, alloc)` (lines 162-168), on the resource `mr`. -/
def PmrVector.ctor {T : Type} (E : ElemType T) (sys_new : Nat → Nat) (capacity : Nat)
    (mr : CustomMemoryResource) (mem : Mem T) : Machine T :=
  if capacity > 0 then
    let a := do_allocate sys_new mr (capacity * E.sizeof) E.alignof
    { mr := a.2, mem := mem, vec := { data_pointer := some a.1, size := 0, capacity := capacity } }
  else
    { mr := mr, mem := mem, vec := { data_pointer := none, size := 0, capacity := capacity } }

/-- What a reference argument `const T&` refers to: an object outside the storage regions of
the object memory (a local variable, a temporary) with its value, or the object in slot `i`
of the storage region `p`, for instance the element `v[i]` of an array. -/
inductive Ref (T : Type) where
  | object (value : T)
  | slot (p i : Nat)
  deriving DecidableEq, Repr

/-- Reading through a reference, in the object memory as it is at that moment. -/
def Ref.read {T : Type} (m : Mem T) : Ref T → Except Fault T
  | .object value => .ok value
  | .slot p i => load m (some p) i

/-- The method `PmrVector::push_back(const T&)` (lines 170-174).  The reference `value` is
read by the copy constructor at line 172, after `ensure_capacity` has returned. -/
def push_back {T : Type} (E : ElemType T) (sys_new : Nat → Nat) (value : Ref T)
    (s : Machine T) : Except Fault Unit × Machine T :=
  match ensure_capacity E sys_new (s.vec.size + 1) s with
  | (.error e, s1) => (.error e, s1)
  | (.ok (), s1) =>
    match s1.vec.data_pointer with
    | none => (.error .undefined_behaviour, s1)
    | some p =>
      match value.read s1.mem with
      | .error e => (.error e, s1)
      | .ok x =>
        if E.copy_throws x then
          (.error .ctor_failure, s1)
        else
          (.ok (), { s1 with mem := s1.mem.write p s1.vec.size (some x),
                             vec := { s1.vec with size := s1.vec.size + 1 } })

/-- The method `PmrVector::emplace_back` (lines 182-187).  `built` is the outcome of running
the constructor `T(std::forward<Args>(args)...)` on the arguments: the element it builds, or
`none` when it throws. -/
def emplace_back {T : Type} (E : ElemType T) (sys_new : Nat → Nat) (built : Option T)
    (s : Machine T) : Except Fault Unit × Machine T :=
  match ensure_capacity E sys_new (s.vec.size + 1) s with
  | (.error e, s1) => (.error e, s1)
  | (.ok (), s1) =>
    match s1.vec.data_pointer with
    | none => (.error .undefined_behaviour, s1)
    | some p =>
      match built with
      | none => (.error .ctor_failure, s1)
      | some value =>
        (.ok (), { s1 with mem := s1.mem.write p s1.vec.size (some value),
                           vec := { s1.vec with size := s1.vec.size + 1 } })

/-- A client that calls `push_back` on the values of a list, in order, and stops at the first
exception (the loops of `main_test.cpp`, lines 118-120 and 161-163).  Every argument is an
object of its own, as the temporaries `i * 10` and the loop variable `i` of those loops. -/
def push_back_all {T : Type} (E : ElemType T) (sys_new : Nat → Nat) :
    List T → Machine T → Except Fault Unit × Machine T
  | [], s => (.ok (), s)
  | v :: vs, s =>
    match push_back E sys_new (.object v) s with
    | (.error e, s1) => (.error e, s1)
    | (.ok (), s1) => push_back_all E sys_new vs s1

/-- The loop of `clear` (lines 190-193) from index `i` with `n` iterations to go. -/
def destroy_loop {T : Type} (dp : Option Nat) : Nat → Nat → Mem T → Except Fault Unit × Mem T
  | 0, _, m => (.ok (), m)
  | n + 1, i, m =>
    match destroy m dp i with
    | .error e => (.error e, m)
    | .ok m1 => destroy_loop dp n (i + 1) m1

/-- The method `PmrVector::clear` (lines 189-195). -/
def clear {T : Type} (s : Machine T) : Except Fault Unit × Machine T :=
  match destroy_loop s.vec.data_pointer s.vec.size 0 s.mem with
  | (.error e, m1) => (.error e, { s with mem := m1 })
  | (.ok (), m1) => (.ok (), { s with mem := m1, vec := { s.vec with size := 0 } })

/-- The method `PmrVector::operator[]` (lines 197-203).  The reference it returns is modelled
by the element it refers to. -/
def operator_index {T : Type} (index : Nat) (s : Machine T) : Except Fault T × Machine T :=
  if index < s.vec.size then
    (load s.mem s.vec.data_pointer index, s)
  else
    (.error .out_of_range, s)

/-- The reference that `PmrVector::operator[]` (lines 197-203) returns: the slot `index` of
the storage, when `index < size`. -/
def operator_index_ref {T : Type} (index : Nat) (s : Machine T) : Except Fault (Ref T) :=
  if index < s.vec.size then
    match s.vec.data_pointer with
    | none => .error .undefined_behaviour
    | some p => .ok (.slot p index)
  else
    .error .out_of_range

/-- The method `PmrVector::get_size` (lines 221-223). -/
def get_size {T : Type} (s : Machine T) : Nat := s.vec.size

/-- The method `PmrVector::empty` (lines 225-227). -/
def empty {T : Type} (s : Machine T) : Bool := decide (s.vec.size = 0)

/-- The method `PmrVector::front` (lines 229-234). -/
def front {T : Type} (s : Machine T) : Except Fault T × Machine T :=
  if s.vec.size = 0 then
    (.error .out_of_range, s)
  else
    (load s.mem s.vec.data_pointer 0, s)

/-- The method `PmrVector::back` (lines 243-248). -/
def back {T : Type} (s : Machine T) : Except Fault T × Machine T :=
  if s.vec.size = 0 then
    (.error .out_of_range, s)
  else
    (load s.mem s.vec.data_pointer (s.vec.size - 1), s)

/-! ## The forward cursor -/

/-- The data members of `ArrayIterator` (lines 71-73).  `array_pointer` is the address of the
array object, `none` for the null pointer of the default constructor. -/
structure ArrayIterator where
  array_pointer : Option Nat
  current_index : Nat
  array_size : Nat
  deriving DecidableEq, Repr

/-- The method `PmrVector::begin` (lines 213-215); `this` is the address of the array. -/
def vec_begin {T : Type} (this : Nat) (s : Machine T) : ArrayIterator :=
  { array_pointer := some this, current_index := 0, array_size := s.vec.size }

/-- The method `PmrVector::end` (lines 217-219); `this` is the address of the array. -/
def vec_end {T : Type} (this : Nat) (s : Machine T) : ArrayIterator :=
  { array_pointer := some this, current_index := s.vec.size, array_size := s.vec.size }

/-- The method `ArrayIterator::operator*` (lines 88-93); `target` is the array that
`array_pointer` points to. -/
def ArrayIterator.deref {T : Type} (it : ArrayIterator) (target : Machine T) :
    Except Fault T × Machine T :=
  if it.current_index ≥ it.array_size then
    (.error .out_of_range, target)
  else
    operator_index it.current_index target

/-- The method `ArrayIterator::operator->` (lines 95-100); `target` is the array that
`array_pointer` points to. -/
def ArrayIterator.arrow {T : Type} (it : ArrayIterator) (target : Machine T) :
    Except Fault T × Machine T :=
  if it.current_index ≥ it.array_size then
    (.error .out_of_range, target)
  else
    operator_index it.current_index target

/-- The method `ArrayIterator::operator==` (lines 102-104). -/
def ArrayIterator.eq (self other : ArrayIterator) : Bool :=
  decide (other.current_index = self.current_index) &&
    decide (other.array_pointer = self.array_pointer)

/-- The method `ArrayIterator::operator!=` (lines 106-108). -/
def ArrayIterator.ne (self other : ArrayIterator) : Bool :=
  decide (other.current_index ≠ self.current_index) ||
    decide (other.array_pointer ≠ self.array_pointer)

/-- The method `ArrayIterator::operator++()` (lines 110-113). -/
def ArrayIterator.pre_inc (it : ArrayIterator) : ArrayIterator :=
  { it with current_index := it.current_index + 1 }

/-- What a traversal yields: the values read, in the order they were read, and the number of
dereferences performed. -/
structure Reads (T : Type) where
  values : List T
  derefs : Nat

/-- The client loop `for (it = vec.begin(); it != vec.end(); ++it) read *it` of
`main_test.cpp` lines 123-126, from the cursor `it`, with what was read so far in `acc`.
`vec.end()` is evaluated anew at every test of the loop condition.  `none` means that `fuel`
iterations were not enough. -/
def traverse_loop {T : Type} (this : Nat) :
    Nat → Machine T → ArrayIterator → Reads T → Option (Except Fault (Reads T) × Machine T)
  | 0, _, _, _ => none
  | fuel + 1, s, it, acc =>
    if it.ne (vec_end this s) then
      match it.deref s with
      | (.error e, s1) => some (.error e, s1)
      | (.ok x, s1) =>
        traverse_loop this fuel s1 it.pre_inc
          { values := acc.values ++ [x], derefs := acc.derefs + 1 }
    else
      some (.ok acc, s)

/-- The whole traversal, started at `begin()`. -/
def traverse {T : Type} (this : Nat) (fuel : Nat) (s : Machine T) :
    Option (Except Fault (Reads T) × Machine T) :=
  traverse_loop this fuel s (vec_begin this s) { values := [], derefs := 0 }

/-! ## End of life -/

/-- One call `::operator delete(ptr, std::align_val_t(alignment))`. -/
structure DeleteCall where
  ptr : Nat
  alignment : Nat
  deriving DecidableEq, Repr

/-- The loop of the destructor `~CustomMemoryResource` (lines 27-34) over the blocks still to
visit; `deletes` is the trace of the calls to `::operator delete` made so far. -/
def dtor_loop : List MemoryBlock → List DeleteCall → List DeleteCall
  | [], deletes => deletes
  | b :: rest, deletes =>
    dtor_loop rest (deletes ++ [{ ptr := b.ptr, alignment := b.alignment }])

/-- The destructor `~CustomMemoryResource` (lines 26-35): the trace of the calls it makes to
`::operator delete`. -/
def CustomMemoryResource.dtor (mr : CustomMemoryResource) : List DeleteCall :=
  dtor_loop mr.used_blocks []

/-- The destructor `~PmrVector` (lines 258-269).  The element type is destructible. -/
def PmrVector.dtor {T : Type} (E : ElemType T) (s : Machine T) : Except Fault Unit × Machine T :=
  match s.vec.data_pointer with
  | none => (.ok (), s)
  | some q =>
    match destroy_loop s.vec.data_pointer s.vec.size 0 s.mem with
    | (.error e, m1) => (.error e, { s with mem := m1 })
    | (.ok (), m1) =>
      match do_deallocate s.mr q (s.vec.capacity * E.sizeof) E.alignof with
      | .error e => (.error e, { s with mem := m1 })
      | .ok mr1 => (.ok (), { s with mr := mr1, mem := m1 })

/-! ## Well-formed states -/

/-- The memory resource and the system allocator fit together: the tracked addresses are
pairwise distinct, and the addresses the system allocator is going to return are not tracked
and pairwise distinct. -/
def CustomMemoryResource.WF (sys_new : Nat → Nat) (mr : CustomMemoryResource) : Prop :=
  mr.ptrs.Nodup ∧
  (∀ k, mr.sys_news.length ≤ k → sys_new k ∉ mr.ptrs) ∧
  (∀ j k, mr.sys_news.length ≤ j → j < k → sys_new j ≠ sys_new k)

/-- The array holds exactly the elements `es`, in index order. -/
def Machine.holds {T : Type} (s : Machine T) (es : List T) : Prop :=
  s.vec.size = es.length ∧
  ∀ i (h : i < es.length), load s.mem s.vec.data_pointer i = .ok (es.get ⟨i, h⟩)

/-- The storage of the array is a block that the memory resource tracks as used; an array
without storage has capacity `0`. -/
def Machine.storage_ok {T : Type} (s : Machine T) : Prop :=
  match s.vec.data_pointer with
  | none => s.vec.capacity = 0
  | some p => ∃ b ∈ s.mr.used_blocks, b.ptr = p ∧ b.free = false

/-- A state of the growable array as the data model describes it: `size ≤ capacity`, the
slots `[0, size)` hold live elements, and the storage is a used block of a well-formed memory
resource. -/
def Machine.WF {T : Type} (sys_new : Nat → Nat) (s : Machine T) : Prop :=
  s.mr.WF sys_new ∧ s.vec.size ≤ s.vec.capacity ∧ s.storage_ok ∧ ∃ es, s.holds es

/-! ## Clients of the memory resource -/

/-- What identifies a tracked block: address, size and alignment. -/
def MemoryBlock.ident (b : MemoryBlock) : Nat × Nat × Nat := (b.ptr, b.size, b.alignment)

/-- One call of a client to the memory resource. -/
inductive TrackerOp where
  | allocate (bytes alignment : Nat)
  | deallocate (ptr bytes alignment : Nat)
  deriving DecidableEq, Repr

/-- A memory resource in use: its state and the addresses that `allocate` has returned so
far, oldest first. -/
structure TrackerRun where
  mr : CustomMemoryResource
  returned : List Nat
  deriving DecidableEq, Repr

/-- One call.  A release that throws leaves the state as it was; the client goes on. -/
def TrackerRun.step (sys_new : Nat → Nat) (r : TrackerRun) : TrackerOp → TrackerRun
  | .allocate bytes alignment =>
    { mr := (do_allocate sys_new r.mr bytes alignment).2,
      returned := r.returned ++ [(do_allocate sys_new r.mr bytes alignment).1] }
  | .deallocate ptr bytes alignment =>
    match do_deallocate r.mr ptr bytes alignment with
    | .ok mr' => { r with mr := mr' }
    | .error _ => r

/-- A sequence of calls, in order. -/
def TrackerRun.run (sys_new : Nat → Nat) : List TrackerOp → TrackerRun → TrackerRun
  | [], r => r
  | op :: ops, r => TrackerRun.run sys_new ops (r.step sys_new op)

/-! ## The invariant of the array over the object memory -/

/-- Exactly the slots `[0, size)` of the storage of the array hold live elements. -/
def Machine.live_exact {T : Type} (s : Machine T) : Prop :=
  ∀ p, s.vec.data_pointer = some p → ∀ i, (s.mem p i ≠ none ↔ i < s.vec.size)

/-- Live objects only sit in regions that the memory resource tracks as used: what the
resource hands out is raw. -/
def Machine.raw_elsewhere {T : Type} (s : Machine T) : Prop :=
  ∀ p i, s.mem p i ≠ none → ∃ b ∈ s.mr.used_blocks, b.ptr = p ∧ b.free = false

/-- The invariant of the growable array of the data model, over a well-formed memory
resource. -/
def Machine.Inv {T : Type} (sys_new : Nat → Nat) (s : Machine T) : Prop :=
  s.WF sys_new ∧ s.live_exact ∧ s.raw_elsewhere

/-! ## Clients of the array -/

/-- One call of a client to the array.  The argument of `push_back` is an object of its
own with the given value. -/
inductive VecOp (T : Type) where
  | push_back (value : T)
  | emplace_back (built : Option T)
  | clear

/-- The state one call leaves, whether it returns or throws. -/
def VecOp.apply {T : Type} (E : ElemType T) (sys_new : Nat → Nat) (s : Machine T) :
    VecOp T → Machine T
  | .push_back value => (PmrLab.push_back E sys_new (.object value) s).2
  | .emplace_back built => (PmrLab.emplace_back E sys_new built s).2
  | .clear => (PmrLab.clear s).2

/-- A sequence of calls, in order. -/
def run_ops {T : Type} (E : ElemType T) (sys_new : Nat → Nat) :
    List (VecOp T) → Machine T → Machine T
  | [], s => s
  | op :: ops, s => run_ops E sys_new ops (op.apply E sys_new s)

/-- The addresses of the blocks that are used. -/
def CustomMemoryResource.used_ptrs (mr : CustomMemoryResource) : List Nat :=
  (mr.used_blocks.filter (fun b => !b.free)).map MemoryBlock.ptr

/-- The array accounts for its blocks: with `U0` the addresses used before the array was
constructed, every used block is one of those or the storage of the array, those are all
still used, and the storage is none of them. -/
def Machine.accounts {T : Type} (U0 : List Nat) (s : Machine T) : Prop :=
  (∀ b ∈ s.mr.used_blocks, b.free = false → b.ptr ∈ U0 ∨ s.vec.data_pointer = some b.ptr) ∧
  (∀ p ∈ U0, ∃ b ∈ s.mr.used_blocks, b.ptr = p ∧ b.free = false) ∧
  (∀ p, s.vec.data_pointer = some p → p ∉ U0)

/-! ## Counting reallocations -/

/-- The call is an append whose new element gets constructed: a `push_back` of a value whose
copy constructor does not throw, or an `emplace_back` whose constructor returns. -/
def VecOp.pushes {T : Type} (E : ElemType T) : VecOp T → Bool
  | .push_back value => !E.copy_throws value
  | .emplace_back (some _) => true
  | .emplace_back none => false
  | .clear => false

/-- The array has moved to another storage between the two states: it has reallocated. -/
def reallocated {T : Type} (s s' : Machine T) : Bool :=
  decide (s'.vec.data_pointer ≠ s.vec.data_pointer)

/-- The number of calls of a sequence during which the array reallocated. -/
def count_reallocs {T : Type} (E : ElemType T) (sys_new : Nat → Nat) :
    List (VecOp T) → Machine T → Nat
  | [], _ => 0
  | op :: ops, s =>
    (if reallocated s (op.apply E sys_new s) then 1 else 0) +
      count_reallocs E sys_new ops (op.apply E sys_new s)

/-! ## Concrete states used by the examples -/

/-- The system allocator of the examples: the `k`-th request returns the address `100 + k`. -/
def sys_new_ex : Nat → Nat := fun k => 100 + k

/-- The state reached from the empty resource by `allocate(4, 4)`, `allocate(8, 4)` and the
release of both blocks: two free blocks, the smaller one first. -/
def mr_two_free : CustomMemoryResource :=
  { used_blocks := [{ ptr := 100, size := 4, alignment := 4, free := true },
                    { ptr := 101, size := 8, alignment := 4, free := true }],
    sys_news := [{ ptr := 100, bytes := 4, alignment := 4 },
                 { ptr := 101, bytes := 8, alignment := 4 }] }

/-- The empty memory resource: nothing tracked, no request made yet. -/
def mr_empty : CustomMemoryResource := { used_blocks := [], sys_news := [] }

/-- The object memory in which every slot is raw. -/
def mem_raw : Mem Nat := fun _ _ => none

/-- The element type `int`: four bytes, and no constructor throws. -/
def E_int : ElemType Nat :=
  { sizeof := 4, alignof := 4, nothrow_move := true, copy_throws := fun _ => false }

/-- The array of `main_test.cpp` line 145: constructed with capacity `0`, then
`push_back(10)`. -/
def vec_one : Machine Nat :=
  (push_back E_int sys_new_ex (.object 10) (PmrVector.ctor E_int sys_new_ex 0 mr_empty mem_raw)).2

/-- An element type whose move constructor may throw, so that growth copies, and whose copy
constructor throws on the value `7`. -/
def E_copy : ElemType Nat :=
  { sizeof := 4, alignof := 4, nothrow_move := false, copy_throws := fun x => decide (x = 7) }

/-- An array of capacity `2` that received `emplace_back` twice: it holds `5` and `7` and is
full. -/
def vec_five_seven : Machine Nat :=
  (emplace_back E_copy sys_new_ex (some 7)
    (emplace_back E_copy sys_new_ex (some 5)
      (PmrVector.ctor E_copy sys_new_ex 2 mr_empty mem_raw)).2).2

/-- An array of capacity `1` that received one `emplace_back`: it holds `7` and is full. -/
def vec_seven : Machine Nat :=
  (emplace_back E_copy sys_new_ex (some 7)
    (PmrVector.ctor E_copy sys_new_ex 1 mr_empty mem_raw)).2

/-- An array of capacity `2` that received one `emplace_back`: it holds `7` and has room for
one more element. -/
def vec_seven_roomy : Machine Nat :=
  (emplace_back E_copy sys_new_ex (some 7)
    (PmrVector.ctor E_copy sys_new_ex 2 mr_empty mem_raw)).2

/-- The calls of the second demonstration of `main.cpp` (lines 63-67): three
`emplace_back`, here of the elements `1`, `2` and `3`. -/
def three_emplaces : List (VecOp Nat) :=
  [.emplace_back (some 1), .emplace_back (some 2), .emplace_back (some 3)]

/-- An element type like `std::string`: its move constructor cannot throw (growth moves the
elements) and here no copy throws. -/
def E_str : ElemType String :=
  { sizeof := 32, alignof := 8, nothrow_move := true, copy_throws := fun _ => false }

/-- An array of strings constructed with capacity `1` that received `push_back("a")`: it
holds `"a"` and is full. -/
def vec_a : Machine String :=
  (push_back E_str sys_new_ex (.object "a")
    (PmrVector.ctor E_str sys_new_ex 1 mr_empty (fun _ _ => none))).2

/-! # Theorems -/

/-! ### Lemmas on the two scans -/


theorem allocate_scan_none (bytes alignment : Nat) (l : List MemoryBlock) :
    allocate_scan bytes alignment l = none ↔ ∀ b ∈ l, b.fits bytes alignment = false := by
  induction l with
  | nil => simp [allocate_scan]
  | cons b rest ih =>
    by_cases hb : b.fits bytes alignment = true
    · simp [allocate_scan, hb]
    · simp only [Bool.not_eq_true] at hb
      cases hr : allocate_scan bytes alignment rest with
      | none => simpa [allocate_scan, hb, hr] using ih.mp hr
      | some q =>
        have : ¬ ∀ b ∈ rest, b.fits bytes alignment = false := fun h => by
          rw [ih.mpr h] at hr; cases hr
        simp [allocate_scan, hb, hr]
        simpa using this

theorem allocate_scan_some (bytes alignment : Nat) (l : List MemoryBlock)
    (h : ∃ b ∈ l, b.fits bytes alignment = true) :
    ∃ pre b post, l = pre ++ b :: post ∧ (∀ x ∈ pre, x.fits bytes alignment = false) ∧
      b.fits bytes alignment = true ∧
      allocate_scan bytes alignment l = some (b.ptr, pre ++ { b with free := false } :: post) := by
  induction l with
  | nil => simp at h
  | cons a rest ih =>
    by_cases ha : a.fits bytes alignment = true
    · exact ⟨[], a, rest, by simp, by simp, ha, by simp [allocate_scan, ha]⟩
    · simp only [Bool.not_eq_true] at ha
      have h' : ∃ b ∈ rest, b.fits bytes alignment = true := by
        obtain ⟨b, hb, hf⟩ := h
        rcases List.mem_cons.mp hb with rfl | hb
        · rw [ha] at hf; cases hf
        · exact ⟨b, hb, hf⟩
      obtain ⟨pre, b, post, hl, hpre, hb, hs⟩ := ih h'
      refine ⟨a :: pre, b, post, by simp [hl], ?_, hb, ?_⟩
      · intro x hx
        rcases List.mem_cons.mp hx with rfl | hx
        · exact ha
        · exact hpre x hx
      · simp [allocate_scan, ha, hs]

theorem deallocate_scan_none (p : Nat) (l : List MemoryBlock) :
    deallocate_scan p l = none ↔ ∀ b ∈ l, b.ptr ≠ p := by
  induction l with
  | nil => simp [deallocate_scan]
  | cons b rest ih =>
    by_cases hb : b.ptr = p
    · simp [deallocate_scan, hb]
    · cases hr : deallocate_scan p rest with
      | none => simpa [deallocate_scan, hb, hr] using ih.mp hr
      | some q =>
        have : ¬ ∀ b ∈ rest, b.ptr ≠ p := fun h => by
          rw [ih.mpr h] at hr; cases hr
        simp [deallocate_scan, hb, hr]
        simpa using this

theorem deallocate_scan_some (p : Nat) (l : List MemoryBlock) (h : ∃ b ∈ l, b.ptr = p) :
    ∃ pre b post, l = pre ++ b :: post ∧ (∀ x ∈ pre, x.ptr ≠ p) ∧ b.ptr = p ∧
      deallocate_scan p l = some (pre ++ { b with free := true } :: post) := by
  induction l with
  | nil => simp at h
  | cons a rest ih =>
    by_cases ha : a.ptr = p
    · exact ⟨[], a, rest, by simp, by simp, ha, by simp [deallocate_scan, ha]⟩
    · have h' : ∃ b ∈ rest, b.ptr = p := by
        obtain ⟨b, hb, hf⟩ := h
        rcases List.mem_cons.mp hb with rfl | hb
        · exact absurd hf ha
        · exact ⟨b, hb, hf⟩
      obtain ⟨pre, b, post, hl, hpre, hb, hs⟩ := ih h'
      refine ⟨a :: pre, b, post, by simp [hl], ?_, hb, ?_⟩
      · intro x hx
        rcases List.mem_cons.mp hx with rfl | hx
        · exact ha
        · exact hpre x hx
      · simp [deallocate_scan, ha, hs]

theorem fits_iff (b : MemoryBlock) (bytes alignment : Nat) :
    b.fits bytes alignment = true ↔ b.free = true ∧ bytes ≤ b.size ∧ alignment ≤ b.alignment := by
  simp [MemoryBlock.fits, and_assoc]


/-- The two ways `do_allocate` can go. -/
theorem do_allocate_cases (sys_new : Nat → Nat) (mr : CustomMemoryResource)
    (bytes alignment : Nat) :
    ((∀ b ∈ mr.used_blocks, b.fits bytes alignment = false) ∧
      do_allocate sys_new mr bytes alignment =
        (sys_new mr.sys_news.length,
         { used_blocks :=
             mr.used_blocks ++
               [{ ptr := sys_new mr.sys_news.length, size := bytes, alignment := alignment,
                  free := false }],
           sys_news :=
             mr.sys_news ++
               [{ ptr := sys_new mr.sys_news.length, bytes := bytes,
                  alignment := alignment }] })) ∨
    (∃ pre b post,
      mr.used_blocks = pre ++ b :: post ∧ (∀ x ∈ pre, x.fits bytes alignment = false) ∧
      b.fits bytes alignment = true ∧
      do_allocate sys_new mr bytes alignment =
        (b.ptr, { used_blocks := pre ++ { b with free := false } :: post,
                  sys_news := mr.sys_news })) := by
  by_cases hex : ∃ b ∈ mr.used_blocks, b.fits bytes alignment = true
  · right
    obtain ⟨pre, b, post, hl, hpre, hb, hs⟩ := allocate_scan_some bytes alignment _ hex
    exact ⟨pre, b, post, hl, hpre, hb, by simp [do_allocate, hs]⟩
  · left
    have hall : ∀ b ∈ mr.used_blocks, b.fits bytes alignment = false := by
      intro b hb
      by_contra hf
      exact hex ⟨b, hb, by simpa using hf⟩
    have hn := (allocate_scan_none bytes alignment mr.used_blocks).mpr hall
    exact ⟨hall, by simp [do_allocate, hn]⟩

/-- A release of a tracked address succeeds and flips the first block with that address. -/
theorem do_deallocate_ok (mr : CustomMemoryResource) (p bytes alignment : Nat)
    (h : ∃ b ∈ mr.used_blocks, b.ptr = p) :
    ∃ pre b post,
      mr.used_blocks = pre ++ b :: post ∧ (∀ x ∈ pre, x.ptr ≠ p) ∧ b.ptr = p ∧
      do_deallocate mr p bytes alignment =
        .ok { used_blocks := pre ++ { b with free := true } :: post,
              sys_news := mr.sys_news } := by
  obtain ⟨pre, b, post, hl, hpre, hb, hs⟩ := deallocate_scan_some p _ h
  exact ⟨pre, b, post, hl, hpre, hb, by simp [do_deallocate, hs]⟩

/-- The address `do_allocate` returns is tracked afterwards, by a used block. -/
theorem do_allocate_tracked (sys_new : Nat → Nat) (mr : CustomMemoryResource)
    (bytes alignment : Nat) :
    ∃ b ∈ (do_allocate sys_new mr bytes alignment).2.used_blocks,
      b.ptr = (do_allocate sys_new mr bytes alignment).1 ∧ b.free = false := by
  rcases do_allocate_cases sys_new mr bytes alignment with ⟨-, h⟩ | ⟨pre, b, post, -, -, -, h⟩
  · rw [h]
    exact ⟨_, List.mem_append_right _ (List.mem_singleton.mpr rfl), rfl, rfl⟩
  · rw [h]
    exact ⟨{ b with free := false }, by simp, rfl, rfl⟩

/-! ## The memory resource: allocation and release -/

/-- C1 (first-fit reuse).  If some tracked block is free with `size ≥ bytes` and
`alignment ≥ alignment`, the registry splits as `pre ++ b :: post` where `b` is the first such
block in insertion order, `do_allocate` returns the address of `b`, the registry afterwards is
the same list with only the flag of `b` set to used (address, size and alignment of `b` and
every other block are unchanged, no block is added), and the trace of requests to the system
allocator is unchanged. -/
theorem do_allocate_first_fit (sys_new : Nat → Nat) (mr : CustomMemoryResource)
    (bytes alignment : Nat)
    (h : ∃ b ∈ mr.used_blocks, b.free = true ∧ bytes ≤ b.size ∧ alignment ≤ b.alignment) :
    ∃ pre b post,
      mr.used_blocks = pre ++ b :: post ∧
      (∀ x ∈ pre, ¬ (x.free = true ∧ bytes ≤ x.size ∧ alignment ≤ x.alignment)) ∧
      (b.free = true ∧ bytes ≤ b.size ∧ alignment ≤ b.alignment) ∧
      do_allocate sys_new mr bytes alignment =
        (b.ptr,
         { used_blocks :=
             pre ++ { ptr := b.ptr, size := b.size, alignment := b.alignment, free := false }
               :: post,
           sys_news := mr.sys_news }) := by
  have h' : ∃ b ∈ mr.used_blocks, b.fits bytes alignment = true := by
    obtain ⟨b, hb, hf⟩ := h
    exact ⟨b, hb, (fits_iff b bytes alignment).mpr hf⟩
  obtain ⟨pre, b, post, hl, hpre, hb, hs⟩ := allocate_scan_some bytes alignment _ h'
  refine ⟨pre, b, post, hl, ?_, (fits_iff b bytes alignment).mp hb, ?_⟩
  · intro x hx hfit
    have := hpre x hx
    rw [(fits_iff x bytes alignment).mpr hfit] at this
    cases this
  · simp [do_allocate, hs]

/-- Witness of C1: a registry with a used block, a free block that is too small and two free
blocks that fit. -/
theorem do_allocate_first_fit_witness :
    ∃ pre b post,
      [({ ptr := 10, size := 8, alignment := 8, free := false } : MemoryBlock),
        { ptr := 11, size := 2, alignment := 8, free := true },
        { ptr := 12, size := 8, alignment := 8, free := true },
        { ptr := 13, size := 16, alignment := 8, free := true }] = pre ++ b :: post ∧
      (∀ x ∈ pre, ¬ (x.free = true ∧ 4 ≤ x.size ∧ 4 ≤ x.alignment)) ∧
      (b.free = true ∧ 4 ≤ b.size ∧ 4 ≤ b.alignment) ∧
      do_allocate (fun k => 100 + k)
          { used_blocks :=
              [{ ptr := 10, size := 8, alignment := 8, free := false },
               { ptr := 11, size := 2, alignment := 8, free := true },
               { ptr := 12, size := 8, alignment := 8, free := true },
               { ptr := 13, size := 16, alignment := 8, free := true }],
            sys_news := [] } 4 4 =
        (b.ptr,
         { used_blocks :=
             pre ++ { ptr := b.ptr, size := b.size, alignment := b.alignment, free := false }
               :: post,
           sys_news := [] }) :=
  do_allocate_first_fit (fun k => 100 + k)
    { used_blocks :=
        [{ ptr := 10, size := 8, alignment := 8, free := false },
         { ptr := 11, size := 2, alignment := 8, free := true },
         { ptr := 12, size := 8, alignment := 8, free := true },
         { ptr := 13, size := 16, alignment := 8, free := true }],
      sys_news := [] } 4 4
    ⟨{ ptr := 12, size := 8, alignment := 8, free := true }, by decide, by decide⟩

/-- C2 (allocation miss).  If no tracked block is free with `size ≥ bytes` and
`alignment ≥ alignment`, `do_allocate` makes exactly one request `(bytes, alignment)` to the
system allocator, returns the address `p` that request yields, appends the one block
`(p, bytes, alignment, used)` at the end of the registry and leaves the blocks tracked before
unchanged. -/
theorem do_allocate_miss (sys_new : Nat → Nat) (mr : CustomMemoryResource)
    (bytes alignment : Nat)
    (h : ∀ b ∈ mr.used_blocks, ¬ (b.free = true ∧ bytes ≤ b.size ∧ alignment ≤ b.alignment)) :
    do_allocate sys_new mr bytes alignment =
      (sys_new mr.sys_news.length,
       { used_blocks :=
           mr.used_blocks ++
             [{ ptr := sys_new mr.sys_news.length, size := bytes, alignment := alignment,
                free := false }],
         sys_news :=
           mr.sys_news ++
             [{ ptr := sys_new mr.sys_news.length, bytes := bytes, alignment := alignment }] }) := by
  have hn : allocate_scan bytes alignment mr.used_blocks = none := by
    rw [allocate_scan_none]
    intro b hb
    have := h b hb
    rw [← fits_iff] at this
    simpa using this
  simp [do_allocate, hn]

/-- Witness of C2: a used block and a free block that is too small. -/
theorem do_allocate_miss_witness :
    do_allocate (fun k => 100 + k)
        { used_blocks :=
            [{ ptr := 10, size := 8, alignment := 8, free := false },
             { ptr := 11, size := 2, alignment := 8, free := true }],
          sys_news := [] } 4 4 =
      (100,
       { used_blocks :=
           [{ ptr := 10, size := 8, alignment := 8, free := false },
            { ptr := 11, size := 2, alignment := 8, free := true },
            { ptr := 100, size := 4, alignment := 4, free := false }],
         sys_news := [{ ptr := 100, bytes := 4, alignment := 4 }] }) :=
  do_allocate_miss (fun k => 100 + k)
    { used_blocks :=
        [{ ptr := 10, size := 8, alignment := 8, free := false },
         { ptr := 11, size := 2, alignment := 8, free := true }],
      sys_news := [] } 4 4 (by decide)

/-- C3 (invalid release).  `do_deallocate` fails exactly when no tracked block has the address
`p`, and the failure is the invalid-release error; when some tracked block has the address
`p` the call succeeds, the first block with that address (the only one when the tracked
addresses are pairwise distinct) has its flag set to free, every other block, the order of
the registry and the trace of system requests are unchanged; and the address returned by
`do_allocate` is accepted by `do_deallocate` on the state `do_allocate` leaves. -/
theorem do_deallocate_spec (mr : CustomMemoryResource) (p bytes alignment : Nat) :
    (do_deallocate mr p bytes alignment = .error .logic_error ↔
        ∀ b ∈ mr.used_blocks, b.ptr ≠ p) ∧
    ((∀ mr', do_deallocate mr p bytes alignment ≠ .ok mr') ↔
        ∀ b ∈ mr.used_blocks, b.ptr ≠ p) ∧
    ((∃ b ∈ mr.used_blocks, b.ptr = p) →
      ∃ pre b post,
        mr.used_blocks = pre ++ b :: post ∧ (∀ x ∈ pre, x.ptr ≠ p) ∧ b.ptr = p ∧
        do_deallocate mr p bytes alignment =
          .ok { used_blocks :=
                  pre ++ { ptr := b.ptr, size := b.size, alignment := b.alignment, free := true }
                    :: post,
                sys_news := mr.sys_news }) ∧
    (∀ (sys_new : Nat → Nat) (bytes' alignment' : Nat),
      ∃ mr', do_deallocate (do_allocate sys_new mr bytes' alignment').2
          (do_allocate sys_new mr bytes' alignment').1 bytes alignment = .ok mr') := by
  have hfail : do_deallocate mr p bytes alignment = .error .logic_error ↔
      ∀ b ∈ mr.used_blocks, b.ptr ≠ p := by
    rw [← deallocate_scan_none]
    cases hs : deallocate_scan p mr.used_blocks <;> simp [do_deallocate, hs]
  refine ⟨hfail, ?_, ?_, ?_⟩
  · rw [← hfail]
    cases hs : deallocate_scan p mr.used_blocks <;> simp [do_deallocate, hs]
  · intro h
    obtain ⟨pre, b, post, hl, hpre, hb, hd⟩ := do_deallocate_ok mr p bytes alignment h
    exact ⟨pre, b, post, hl, hpre, hb, hd⟩
  · intro sys_new bytes' alignment'
    obtain ⟨b, hb, hp, -⟩ := do_allocate_tracked sys_new mr bytes' alignment'
    obtain ⟨pre, b', post, -, -, -, hd⟩ := do_deallocate_ok _ _ bytes alignment ⟨b, hb, hp⟩
    exact ⟨_, hd⟩

theorem deallocate_scan_split (p : Nat) (pre : List MemoryBlock) (b : MemoryBlock)
    (post : List MemoryBlock) (hpre : ∀ x ∈ pre, x.ptr ≠ p) (hb : b.ptr = p) :
    deallocate_scan p (pre ++ b :: post) = some (pre ++ { b with free := true } :: post) := by
  induction pre with
  | nil => simp [deallocate_scan, hb]
  | cons a pre ih =>
    have ha : a.ptr ≠ p := hpre a (List.mem_cons_self _ _)
    have ih' := ih (fun x hx => hpre x (List.mem_cons_of_mem _ hx))
    simp [deallocate_scan, ha, ih']

theorem allocate_scan_split (bytes alignment : Nat) (pre : List MemoryBlock) (b : MemoryBlock)
    (post : List MemoryBlock) (hpre : ∀ x ∈ pre, x.fits bytes alignment = false)
    (hb : b.fits bytes alignment = true) :
    allocate_scan bytes alignment (pre ++ b :: post) =
      some (b.ptr, pre ++ { b with free := false } :: post) := by
  induction pre with
  | nil => simp [allocate_scan, hb]
  | cons a pre ih =>
    have ha : a.fits bytes alignment = false := hpre a (List.mem_cons_self _ _)
    have ih' := ih (fun x hx => hpre x (List.mem_cons_of_mem _ hx))
    simp [allocate_scan, ha, ih']

/-- A hit of `do_allocate` leaves the tracked addresses and the system trace as they were. -/
theorem do_allocate_hit (sys_new : Nat → Nat) (mr : CustomMemoryResource) (bytes alignment : Nat)
    (pre : List MemoryBlock) (b : MemoryBlock) (post : List MemoryBlock)
    (hl : mr.used_blocks = pre ++ b :: post)
    (hpre : ∀ x ∈ pre, x.fits bytes alignment = false) (hb : b.fits bytes alignment = true) :
    do_allocate sys_new mr bytes alignment =
      (b.ptr, { used_blocks := pre ++ { b with free := false } :: post,
                sys_news := mr.sys_news }) := by
  simp [do_allocate, hl, allocate_scan_split bytes alignment pre b post hpre hb]

/-- In a list with pairwise distinct addresses, the blocks before a block do not have its
address. -/
theorem ptr_ne_of_nodup (pre : List MemoryBlock) (b : MemoryBlock) (post : List MemoryBlock)
    (h : ((pre ++ b :: post).map MemoryBlock.ptr).Nodup) : ∀ x ∈ pre, x.ptr ≠ b.ptr := by
  intro x hx heq
  rw [List.map_append, List.map_cons, List.nodup_append] at h
  exact h.2.2 (List.mem_map_of_mem _ hx) (by simp [heq])

/-- C4, as amended (reuse law).  Let the tracked addresses be pairwise distinct and let the
system allocator return an address that is not tracked.  If `allocate(S, A)` returns `p` and
`deallocate(p, S, A)` follows, the release succeeds and leaves a free block with address `p`,
size `≥ S` and alignment `≥ A`; for `S' ≤ S` and `A' ≤ A` the following `allocate(S', A')`
makes no request to the system allocator and adds no block, and it returns `p` exactly when
no block tracked before the block of `p` is free with size `≥ S'` and alignment `≥ A'`. -/
theorem reuse_law_first_fit (sys_new : Nat → Nat) (mr : CustomMemoryResource)
    (S A S' A' : Nat) (hS : S' ≤ S) (hA : A' ≤ A)
    (hnd : mr.ptrs.Nodup) (hfresh : sys_new mr.sys_news.length ∉ mr.ptrs) :
    ∃ mr2 pre b post,
      do_deallocate (do_allocate sys_new mr S A).2 (do_allocate sys_new mr S A).1 S A = .ok mr2 ∧
      mr2.used_blocks = pre ++ b :: post ∧
      b.ptr = (do_allocate sys_new mr S A).1 ∧ b.free = true ∧ S ≤ b.size ∧ A ≤ b.alignment ∧
      (do_allocate sys_new mr2 S' A').2.sys_news = mr2.sys_news ∧
      (do_allocate sys_new mr2 S' A').2.ptrs = mr2.ptrs ∧
      ((do_allocate sys_new mr2 S' A').1 = (do_allocate sys_new mr S A).1 ↔
        ∀ x ∈ pre, ¬ (x.free = true ∧ S' ≤ x.size ∧ A' ≤ x.alignment)) := by
  -- the state after the release: the block of `p` is free and fits the first request
  have step1 : ∃ pre b post,
      do_deallocate (do_allocate sys_new mr S A).2 (do_allocate sys_new mr S A).1 S A =
        .ok { used_blocks := pre ++ b :: post, sys_news := (do_allocate sys_new mr S A).2.sys_news } ∧
      b.ptr = (do_allocate sys_new mr S A).1 ∧ b.free = true ∧ S ≤ b.size ∧ A ≤ b.alignment ∧
      ((pre ++ b :: post).map MemoryBlock.ptr).Nodup := by
    rcases do_allocate_cases sys_new mr S A with ⟨-, h⟩ | ⟨pre, b, post, hl, -, hb, h⟩
    · refine ⟨mr.used_blocks, ⟨sys_new mr.sys_news.length, S, A, true⟩, [], ?_, ?_, rfl,
        le_refl _, le_refl _, ?_⟩
      · rw [h]
        have hpre : ∀ x ∈ mr.used_blocks, x.ptr ≠ sys_new mr.sys_news.length := by
          intro x hx heq
          exact hfresh (heq ▸ List.mem_map_of_mem _ hx)
        simp only [do_deallocate]
        rw [deallocate_scan_split _ mr.used_blocks _ [] hpre rfl]
      · rw [h]
      · rw [List.map_append, List.nodup_append]
        refine ⟨hnd, by simp, ?_⟩
        intro a ha hb
        simp only [List.map_cons, List.map_nil, List.mem_singleton] at hb
        exact hfresh (hb ▸ ha)
    · have hnd' : ((pre ++ b :: post).map MemoryBlock.ptr).Nodup := by
        have := hnd
        simp only [CustomMemoryResource.ptrs, hl] at this
        exact this
      have hfit := (fits_iff b S A).mp hb
      refine ⟨pre, b, post, ?_, ?_, hfit.1, hfit.2.1, hfit.2.2, hnd'⟩
      · rw [h]
        simp only [do_deallocate]
        rw [deallocate_scan_split b.ptr pre { b with free := false } post
          (ptr_ne_of_nodup pre b post hnd') rfl]
        cases b
        simp_all
      · rw [h]
  obtain ⟨pre, b, post, hd, hp, hfree, hsz, hal, hnd2⟩ := step1
  refine ⟨_, pre, b, post, hd, rfl, hp, hfree, hsz, hal, ?_⟩
  have hbfit : b.fits S' A' = true :=
    (fits_iff b S' A').mpr ⟨hfree, le_trans hS hsz, le_trans hA hal⟩
  -- the second allocation is a hit
  rcases do_allocate_cases sys_new
      { used_blocks := pre ++ b :: post, sys_news := (do_allocate sys_new mr S A).2.sys_news }
      S' A' with ⟨hall, -⟩ | ⟨pre', b', post', hl', hpre', hb', h'⟩
  · have := hall b (by simp)
    rw [hbfit] at this
    cases this
  · rw [h']
    refine ⟨rfl, ?_, ?_⟩
    · simp only [CustomMemoryResource.ptrs]
      have hl'' : pre ++ b :: post = pre' ++ b' :: post' := hl'
      rw [hl'']
      simp
    · have hl'' : pre ++ b :: post = pre' ++ b' :: post' := hl'
      constructor
      · intro heq x hx hxfit
        -- `b'` has the address of `b`; by distinctness they sit at the same place
        have hptr : b'.ptr = b.ptr := by rw [hp]; exact heq
        have hpre_eq : pre = pre' := by
          have hnd3 := hnd2
          rw [hl''] at hnd3
          by_contra hne
          rcases List.append_eq_append_iff.mp hl'' with ⟨a', h1, h2⟩ | ⟨c', h1, h2⟩
          · cases a' with
            | nil => simp at h1; exact hne h1.symm
            | cons c cs =>
              simp only [List.cons_append, List.cons.injEq] at h2
              have hbin : b ∈ pre' := by rw [h1]; simp [h2.1]
              exact ptr_ne_of_nodup pre' b' post' hnd3 b hbin hptr.symm
          · cases c' with
            | nil => simp at h1; exact hne h1
            | cons c cs =>
              simp only [List.cons_append, List.cons.injEq] at h2
              have hbin : b' ∈ pre := by rw [h1]; simp [h2.1]
              exact ptr_ne_of_nodup pre b post hnd2 b' hbin hptr
        have := hpre' x (hpre_eq ▸ hx)
        rw [(fits_iff x S' A').mpr hxfit] at this
        cases this
      · intro hnone
        have hpre_no : ∀ x ∈ pre, x.fits S' A' = false := by
          intro x hx
          by_contra hf
          exact hnone x hx ((fits_iff x S' A').mp (by simpa using hf))
        have e1 := allocate_scan_split S' A' pre b post hpre_no hbfit
        have e2 := allocate_scan_split S' A' pre' b' post' hpre' hb'
        rw [hl'', e2] at e1
        simp only [Option.some.injEq, Prod.mk.injEq] at e1
        show b'.ptr = _
        rw [e1.1, hp]

/-- Witness of the amended C4: on `mr_two_free`, `allocate(8, 4)` returns `101`; after its
release `allocate(6, 2)` returns `101` again, because the block before it is too small. -/
theorem reuse_law_first_fit_witness :
    ∃ mr2 pre b post,
      do_deallocate (do_allocate sys_new_ex mr_two_free 8 4).2
        (do_allocate sys_new_ex mr_two_free 8 4).1 8 4 = .ok mr2 ∧
      mr2.used_blocks = pre ++ b :: post ∧
      b.ptr = (do_allocate sys_new_ex mr_two_free 8 4).1 ∧ b.free = true ∧
      8 ≤ b.size ∧ 4 ≤ b.alignment ∧
      (do_allocate sys_new_ex mr2 6 2).2.sys_news = mr2.sys_news ∧
      (do_allocate sys_new_ex mr2 6 2).2.ptrs = mr2.ptrs ∧
      ((do_allocate sys_new_ex mr2 6 2).1 = (do_allocate sys_new_ex mr_two_free 8 4).1 ↔
        ∀ x ∈ pre, ¬ (x.free = true ∧ 6 ≤ x.size ∧ 2 ≤ x.alignment)) :=
  reuse_law_first_fit sys_new_ex mr_two_free 8 4 6 2 (by decide) (by decide) (by decide)
    (by decide)

/-- C4 as stated fails.  The state `mr_two_free` is reached from the empty resource through
`allocate` and `deallocate` only.  On it `allocate(8, 4)` returns `101` and
`deallocate(101, 8, 4)` succeeds, but the following `allocate(4, 4)` (with `4 ≤ 8`, `4 ≤ 4`)
returns `100`, the address of the smaller free block that comes first in the registry. -/
theorem reuse_law_counterexample :
    (do_deallocate (do_allocate sys_new_ex (do_allocate sys_new_ex ⟨[], []⟩ 4 4).2 8 4).2 100 4 4
        >>= fun m => do_deallocate m 101 8 4) = .ok mr_two_free ∧
    (do_allocate sys_new_ex mr_two_free 8 4).1 = 101 ∧
    do_deallocate (do_allocate sys_new_ex mr_two_free 8 4).2 101 8 4 = .ok mr_two_free ∧
    (do_allocate sys_new_ex mr_two_free 4 4).1 = 100 ∧
    (do_allocate sys_new_ex mr_two_free 4 4).2.sys_news = mr_two_free.sys_news :=
  ⟨rfl, rfl, rfl, rfl, rfl⟩

/-! ## The memory resource under the array: preservation lemmas -/

theorem do_deallocate_ptrs (mr mr' : CustomMemoryResource) (p bytes alignment : Nat)
    (h : do_deallocate mr p bytes alignment = .ok mr') :
    mr'.ptrs = mr.ptrs ∧ mr'.sys_news = mr.sys_news := by
  cases hs : deallocate_scan p mr.used_blocks with
  | none => simp [do_deallocate, hs] at h
  | some l =>
    have hex : ∃ b ∈ mr.used_blocks, b.ptr = p := by
      by_contra hc
      have : deallocate_scan p mr.used_blocks = none := by
        rw [deallocate_scan_none]
        intro b hb heq
        exact hc ⟨b, hb, heq⟩
      rw [this] at hs; cases hs
    obtain ⟨pre, b, post, hl, -, -, hd⟩ := do_deallocate_ok mr p bytes alignment hex
    rw [hd] at h
    cases h
    simp [CustomMemoryResource.ptrs, hl]

theorem do_deallocate_keeps (mr mr' : CustomMemoryResource) (p bytes alignment : Nat)
    (h : do_deallocate mr p bytes alignment = .ok mr') :
    ∀ x ∈ mr.used_blocks, x.ptr ≠ p → x ∈ mr'.used_blocks := by
  cases hs : deallocate_scan p mr.used_blocks with
  | none => simp [do_deallocate, hs] at h
  | some l =>
    have hex : ∃ b ∈ mr.used_blocks, b.ptr = p := by
      by_contra hc
      have : deallocate_scan p mr.used_blocks = none := by
        rw [deallocate_scan_none]
        intro b hb heq
        exact hc ⟨b, hb, heq⟩
      rw [this] at hs; cases hs
    obtain ⟨pre, b, post, hl, -, hb, hd⟩ := do_deallocate_ok mr p bytes alignment hex
    rw [hd] at h
    cases h
    intro x hx hne
    rw [hl] at hx
    rcases List.mem_append.mp hx with hx | hx
    · exact List.mem_append_left _ hx
    · rcases List.mem_cons.mp hx with rfl | hx
      · exact absurd hb hne
      · exact List.mem_append_right _ (List.mem_cons_of_mem _ hx)

theorem do_deallocate_WF (sys_new : Nat → Nat) (mr mr' : CustomMemoryResource)
    (p bytes alignment : Nat) (hwf : mr.WF sys_new)
    (h : do_deallocate mr p bytes alignment = .ok mr') : mr'.WF sys_new := by
  obtain ⟨hp, hn⟩ := do_deallocate_ptrs mr mr' p bytes alignment h
  unfold CustomMemoryResource.WF at *
  rw [hp, hn]
  exact hwf

theorem do_allocate_WF (sys_new : Nat → Nat) (mr : CustomMemoryResource) (bytes alignment : Nat)
    (hwf : mr.WF sys_new) : (do_allocate sys_new mr bytes alignment).2.WF sys_new := by
  obtain ⟨hnd, hfresh, hdist⟩ := hwf
  rcases do_allocate_cases sys_new mr bytes alignment with ⟨-, h⟩ | ⟨pre, b, post, hl, -, -, h⟩
  · rw [h]
    refine ⟨?_, ?_, ?_⟩
    · simp only [CustomMemoryResource.ptrs, List.map_append, List.map_cons, List.map_nil]
      rw [List.nodup_append]
      refine ⟨hnd, by simp, ?_⟩
      intro a ha hb
      simp only [List.mem_singleton] at hb
      exact hfresh _ (le_refl _) (hb ▸ ha)
    · intro k hk
      simp only [List.length_append, List.length_singleton] at hk
      simp only [CustomMemoryResource.ptrs, List.map_append, List.map_cons, List.map_nil,
        List.mem_append, List.mem_singleton, not_or]
      exact ⟨hfresh k (by omega), fun heq => hdist _ k (le_refl _) (by omega) heq.symm⟩
    · intro j k hj hjk
      simp only [List.length_append, List.length_singleton] at hj
      exact hdist j k (by omega) hjk
  · rw [h]
    have hp : (CustomMemoryResource.mk (pre ++ { b with free := false } :: post)
        mr.sys_news).ptrs = mr.ptrs := by
      simp [CustomMemoryResource.ptrs, hl]
    exact ⟨hp ▸ hnd, fun k hk => hp ▸ hfresh k hk, hdist⟩

theorem do_allocate_keeps_used (sys_new : Nat → Nat) (mr : CustomMemoryResource)
    (bytes alignment : Nat) :
    ∀ x ∈ mr.used_blocks, x.free = false →
      x ∈ (do_allocate sys_new mr bytes alignment).2.used_blocks := by
  intro x hx hfree
  rcases do_allocate_cases sys_new mr bytes alignment with ⟨-, h⟩ | ⟨pre, b, post, hl, -, hb, h⟩
  · rw [h]
    exact List.mem_append_left _ hx
  · rw [h]
    rw [hl] at hx
    rcases List.mem_append.mp hx with hx | hx
    · exact List.mem_append_left _ hx
    · rcases List.mem_cons.mp hx with rfl | hx
      · have := ((fits_iff x bytes alignment).mp hb).1
        rw [hfree] at this
        cases this
      · exact List.mem_append_right _ (List.mem_cons_of_mem _ hx)

/-- Two blocks of a registry with pairwise distinct addresses that share an address are the
same block. -/
theorem eq_of_ptr_eq (l : List MemoryBlock) (h : (l.map MemoryBlock.ptr).Nodup)
    (x y : MemoryBlock) (hx : x ∈ l) (hy : y ∈ l) (hxy : x.ptr = y.ptr) : x = y := by
  induction l with
  | nil => simp at hx
  | cons a l ih =>
    rw [List.map_cons, List.nodup_cons] at h
    rcases List.mem_cons.mp hx with hxa | hxl
    · rcases List.mem_cons.mp hy with hya | hyl
      · rw [hxa, hya]
      · exact absurd (hxa ▸ hxy ▸ List.mem_map_of_mem MemoryBlock.ptr hyl) h.1
    · rcases List.mem_cons.mp hy with hya | hyl
      · exact absurd (hya ▸ hxy ▸ List.mem_map_of_mem MemoryBlock.ptr hxl) h.1
      · exact ih h.2 hxl hyl

/-- In a well-formed resource a new allocation never returns the address of a used block. -/
theorem do_allocate_ne_used (sys_new : Nat → Nat) (mr : CustomMemoryResource)
    (bytes alignment : Nat) (hwf : mr.WF sys_new) :
    ∀ x ∈ mr.used_blocks, x.free = false →
      x.ptr ≠ (do_allocate sys_new mr bytes alignment).1 := by
  intro x hx hfree heq
  obtain ⟨hnd, hfresh, -⟩ := hwf
  rcases do_allocate_cases sys_new mr bytes alignment with ⟨-, h⟩ | ⟨pre, b, post, hl, -, hb, h⟩
  · rw [h] at heq
    have heq' : x.ptr = sys_new mr.sys_news.length := heq
    exact hfresh _ (le_refl _) (heq' ▸ List.mem_map_of_mem _ hx)
  · rw [h] at heq
    have hbmem : b ∈ mr.used_blocks := by rw [hl]; simp
    have := eq_of_ptr_eq mr.used_blocks hnd x b hx hbmem heq
    have hbf := ((fits_iff b bytes alignment).mp hb).1
    rw [← this, hfree] at hbf
    cases hbf

/-! ## The object memory -/

theorem Mem.write_same {T : Type} (m : Mem T) (p i : Nat) (x : Option T) :
    (m.write p i x) p i = x := by
  simp [Mem.write]

theorem Mem.write_other {T : Type} (m : Mem T) (p i : Nat) (x : Option T) (q j : Nat)
    (h : ¬ (q = p ∧ j = i)) : (m.write p i x) q j = m q j := by
  simp [Mem.write, h]

/-- The transfer loop on live elements whose construction does not throw, into a region
different from the old one: every element arrives in the new region, the old slots are
destroyed, and no other slot of the memory changes. -/
theorem transfer_loop_ok {T : Type} (E : ElemType T) (q p1 : Nat) (hne : p1 ≠ q) (n : Nat) :
    ∀ (i : Nat) (m : Mem T),
      (∀ j, i ≤ j → j < i + n →
        ∃ x, m q j = some x ∧ (E.nothrow_move = true ∨ E.copy_throws x = false)) →
      ∃ m', transfer_loop E (some q) p1 n i m = (.ok (), m') ∧
        (∀ j, i ≤ j → j < i + n → m' p1 j = m q j) ∧
        (∀ j, i ≤ j → j < i + n → m' q j = none) ∧
        (∀ r k, ¬ (i ≤ k ∧ k < i + n ∧ (r = p1 ∨ r = q)) → m' r k = m r k) := by
  induction n with
  | zero =>
    intro i m _
    exact ⟨m, rfl, fun j h1 h2 => by omega, fun j h1 h2 => by omega, fun r k _ => rfl⟩
  | succ n ih =>
    intro i m hlive
    obtain ⟨x, hx, hsafe⟩ := hlive i (le_refl _) (by omega)
    have hcond : (!E.nothrow_move && E.copy_throws x) = false := by
      rcases hsafe with h | h <;> simp [h]
    have hm1 : (m.write p1 i (some x)) q i = some x := by
      rw [Mem.write_other _ _ _ _ _ _ (by simp [Ne.symm hne])]
      exact hx
    have hlive2 : ∀ j, i + 1 ≤ j → j < i + 1 + n →
        ∃ y, ((m.write p1 i (some x)).write q i none) q j = some y ∧
          (E.nothrow_move = true ∨ E.copy_throws y = false) := by
      intro j h1 h2
      obtain ⟨y, hy, hs⟩ := hlive j (by omega) (by omega)
      refine ⟨y, ?_, hs⟩
      rw [Mem.write_other _ _ _ _ _ _ (by omega), Mem.write_other _ _ _ _ _ _ (by omega)]
      exact hy
    obtain ⟨m', hrun, hnew, hold, hframe⟩ := ih (i + 1) _ hlive2
    refine ⟨m', ?_, ?_, ?_, ?_⟩
    · simp only [transfer_loop, load, hx, hcond, destroy, hm1]
      simpa using hrun
    · intro j h1 h2
      by_cases hj : j = i
      · subst hj
        rw [hframe p1 j (by omega), Mem.write_other _ _ _ _ _ _ (by simp [hne]),
          Mem.write_same, hx]
      · rw [hnew j (by omega) (by omega), Mem.write_other _ _ _ _ _ _ (by omega),
          Mem.write_other _ _ _ _ _ _ (by omega)]
    · intro j h1 h2
      by_cases hj : j = i
      · subst hj
        rw [hframe q j (by omega), Mem.write_same]
      · exact hold j (by omega) (by omega)
    · intro r k hk
      rw [hframe r k (by omega)]
      have h1 : ¬ (r = q ∧ k = i) := by omega
      have h2 : ¬ (r = p1 ∧ k = i) := by omega
      rw [Mem.write_other _ _ _ _ _ _ h1, Mem.write_other _ _ _ _ _ _ h2]

/-! ## Growth of the array -/

theorem holds_slot {T : Type} (s : Machine T) (es : List T) (hes : s.holds es) (q : Nat)
    (hq : s.vec.data_pointer = some q) (i : Nat) (h : i < es.length) :
    s.mem q i = some (es.get ⟨i, h⟩) := by
  have := hes.2 i h
  rw [hq] at this
  simp only [load] at this
  cases hm : s.mem q i with
  | none => rw [hm] at this; cases this
  | some x =>
    rw [hm] at this
    simp only [Except.ok.injEq] at this
    rw [this]

theorem holds_of_slots {T : Type} (s : Machine T) (es : List T) (p : Nat)
    (hp : s.vec.data_pointer = some p) (hsize : s.vec.size = es.length)
    (h : ∀ i (hi : i < es.length), s.mem p i = some (es.get ⟨i, hi⟩)) : s.holds es := by
  refine ⟨hsize, fun i hi => ?_⟩
  rw [hp]
  simp [load, h i hi]

/-- Growth on a well-formed state whose elements can be transferred without a throw. -/
theorem ensure_capacity_grow {T : Type} (E : ElemType T) (sys_new : Nat → Nat) (new_size : Nat)
    (s : Machine T) (es : List T) (hwf : s.WF sys_new) (hes : s.holds es)
    (hsafe : E.nothrow_move = true ∨ ∀ x ∈ es, E.copy_throws x = false)
    (hgt : s.vec.capacity < new_size) :
    ∃ s', ensure_capacity E sys_new new_size s = (.ok (), s') ∧
      s'.WF sys_new ∧ s'.holds es ∧
      s'.vec.size = s.vec.size ∧
      s'.vec.capacity = max new_size (s.vec.capacity * 2) ∧
      s'.vec.data_pointer =
        some (do_allocate sys_new s.mr
          (max new_size (s.vec.capacity * 2) * E.sizeof) E.alignof).1 ∧
      (s.vec.data_pointer = none →
        s'.mr = (do_allocate sys_new s.mr
          (max new_size (s.vec.capacity * 2) * E.sizeof) E.alignof).2) ∧
      (∀ q, s.vec.data_pointer = some q →
        do_deallocate (do_allocate sys_new s.mr
          (max new_size (s.vec.capacity * 2) * E.sizeof) E.alignof).2 q
          (s.vec.capacity * E.sizeof) E.alignof = .ok s'.mr) := by
  obtain ⟨hmr, hle, hst, -⟩ := hwf
  have hnle : ¬ new_size ≤ s.vec.capacity := by omega
  have hmr1 := do_allocate_WF sys_new s.mr
    (max new_size (s.vec.capacity * 2) * E.sizeof) E.alignof hmr
  obtain ⟨b1, hb1, hb1p, hb1f⟩ := do_allocate_tracked sys_new s.mr
    (max new_size (s.vec.capacity * 2) * E.sizeof) E.alignof
  cases hdp : s.vec.data_pointer with
  | none =>
    have hcap : s.vec.capacity = 0 := by
      have := hst
      simp only [Machine.storage_ok, hdp] at this
      exact this
    have hsz : s.vec.size = 0 := by omega
    have hnil : es = [] := by
      have := hes.1
      rw [hsz] at this
      exact List.length_eq_zero.mp this.symm
    subst hnil
    have hrun : ensure_capacity E sys_new new_size s =
        (.ok (), { mr := (do_allocate sys_new s.mr
                      (max new_size (s.vec.capacity * 2) * E.sizeof) E.alignof).2,
                   mem := s.mem,
                   vec := { data_pointer := some (do_allocate sys_new s.mr
                              (max new_size (s.vec.capacity * 2) * E.sizeof) E.alignof).1,
                            size := s.vec.size,
                            capacity := max new_size (s.vec.capacity * 2) } }) := by
      simp only [ensure_capacity, hnle, if_false, hdp, hsz, transfer_loop]
    refine ⟨_, hrun, ?_, ?_, ?_, ?_, ?_, ?_, ?_⟩
    · refine ⟨hmr1, ?_, ?_, [], ?_⟩
      · show s.vec.size ≤ max new_size (s.vec.capacity * 2)
        omega
      · exact ⟨b1, hb1, hb1p, hb1f⟩
      · exact ⟨hsz, fun i hi => absurd hi (by simp)⟩
    · exact ⟨hsz, fun i hi => absurd hi (by simp)⟩
    · rfl
    · rfl
    · rfl
    · intro _; rfl
    · intro q hq; cases hq
  | some q =>
    obtain ⟨b0, hb0, hb0p, hb0f⟩ : ∃ b ∈ s.mr.used_blocks, b.ptr = q ∧ b.free = false := by
      have := hst
      simp only [Machine.storage_ok, hdp] at this
      exact this
    have hne : (do_allocate sys_new s.mr
        (max new_size (s.vec.capacity * 2) * E.sizeof) E.alignof).1 ≠ q := by
      have := do_allocate_ne_used sys_new s.mr
        (max new_size (s.vec.capacity * 2) * E.sizeof) E.alignof hmr b0 hb0 hb0f
      rw [hb0p] at this
      exact fun h => this h.symm
    have hb0' := do_allocate_keeps_used sys_new s.mr
      (max new_size (s.vec.capacity * 2) * E.sizeof) E.alignof b0 hb0 hb0f
    obtain ⟨pre, b, post, -, -, -, hd⟩ := do_deallocate_ok _ q (s.vec.capacity * E.sizeof)
      E.alignof ⟨b0, hb0', hb0p⟩
    have hlive : ∀ j, 0 ≤ j → j < 0 + s.vec.size →
        ∃ x, s.mem q j = some x ∧ (E.nothrow_move = true ∨ E.copy_throws x = false) := by
      intro j _ hj
      have hj' : j < es.length := by rw [← hes.1]; omega
      refine ⟨es.get ⟨j, hj'⟩, holds_slot s es hes q hdp j hj', ?_⟩
      rcases hsafe with h | h
      · exact Or.inl h
      · exact Or.inr (h _ (List.get_mem _ _ _))
    obtain ⟨m', hloop, hnew, -, -⟩ := transfer_loop_ok E q _ hne s.vec.size 0 s.mem hlive
    have hrun : ensure_capacity E sys_new new_size s =
        (.ok (), { mr := { used_blocks := pre ++ { b with free := true } :: post,
                           sys_news := (do_allocate sys_new s.mr
                              (max new_size (s.vec.capacity * 2) * E.sizeof)
                              E.alignof).2.sys_news },
                   mem := m',
                   vec := { data_pointer := some (do_allocate sys_new s.mr
                              (max new_size (s.vec.capacity * 2) * E.sizeof) E.alignof).1,
                            size := s.vec.size,
                            capacity := max new_size (s.vec.capacity * 2) } }) := by
      simp only [ensure_capacity, hnle, if_false, hdp, hloop, hd]
    refine ⟨_, hrun, ?_, ?_, ?_, ?_, ?_, ?_, ?_⟩
    · refine ⟨do_deallocate_WF sys_new _ _ q _ _ hmr1 hd, ?_, ?_, es, ?_⟩
      · show s.vec.size ≤ max new_size (s.vec.capacity * 2)
        omega
      · refine ⟨b1, ?_, hb1p, hb1f⟩
        exact do_deallocate_keeps _ _ q _ _ hd b1 hb1 (by rw [hb1p]; exact hne)
      · refine holds_of_slots _ es _ rfl hes.1 fun i hi => ?_
        show m' _ i = _
        rw [hnew i (by omega) (by rw [hes.1]; omega)]
        exact holds_slot s es hes q hdp i hi
    · refine holds_of_slots _ es _ rfl hes.1 fun i hi => ?_
      show m' _ i = _
      rw [hnew i (by omega) (by rw [hes.1]; omega)]
      exact holds_slot s es hes q hdp i hi
    · rfl
    · rfl
    · rfl
    · intro h; cases h
    · intro q' hq'
      cases hq'
      exact hd

/-! ## Appending -/

/-- The second half of `push_back` and `emplace_back`: the new element is constructed in
slot `size` and `size` is incremented. -/
theorem construct_at_end {T : Type} (sys_new : Nat → Nat) (s : Machine T) (es : List T)
    (value : T) (p : Nat) (hwf : s.WF sys_new) (hes : s.holds es)
    (hp : s.vec.data_pointer = some p) (hcap : s.vec.size + 1 ≤ s.vec.capacity) :
    Machine.WF sys_new
        { s with mem := s.mem.write p s.vec.size (some value),
                 vec := { s.vec with size := s.vec.size + 1 } } ∧
      Machine.holds
        { s with mem := s.mem.write p s.vec.size (some value),
                 vec := { s.vec with size := s.vec.size + 1 } } (es ++ [value]) := by
  obtain ⟨hmr, -, hst, -⟩ := hwf
  have hholds : Machine.holds
      { s with mem := s.mem.write p s.vec.size (some value),
               vec := { s.vec with size := s.vec.size + 1 } } (es ++ [value]) := by
    refine holds_of_slots _ _ p hp (by simp [hes.1]) fun i hi => ?_
    show (s.mem.write p s.vec.size (some value)) p i = _
    by_cases hlt : i < es.length
    · rw [Mem.write_other _ _ _ _ _ _ (by rw [hes.1]; omega), holds_slot s es hes p hp i hlt]
      simp [List.getElem_append_left, hlt]
    · have hi' : i = es.length := by
        simp only [List.length_append, List.length_singleton] at hi
        omega
      subst hi'
      have hw : (s.mem.write p s.vec.size (some value)) p es.length = some value := by
        rw [← hes.1]
        exact Mem.write_same _ _ _ _
      rw [hw]
      simp
  refine ⟨⟨hmr, hcap, ?_, _, hholds⟩, hholds⟩
  simp only [Machine.storage_ok] at hst ⊢
  exact hst

/-- A `push_back` on a well-formed state, when no constructor involved throws. -/
theorem push_back_ok {T : Type} (E : ElemType T) (sys_new : Nat → Nat) (value : T)
    (s : Machine T) (es : List T) (hwf : s.WF sys_new) (hes : s.holds es)
    (hsafe : E.nothrow_move = true ∨ ∀ x ∈ es, E.copy_throws x = false)
    (hval : E.copy_throws value = false) :
    ∃ s', push_back E sys_new (.object value) s = (.ok (), s') ∧ s'.WF sys_new ∧
      s'.holds (es ++ [value]) ∧
      s'.vec.capacity =
        (if s.vec.size + 1 ≤ s.vec.capacity then s.vec.capacity
         else max (s.vec.size + 1) (s.vec.capacity * 2)) := by
  by_cases hle : s.vec.size + 1 ≤ s.vec.capacity
  · have hens : ensure_capacity E sys_new (s.vec.size + 1) s = (.ok (), s) := by
      simp [ensure_capacity, hle]
    cases hdp : s.vec.data_pointer with
    | none =>
      have := hwf.2.2.1
      simp only [Machine.storage_ok, hdp] at this
      omega
    | some p =>
      obtain ⟨h1, h2⟩ := construct_at_end sys_new s es value p hwf hes hdp hle
      refine ⟨_, ?_, h1, h2, by simp [hle]⟩
      simp only [push_back, Ref.read, hens, hdp, hval]
      rfl
  · obtain ⟨s1, hens, hwf1, hes1, hsz1, hcap1, hdp1, -, -⟩ :=
      ensure_capacity_grow E sys_new (s.vec.size + 1) s es hwf hes hsafe (by omega)
    have hle1 : s1.vec.size + 1 ≤ s1.vec.capacity := by
      rw [hsz1, hcap1]
      exact le_max_left _ _
    obtain ⟨h1, h2⟩ := construct_at_end sys_new s1 es value _ hwf1 hes1 hdp1 hle1
    refine ⟨_, ?_, h1, h2, by simp [hle, hcap1]⟩
    simp only [push_back, Ref.read, hens, hdp1, hval]
    rfl

/-- The constructor yields a well-formed empty array of the requested capacity. -/
theorem ctor_ok {T : Type} (E : ElemType T) (sys_new : Nat → Nat) (capacity : Nat)
    (mr : CustomMemoryResource) (mem : Mem T) (hmr : mr.WF sys_new) :
    (PmrVector.ctor E sys_new capacity mr mem).WF sys_new ∧
      (PmrVector.ctor E sys_new capacity mr mem).holds [] ∧
      (PmrVector.ctor E sys_new capacity mr mem).vec.capacity = capacity ∧
      (PmrVector.ctor E sys_new capacity mr mem).vec.size = 0 := by
  by_cases hc : capacity > 0
  · have hholds : (PmrVector.ctor E sys_new capacity mr mem).holds [] := by
      refine ⟨by simp [PmrVector.ctor, hc], fun i hi => absurd hi (by simp)⟩
    refine ⟨⟨?_, ?_, ?_, [], hholds⟩, hholds, ?_, ?_⟩
    · simp only [PmrVector.ctor, hc, if_true]
      exact do_allocate_WF sys_new mr _ _ hmr
    · simp [PmrVector.ctor, hc]
    · simp only [PmrVector.ctor, hc, if_true, Machine.storage_ok]
      exact do_allocate_tracked sys_new mr _ _
    · simp [PmrVector.ctor, hc]
    · simp [PmrVector.ctor, hc]
  · have hholds : (PmrVector.ctor E sys_new capacity mr mem).holds [] := by
      refine ⟨by simp [PmrVector.ctor, hc], fun i hi => absurd hi (by simp)⟩
    refine ⟨⟨?_, ?_, ?_, [], hholds⟩, hholds, ?_, ?_⟩
    · simp only [PmrVector.ctor, hc, if_false]
      exact hmr
    · simp [PmrVector.ctor, hc]
    · simp only [PmrVector.ctor, hc, if_false, Machine.storage_ok]
      omega
    · simp [PmrVector.ctor, hc]
    · simp [PmrVector.ctor, hc]

/-- Two well-formed arrays of equal size and capacity receive the same values: both runs
succeed, both arrays hold their old elements followed by the new values, and the capacities
stay equal. -/
theorem push_back_all_pair {T : Type} (E : ElemType T) (f g : Nat → Nat) (vals : List T)
    (hvals : ∀ x ∈ vals, E.copy_throws x = false) :
    ∀ (s t : Machine T) (es et : List T), s.WF f → t.WF g → s.holds es → t.holds et →
      (E.nothrow_move = true ∨ ∀ x ∈ es, E.copy_throws x = false) →
      (E.nothrow_move = true ∨ ∀ x ∈ et, E.copy_throws x = false) →
      s.vec.capacity = t.vec.capacity → s.vec.size = t.vec.size →
      ∃ s' t', push_back_all E f vals s = (.ok (), s') ∧
        push_back_all E g vals t = (.ok (), t') ∧ s'.WF f ∧ t'.WF g ∧
        s'.holds (es ++ vals) ∧ t'.holds (et ++ vals) ∧
        s'.vec.capacity = t'.vec.capacity := by
  induction vals with
  | nil =>
    intro s t es et hs ht hes het _ _ hcap _
    exact ⟨s, t, rfl, rfl, hs, ht, by simpa using hes, by simpa using het, hcap⟩
  | cons v vs ih =>
    intro s t es et hs ht hes het hse hte hcap hsz
    have hv : E.copy_throws v = false := hvals v (List.mem_cons_self _ _)
    have hvs : ∀ x ∈ vs, E.copy_throws x = false :=
      fun x hx => hvals x (List.mem_cons_of_mem _ hx)
    obtain ⟨s1, hps, hs1, hes1, hcs⟩ := push_back_ok E f v s es hs hes hse hv
    obtain ⟨t1, hpt, ht1, het1, hct⟩ := push_back_ok E g v t et ht het hte hv
    have hse1 : E.nothrow_move = true ∨ ∀ x ∈ es ++ [v], E.copy_throws x = false := by
      rcases hse with h | h
      · exact Or.inl h
      · refine Or.inr fun x hx => ?_
        rcases List.mem_append.mp hx with hx | hx
        · exact h x hx
        · rw [List.mem_singleton.mp hx]; exact hv
    have hte1 : E.nothrow_move = true ∨ ∀ x ∈ et ++ [v], E.copy_throws x = false := by
      rcases hte with h | h
      · exact Or.inl h
      · refine Or.inr fun x hx => ?_
        rcases List.mem_append.mp hx with hx | hx
        · exact h x hx
        · rw [List.mem_singleton.mp hx]; exact hv
    have hcap1 : s1.vec.capacity = t1.vec.capacity := by rw [hcs, hct, hcap, hsz]
    have hsz1 : s1.vec.size = t1.vec.size := by
      rw [hes1.1, het1.1]
      simp only [List.length_append, List.length_singleton]
      rw [← hes.1, ← het.1, hsz]
    obtain ⟨s', t', h1, h2, h3, h4, h5, h6, h7⟩ :=
      ih hvs s1 t1 _ _ hs1 ht1 hes1 het1 hse1 hte1 hcap1 hsz1
    refine ⟨s', t', ?_, ?_, h3, h4, by simpa using h5, by simpa using h6, h7⟩
    · simp only [push_back_all, hps]
      exact h1
    · simp only [push_back_all, hpt]
      exact h2

/-! ## The growable array: the claims -/

theorem mr_empty_WF : mr_empty.WF sys_new_ex := by
  refine ⟨by simp [mr_empty, CustomMemoryResource.ptrs],
    by simp [mr_empty, CustomMemoryResource.ptrs], ?_⟩
  intro j k _ hjk
  simp only [sys_new_ex]
  omega

theorem vec_one_ok : vec_one.WF sys_new_ex ∧ vec_one.holds [10] := by
  obtain ⟨h1, h2, -, -⟩ := ctor_ok E_int sys_new_ex 0 mr_empty mem_raw mr_empty_WF
  obtain ⟨s', hp, hwf, hh, -⟩ := push_back_ok E_int sys_new_ex 10 _ [] h1 h2 (Or.inl rfl) rfl
  have : vec_one = s' := by
    simp only [vec_one, hp]
  rw [this]
  exact ⟨hwf, by simpa using hh⟩

/-- Appending objects of their own.  On a well-formed memory resource, constructing an array
with any initial capacity `c` and calling `push_back` on objects with the values of `vals`,
in order, when no copy constructor throws on them, succeeds; afterwards `get_size()` is the
number of values, `empty()` holds exactly when there are none, and `operator[](i)` returns
the `i`-th pushed value for every `i` below that number, without a range error and without
changing the array. -/
theorem push_back_sequence {T : Type} (E : ElemType T) (sys_new : Nat → Nat) (c : Nat)
    (mr : CustomMemoryResource) (mem : Mem T) (vals : List T) (hmr : mr.WF sys_new)
    (hvals : ∀ x ∈ vals, E.copy_throws x = false) :
    ∃ s', push_back_all E sys_new vals (PmrVector.ctor E sys_new c mr mem) = (.ok (), s') ∧
      get_size s' = vals.length ∧
      empty s' = decide (vals.length = 0) ∧
      ∀ i (h : i < vals.length), operator_index i s' = (.ok (vals.get ⟨i, h⟩), s') := by
  obtain ⟨h1, h2, -, -⟩ := ctor_ok E sys_new c mr mem hmr
  obtain ⟨s', -, hrun, -, -, -, hh, -, -⟩ :=
    push_back_all_pair E sys_new sys_new vals hvals _ _ [] [] h1 h1 h2 h2
      (Or.inr (by simp)) (Or.inr (by simp)) rfl rfl
  simp only [List.nil_append] at hh
  refine ⟨s', hrun, hh.1, by simp [empty, hh.1], fun i h => ?_⟩
  simp only [operator_index, hh.1, h, if_true, hh.2 i h]

/-- An instance: the run of `main_test.cpp` lines 156-170, capacity `1` and the values
`0, …, 9`. -/
theorem push_back_sequence_witness :
    ∃ s', push_back_all E_int sys_new_ex [0, 1, 2, 3, 4, 5, 6, 7, 8, 9]
        (PmrVector.ctor E_int sys_new_ex 1 mr_empty mem_raw) = (.ok (), s') ∧
      get_size s' = [0, 1, 2, 3, 4, 5, 6, 7, 8, 9].length ∧
      empty s' = decide ([0, 1, 2, 3, 4, 5, 6, 7, 8, 9].length = 0) ∧
      ∀ i (h : i < [0, 1, 2, 3, 4, 5, 6, 7, 8, 9].length),
        operator_index i s' = (.ok ([0, 1, 2, 3, 4, 5, 6, 7, 8, 9].get ⟨i, h⟩), s') :=
  push_back_sequence E_int sys_new_ex 1 mr_empty mem_raw [0, 1, 2, 3, 4, 5, 6, 7, 8, 9]
    mr_empty_WF (fun _ _ => rfl)

/-- C5 fails on the code.  The array `vec_a` of strings was constructed with capacity `1` and
received `push_back("a")`: it holds `"a"` in slot `0` of its storage `100` and is full.  The
call `v.push_back(v[0])` passes the reference to that slot.  `push_back` first calls
`ensure_capacity(2)`, which moves the element to the new storage `101`, destroys slot `0` of
the old storage and releases the old block; only then line 172 copy-constructs the new
element from the reference, which now names a destroyed object.  The call does not append
the pushed value `"a"`: in the model it ends in undefined behaviour and index `1` is out of
range, whereas the same value passed as an object of its own is appended and read back. -/
theorem push_back_of_own_element_reads_destroyed :
    vec_a.vec = { data_pointer := some 100, size := 1, capacity := 1 } ∧
    (operator_index 0 vec_a).1 = .ok "a" ∧
    operator_index_ref 0 vec_a = .ok (.slot 100 0) ∧
    (ensure_capacity E_str sys_new_ex 2 vec_a).1 = .ok () ∧
    (ensure_capacity E_str sys_new_ex 2 vec_a).2.vec =
      { data_pointer := some 101, size := 1, capacity := 2 } ∧
    (ensure_capacity E_str sys_new_ex 2 vec_a).2.mem 100 0 = none ∧
    (ensure_capacity E_str sys_new_ex 2 vec_a).2.mem 101 0 = some "a" ∧
    (ensure_capacity E_str sys_new_ex 2 vec_a).2.mr.used_blocks =
      [{ ptr := 100, size := 32, alignment := 8, free := true },
       { ptr := 101, size := 64, alignment := 8, free := false }] ∧
    (push_back E_str sys_new_ex (.slot 100 0) vec_a).1 = .error .undefined_behaviour ∧
    get_size (push_back E_str sys_new_ex (.slot 100 0) vec_a).2 = 1 ∧
    (operator_index 1 (push_back E_str sys_new_ex (.slot 100 0) vec_a).2).1 =
      .error .out_of_range ∧
    (push_back E_str sys_new_ex (.object "a") vec_a).1 = .ok () ∧
    (operator_index 1 (push_back E_str sys_new_ex (.object "a") vec_a).2).1 = .ok "a" :=
  ⟨rfl, rfl, rfl, rfl, rfl, rfl, rfl, rfl, rfl, rfl, rfl, rfl, rfl⟩

/-- C6 (range law).  For an array holding the elements `es` and every index `i`:
`operator[](i)` fails with the range error exactly when `i ≥ size` and otherwise returns the
element of slot `i`; `front()` and `back()` fail with the range error exactly when
`size = 0` and otherwise return the elements of slot `0` and of slot `size - 1`; none of the
three calls changes the state. -/
theorem range_law {T : Type} (s : Machine T) (es : List T) (hes : s.holds es) (i : Nat) :
    ((operator_index i s).1 = .error .out_of_range ↔ s.vec.size ≤ i) ∧
    (∀ h : i < es.length, (operator_index i s).1 = .ok (es.get ⟨i, h⟩)) ∧
    ((front s).1 = .error .out_of_range ↔ s.vec.size = 0) ∧
    (∀ h : 0 < es.length, (front s).1 = .ok (es.get ⟨0, h⟩)) ∧
    ((back s).1 = .error .out_of_range ↔ s.vec.size = 0) ∧
    (∀ h : 0 < es.length,
      (back s).1 = .ok (es.get ⟨s.vec.size - 1, by rw [hes.1]; omega⟩)) ∧
    (operator_index i s).2 = s ∧ (front s).2 = s ∧ (back s).2 = s := by
  obtain ⟨hsz, hslots⟩ := hes
  refine ⟨?_, ?_, ?_, ?_, ?_, ?_, ?_, ?_, ?_⟩
  · by_cases h : i < s.vec.size
    · have h' : i < es.length := by omega
      simp [operator_index, h, hslots i h']
    · simp only [operator_index, h, if_false, true_iff]
      omega
  · intro h
    have h' : i < s.vec.size := by omega
    simp [operator_index, h', hslots i h]
  · by_cases h : s.vec.size = 0
    · simp [front, h]
    · have h' : 0 < es.length := by omega
      simp [front, h, hslots 0 h']
  · intro h
    have h' : s.vec.size ≠ 0 := by omega
    simp [front, h', hslots 0 h]
  · by_cases h : s.vec.size = 0
    · simp [back, h]
    · have h' : s.vec.size - 1 < es.length := by omega
      simp [back, h, hslots _ h']
  · intro h
    have h' : s.vec.size ≠ 0 := by omega
    have h'' : s.vec.size - 1 < es.length := by omega
    simp [back, h', hslots _ h'']
  · unfold operator_index; split <;> rfl
  · unfold front; split <;> rfl
  · unfold back; split <;> rfl

/-- Witness of C6: the array of `main_test.cpp` lines 145-150 and the index `1`. -/
theorem range_law_witness :
    ((operator_index 1 vec_one).1 = .error .out_of_range ↔ vec_one.vec.size ≤ 1) ∧
    (∀ h : 1 < [10].length, (operator_index 1 vec_one).1 = .ok ([10].get ⟨1, h⟩)) ∧
    ((front vec_one).1 = .error .out_of_range ↔ vec_one.vec.size = 0) ∧
    (∀ h : 0 < [10].length, (front vec_one).1 = .ok ([10].get ⟨0, h⟩)) ∧
    ((back vec_one).1 = .error .out_of_range ↔ vec_one.vec.size = 0) ∧
    (∀ h : 0 < [10].length,
      (back vec_one).1 =
        .ok ([10].get ⟨vec_one.vec.size - 1, by rw [vec_one_ok.2.1]; omega⟩)) ∧
    (operator_index 1 vec_one).2 = vec_one ∧ (front vec_one).2 = vec_one ∧
    (back vec_one).2 = vec_one :=
  range_law vec_one [10] vec_one_ok.2 1

/-- C7 (growth algorithm).  On a well-formed state holding the elements `es`, none of whose
transfer throws: when `new_size ≤ capacity`, `ensure_capacity(new_size)` returns the state it
was given (nothing changes, no allocation); otherwise it succeeds, the new storage is the
address returned by the one call `allocate(max(new_size, 2 * capacity))` of the allocator
(a request of that many elements to the memory resource), the capacity becomes
`max(new_size, 2 * capacity)`, the size is unchanged, the array holds the same elements `es`
in the same order, and the memory resource is the state after that allocation when the array
had no storage, and that state after the release of the old storage when it had. -/
theorem ensure_capacity_spec {T : Type} (E : ElemType T) (sys_new : Nat → Nat) (new_size : Nat)
    (s : Machine T) (es : List T) (hwf : s.WF sys_new) (hes : s.holds es)
    (hsafe : E.nothrow_move = true ∨ ∀ x ∈ es, E.copy_throws x = false) :
    (new_size ≤ s.vec.capacity → ensure_capacity E sys_new new_size s = (.ok (), s)) ∧
    (s.vec.capacity < new_size →
      ∃ s', ensure_capacity E sys_new new_size s = (.ok (), s') ∧
        s'.vec.data_pointer =
          some (do_allocate sys_new s.mr
            (max new_size (2 * s.vec.capacity) * E.sizeof) E.alignof).1 ∧
        s'.vec.capacity = max new_size (2 * s.vec.capacity) ∧
        s'.vec.size = s.vec.size ∧
        s'.holds es ∧
        (∀ i, i < s.vec.size →
          load s'.mem s'.vec.data_pointer i = load s.mem s.vec.data_pointer i) ∧
        (s.vec.data_pointer = none →
          s'.mr = (do_allocate sys_new s.mr
            (max new_size (2 * s.vec.capacity) * E.sizeof) E.alignof).2) ∧
        (∀ q, s.vec.data_pointer = some q →
          do_deallocate (do_allocate sys_new s.mr
            (max new_size (2 * s.vec.capacity) * E.sizeof) E.alignof).2 q
            (s.vec.capacity * E.sizeof) E.alignof = .ok s'.mr)) := by
  constructor
  · intro h
    simp [ensure_capacity, h]
  · intro h
    obtain ⟨s', hrun, -, hes', hsz, hcap, hdp, hnone, hsome⟩ :=
      ensure_capacity_grow E sys_new new_size s es hwf hes hsafe h
    rw [Nat.mul_comm s.vec.capacity 2] at hcap hdp hnone hsome
    refine ⟨s', hrun, hdp, hcap, hsz, hes', ?_, hnone, hsome⟩
    intro i hi
    have hi' : i < es.length := by rw [← hes.1]; exact hi
    rw [hes'.2 i hi', hes.2 i hi']

/-- Witness of C7: the array holding `[10]` with capacity `1` is asked for room for `2`. -/
theorem ensure_capacity_spec_witness :
    (2 ≤ vec_one.vec.capacity → ensure_capacity E_int sys_new_ex 2 vec_one = (.ok (), vec_one)) ∧
    (vec_one.vec.capacity < 2 →
      ∃ s', ensure_capacity E_int sys_new_ex 2 vec_one = (.ok (), s') ∧
        s'.vec.data_pointer =
          some (do_allocate sys_new_ex vec_one.mr
            (max 2 (2 * vec_one.vec.capacity) * E_int.sizeof) E_int.alignof).1 ∧
        s'.vec.capacity = max 2 (2 * vec_one.vec.capacity) ∧
        s'.vec.size = vec_one.vec.size ∧
        s'.holds [10] ∧
        (∀ i, i < vec_one.vec.size →
          load s'.mem s'.vec.data_pointer i = load vec_one.mem vec_one.vec.data_pointer i) ∧
        (vec_one.vec.data_pointer = none →
          s'.mr = (do_allocate sys_new_ex vec_one.mr
            (max 2 (2 * vec_one.vec.capacity) * E_int.sizeof) E_int.alignof).2) ∧
        (∀ q, vec_one.vec.data_pointer = some q →
          do_deallocate (do_allocate sys_new_ex vec_one.mr
            (max 2 (2 * vec_one.vec.capacity) * E_int.sizeof) E_int.alignof).2 q
            (vec_one.vec.capacity * E_int.sizeof) E_int.alignof = .ok s'.mr)) :=
  ensure_capacity_spec E_int sys_new_ex 2 vec_one [10] vec_one_ok.1 vec_one_ok.2 (Or.inl rfl)

/-- C8 fails on the code.  The array `vec_five_seven` holds `5` and `7` in a full storage of
capacity `2`; copying `7` throws.  `push_back(9)` calls `ensure_capacity(3)`, whose loop
copies `5` into the new storage, destroys slot `0` of the old storage and then throws on
`7`.  Afterwards size, capacity and storage of the array are unchanged, slot `1` still holds
`7`, but slot `0` of the old storage is destroyed although `size` is still `2`, and the new
block stays marked used in the memory resource. -/
theorem growth_copy_failure_destroys_transferred :
    vec_five_seven.vec = { data_pointer := some 100, size := 2, capacity := 2 } ∧
    (operator_index 0 vec_five_seven).1 = .ok 5 ∧
    (operator_index 1 vec_five_seven).1 = .ok 7 ∧
    (push_back E_copy sys_new_ex (.object 9) vec_five_seven).1 = .error .ctor_failure ∧
    (ensure_capacity E_copy sys_new_ex 3 vec_five_seven).1 = .error .ctor_failure ∧
    (push_back E_copy sys_new_ex (.object 9) vec_five_seven).2.vec = vec_five_seven.vec ∧
    (push_back E_copy sys_new_ex (.object 9) vec_five_seven).2.mem 100 0 = none ∧
    (push_back E_copy sys_new_ex (.object 9) vec_five_seven).2.mem 100 1 = some 7 ∧
    (operator_index 0 (push_back E_copy sys_new_ex (.object 9) vec_five_seven).2).1 =
      .error .undefined_behaviour ∧
    (push_back E_copy sys_new_ex (.object 9) vec_five_seven).2.mr.used_blocks =
      [{ ptr := 100, size := 8, alignment := 4, free := false },
       { ptr := 101, size := 16, alignment := 4, free := false }] :=
  ⟨rfl, rfl, rfl, rfl, rfl, rfl, rfl, rfl, rfl, rfl⟩

/-! ## Reading, clearing, traversing -/

/-- What the three accessors return on an array that holds the elements `es`. -/
theorem read_of_holds {T : Type} (s : Machine T) (es : List T) (hes : s.holds es) :
    (∀ i, (operator_index i s).1 =
      if h : i < es.length then .ok (es.get ⟨i, h⟩) else .error .out_of_range) ∧
    (front s).1 = (if h : 0 < es.length then .ok (es.get ⟨0, h⟩) else .error .out_of_range) ∧
    (back s).1 =
      (if h : 0 < es.length then .ok (es.get ⟨es.length - 1, by omega⟩)
       else .error .out_of_range) := by
  obtain ⟨hsz, hslots⟩ := hes
  refine ⟨fun i => ?_, ?_, ?_⟩
  · by_cases h : i < es.length
    · have h' : i < s.vec.size := by omega
      simp [operator_index, h, h', hslots i h]
    · have h' : ¬ i < s.vec.size := by omega
      simp [operator_index, h, h']
  · by_cases h : 0 < es.length
    · have h' : s.vec.size ≠ 0 := by omega
      simp [front, h, h', hslots 0 h]
    · have h' : s.vec.size = 0 := by omega
      simp [front, h, h']
  · by_cases h : 0 < es.length
    · have h' : s.vec.size ≠ 0 := by omega
      have h'' : es.length - 1 < es.length := by omega
      have h3 : es.length ≠ 0 := by omega
      simp only [back, h, dite_true, hsz, hslots _ h'', h3, if_false]
    · have h' : s.vec.size = 0 := by omega
      simp [back, h, h']

theorem destroy_loop_ok {T : Type} (p n : Nat) :
    ∀ (i : Nat) (m : Mem T), (∀ j, i ≤ j → j < i + n → ∃ x, m p j = some x) →
      ∃ m', destroy_loop (some p) n i m = (.ok (), m') := by
  induction n with
  | zero => intro i m _; exact ⟨m, rfl⟩
  | succ n ih =>
    intro i m hlive
    obtain ⟨x, hx⟩ := hlive i (le_refl _) (by omega)
    have hlive2 : ∀ j, i + 1 ≤ j → j < i + 1 + n → ∃ y, (m.write p i none) p j = some y := by
      intro j h1 h2
      obtain ⟨y, hy⟩ := hlive j (by omega) (by omega)
      exact ⟨y, by rw [Mem.write_other _ _ _ _ _ _ (by omega)]; exact hy⟩
    obtain ⟨m', hrun⟩ := ih (i + 1) _ hlive2
    exact ⟨m', by simp only [destroy_loop, destroy, hx]; exact hrun⟩

/-- On an array that holds elements `clear` succeeds and only resets the size and destroys
objects. -/
theorem clear_ok {T : Type} (s : Machine T) (es : List T) (hes : s.holds es) :
    ∃ m', clear s = (.ok (), { s with mem := m', vec := { s.vec with size := 0 } }) := by
  cases hdp : s.vec.data_pointer with
  | none =>
    have hsz : s.vec.size = 0 := by
      rw [hes.1]
      by_contra hne
      have := hes.2 0 (by omega)
      rw [hdp] at this
      simp [load] at this
    exact ⟨s.mem, by simp only [clear, hdp, hsz, destroy_loop]⟩
  | some p =>
    have hlive : ∀ j, 0 ≤ j → j < 0 + s.vec.size → ∃ x, s.mem p j = some x := by
      intro j _ hj
      have hj' : j < es.length := by rw [← hes.1]; omega
      exact ⟨_, holds_slot s es hes p hdp j hj'⟩
    obtain ⟨m', hrun⟩ := destroy_loop_ok p s.vec.size 0 s.mem hlive
    exact ⟨m', by simp only [clear, hdp, hrun]⟩

/-- C9.  On a well-formed state `clear()` succeeds, sets the size to `0` and `empty()` to
true, and leaves the capacity, the storage pointer and the whole state of the memory
resource (no allocation, no release) unchanged.  For every list of values pushed afterwards
(no copy constructor throwing on them) the cleared array and an array freshly constructed
with the same capacity, on any well-formed memory resource, both accept the pushes and agree
on `get_size()`, on the result of `operator[]` at every index, on `front()`, on `back()` and
on the capacity. -/
theorem clear_then_reuse {T : Type} (E : ElemType T) (f g : Nat → Nat) (s : Machine T)
    (mr' : CustomMemoryResource) (mem' : Mem T) (vals : List T)
    (hwf : s.WF f) (hmr' : mr'.WF g) (hvals : ∀ x ∈ vals, E.copy_throws x = false) :
    ∃ s0, clear s = (.ok (), s0) ∧
      get_size s0 = 0 ∧ empty s0 = true ∧
      s0.vec.capacity = s.vec.capacity ∧ s0.vec.data_pointer = s.vec.data_pointer ∧
      s0.mr = s.mr ∧
      ∃ s1 s2,
        push_back_all E f vals s0 = (.ok (), s1) ∧
        push_back_all E g vals (PmrVector.ctor E g s0.vec.capacity mr' mem') = (.ok (), s2) ∧
        get_size s1 = vals.length ∧ get_size s2 = vals.length ∧
        (∀ i, (operator_index i s1).1 = (operator_index i s2).1) ∧
        (front s1).1 = (front s2).1 ∧ (back s1).1 = (back s2).1 ∧
        s1.vec.capacity = s2.vec.capacity := by
  obtain ⟨hmr, hle, hst, es, hes⟩ := hwf
  obtain ⟨m', hclear⟩ := clear_ok s es hes
  have hh0 : Machine.holds { s with mem := m', vec := { s.vec with size := 0 } } [] :=
    ⟨rfl, fun i hi => absurd hi (by simp)⟩
  have hwf0 : Machine.WF f { s with mem := m', vec := { s.vec with size := 0 } } :=
    ⟨hmr, Nat.zero_le _, hst, [], hh0⟩
  obtain ⟨c1, c2, c3, c4⟩ := ctor_ok E g s.vec.capacity mr' mem' hmr'
  obtain ⟨s1, s2, h1, h2, -, -, h5, h6, h7⟩ :=
    push_back_all_pair E f g vals hvals _ _ [] [] hwf0 c1 hh0 c2
      (Or.inr (by simp)) (Or.inr (by simp)) c3.symm c4.symm
  simp only [List.nil_append] at h5 h6
  obtain ⟨r1, r2, r3⟩ := read_of_holds s1 vals h5
  obtain ⟨t1, t2, t3⟩ := read_of_holds s2 vals h6
  refine ⟨_, hclear, rfl, rfl, rfl, rfl, rfl, s1, s2, h1, h2, h5.1, h6.1, ?_, ?_, ?_, h7⟩
  · intro i; rw [r1 i, t1 i]
  · rw [r2, t2]
  · rw [r3, t3]

/-- Witness of C9: the array holding `[10]` is cleared and then receives `42` and `17`, like
an array newly constructed on the empty memory resource. -/
theorem clear_then_reuse_witness :
    ∃ s0, clear vec_one = (.ok (), s0) ∧
      get_size s0 = 0 ∧ empty s0 = true ∧
      s0.vec.capacity = vec_one.vec.capacity ∧
      s0.vec.data_pointer = vec_one.vec.data_pointer ∧
      s0.mr = vec_one.mr ∧
      ∃ s1 s2,
        push_back_all E_int sys_new_ex [42, 17] s0 = (.ok (), s1) ∧
        push_back_all E_int sys_new_ex [42, 17]
          (PmrVector.ctor E_int sys_new_ex s0.vec.capacity mr_empty mem_raw) = (.ok (), s2) ∧
        get_size s1 = [42, 17].length ∧ get_size s2 = [42, 17].length ∧
        (∀ i, (operator_index i s1).1 = (operator_index i s2).1) ∧
        (front s1).1 = (front s2).1 ∧ (back s1).1 = (back s2).1 ∧
        s1.vec.capacity = s2.vec.capacity :=
  clear_then_reuse E_int sys_new_ex sys_new_ex vec_one mr_empty mem_raw [42, 17]
    vec_one_ok.1 mr_empty_WF (fun _ _ => rfl)

/-- The traversal loop from index `k`: it reads the remaining elements and stops at the end. -/
theorem traverse_loop_ok {T : Type} (this : Nat) (s : Machine T) (es : List T)
    (hes : s.holds es) :
    ∀ (fuel k : Nat) (acc : Reads T), k ≤ es.length → es.length - k < fuel →
      traverse_loop this fuel s
          { array_pointer := some this, current_index := k, array_size := s.vec.size } acc =
        some (.ok { values := acc.values ++ es.drop k,
                    derefs := acc.derefs + (es.length - k) }, s) := by
  intro fuel
  induction fuel with
  | zero => intro k acc _ h; omega
  | succ fuel ih =>
    intro k acc hk hfuel
    by_cases hlt : k < es.length
    · have hne : (ArrayIterator.ne
          { array_pointer := some this, current_index := k, array_size := s.vec.size }
          (vec_end this s)) = true := by
        simp only [ArrayIterator.ne, vec_end, hes.1]
        simp
        omega
      have hderef : ArrayIterator.deref
          { array_pointer := some this, current_index := k, array_size := s.vec.size } s =
          (.ok (es.get ⟨k, hlt⟩), s) := by
        have hk' : k < s.vec.size := by rw [hes.1]; exact hlt
        have hk'' : ¬ k ≥ s.vec.size := by omega
        simp only [ArrayIterator.deref, hk'', if_false, operator_index, hk', if_true,
          hes.2 k hlt]
      have hstep := ih (k + 1) { values := acc.values ++ [es.get ⟨k, hlt⟩],
                                 derefs := acc.derefs + 1 } (by omega) (by omega)
      simp only [traverse_loop, hne, if_true, hderef, ArrayIterator.pre_inc]
      rw [hstep]
      have hdrop : es.drop k = es.get ⟨k, hlt⟩ :: es.drop (k + 1) :=
        List.drop_eq_getElem_cons hlt
      have hcount : acc.derefs + 1 + (es.length - (k + 1)) = acc.derefs + (es.length - k) := by
        omega
      rw [hdrop, hcount, List.append_assoc, List.singleton_append]
    · have hk' : k = es.length := by omega
      have hne : (ArrayIterator.ne
          { array_pointer := some this, current_index := k, array_size := s.vec.size }
          (vec_end this s)) = false := by
        simp [ArrayIterator.ne, vec_end, hes.1, hk']
      simp only [traverse_loop, hne]
      simp [hk']

/-- C10 (traversal).  On an array that holds the elements `es` and for every amount of fuel
above their number, the loop `it = begin(); while it != end(): read *it; ++it` terminates
without an exception, has read exactly the elements `es` in index order, has performed
exactly as many dereferences as there are elements, and has left the array as it was; on an
array without elements `begin() == end()`. -/
theorem traverse_reads_all {T : Type} (this : Nat) (s : Machine T) (es : List T) (hes : s.holds es)
    (fuel : Nat) (hfuel : es.length < fuel) :
    traverse this fuel s = some (.ok { values := es, derefs := es.length }, s) ∧
    (es.length = 0 → (vec_begin this s).eq (vec_end this s) = true) := by
  constructor
  · have h := traverse_loop_ok this s es hes fuel 0 { values := [], derefs := 0 }
      (Nat.zero_le _) (by omega)
    simp only [traverse, vec_begin]
    rw [h]
    simp
  · intro h0
    simp [ArrayIterator.eq, vec_begin, vec_end, hes.1, h0]

/-- Witness of C10: the array holding `[10]`, with fuel `2`. -/
theorem traverse_reads_all_witness :
    traverse 1 2 vec_one = some (.ok { values := [10], derefs := [10].length }, vec_one) ∧
    ([10].length = 0 → (vec_begin 1 vec_one).eq (vec_end 1 vec_one) = true) :=
  traverse_reads_all 1 vec_one [10] vec_one_ok.2 2 (by decide)

/-! ## The forward cursor: the claims -/

/-- C11.  `begin()` yields the cursor with index `0` and `end()` the cursor with index
`size`, both with the size of the array at the time of the call as bound; a cursor whose
index is not below its bound fails with the range error on `operator*` and on `operator->`
whatever the state of the array it points to is at that time, so the cursor `end()` of a
state fails on every later state of the array, grown or not. -/
theorem cursor_bound_fixed {T : Type} (this : Nat) (s target : Machine T) (it : ArrayIterator)
    (h : it.array_size ≤ it.current_index) :
    vec_begin this s =
      { array_pointer := some this, current_index := 0, array_size := s.vec.size } ∧
    vec_end this s =
      { array_pointer := some this, current_index := s.vec.size, array_size := s.vec.size } ∧
    it.deref target = (.error .out_of_range, target) ∧
    it.arrow target = (.error .out_of_range, target) ∧
    (vec_end this s).deref target = (.error .out_of_range, target) ∧
    (vec_end this s).arrow target = (.error .out_of_range, target) := by
  have h' : it.current_index ≥ it.array_size := h
  refine ⟨rfl, rfl, ?_, ?_, ?_, ?_⟩
  · simp [ArrayIterator.deref, h']
  · simp [ArrayIterator.arrow, h']
  · simp [ArrayIterator.deref, vec_end]
  · simp [ArrayIterator.arrow, vec_end]

/-- Witness of C11: the cursor `end()` of the array holding `[10]` (index `1`, bound `1`) is
dereferenced after `push_back(20)`; the array then has an element at index `1`, the cursor
still fails. -/
theorem cursor_bound_fixed_witness :
    (vec_end 1 vec_one).array_size ≤ (vec_end 1 vec_one).current_index ∧
    (operator_index 1 (push_back E_int sys_new_ex (.object 20) vec_one).2).1 = .ok 20 ∧
    (vec_begin 1 vec_one =
      { array_pointer := some 1, current_index := 0, array_size := vec_one.vec.size } ∧
    vec_end 1 vec_one =
      { array_pointer := some 1, current_index := vec_one.vec.size,
        array_size := vec_one.vec.size } ∧
    (vec_end 1 vec_one).deref (push_back E_int sys_new_ex (.object 20) vec_one).2 =
      (.error .out_of_range, (push_back E_int sys_new_ex (.object 20) vec_one).2) ∧
    (vec_end 1 vec_one).arrow (push_back E_int sys_new_ex (.object 20) vec_one).2 =
      (.error .out_of_range, (push_back E_int sys_new_ex (.object 20) vec_one).2) ∧
    (vec_end 1 vec_one).deref (push_back E_int sys_new_ex (.object 20) vec_one).2 =
      (.error .out_of_range, (push_back E_int sys_new_ex (.object 20) vec_one).2) ∧
    (vec_end 1 vec_one).arrow (push_back E_int sys_new_ex (.object 20) vec_one).2 =
      (.error .out_of_range, (push_back E_int sys_new_ex (.object 20) vec_one).2)) :=
  ⟨le_refl _, rfl,
    cursor_bound_fixed 1 vec_one (push_back E_int sys_new_ex (.object 20) vec_one).2 (vec_end 1 vec_one)
      (le_refl _)⟩

/-- C16 (cursor equality).  `a == b` holds exactly when the two cursors point to the same
array and have the same index; replacing the captured bounds by any others does not change
the result; `a != b` is the negation of `a == b`. -/
theorem cursor_equality (a b : ArrayIterator) :
    (a.eq b = true ↔ a.array_pointer = b.array_pointer ∧ a.current_index = b.current_index) ∧
    (∀ n m : Nat,
      ArrayIterator.eq { a with array_size := n } { b with array_size := m } = a.eq b) ∧
    a.ne b = !a.eq b := by
  refine ⟨?_, fun _ _ => rfl, ?_⟩
  · simp only [ArrayIterator.eq, Bool.and_eq_true, decide_eq_true_eq]
    constructor
    · rintro ⟨h1, h2⟩; exact ⟨h2.symm, h1.symm⟩
    · rintro ⟨h1, h2⟩; exact ⟨h2.symm, h1.symm⟩
  · simp only [ArrayIterator.ne, ArrayIterator.eq]
    by_cases h1 : b.current_index = a.current_index <;>
      by_cases h2 : b.array_pointer = a.array_pointer <;> simp [h1, h2]

/-- C19.  For a cursor with index `i` and bound `b` over an array that holds the elements
`es` (so its size is their number): when `i < b` and `i < size`, `operator*` and `operator->`
return the element of slot `i`; in every other case they fail with the range error; and after
a `clear()` of the array both fail with the range error for every cursor, in particular for
one with `i < b` created before. -/
theorem cursor_deref_exact {T : Type} (s : Machine T) (es : List T) (hes : s.holds es)
    (it : ArrayIterator) :
    (∀ h : it.current_index < es.length, it.current_index < it.array_size →
      (it.deref s).1 = .ok (es.get ⟨it.current_index, h⟩) ∧
      (it.arrow s).1 = .ok (es.get ⟨it.current_index, h⟩)) ∧
    (¬ (it.current_index < it.array_size ∧ it.current_index < s.vec.size) →
      (it.deref s).1 = .error .out_of_range ∧ (it.arrow s).1 = .error .out_of_range) ∧
    (∃ s0, clear s = (.ok (), s0) ∧
      (it.deref s0).1 = .error .out_of_range ∧ (it.arrow s0).1 = .error .out_of_range) := by
  refine ⟨?_, ?_, ?_⟩
  · intro h hb
    have h1 : ¬ it.current_index ≥ it.array_size := by omega
    have h2 : it.current_index < s.vec.size := by rw [hes.1]; exact h
    simp [ArrayIterator.deref, ArrayIterator.arrow, h1, operator_index, h2, hes.2 _ h]
  · intro hn
    by_cases hb : it.current_index ≥ it.array_size
    · simp [ArrayIterator.deref, ArrayIterator.arrow, hb]
    · have h2 : ¬ it.current_index < s.vec.size := by omega
      simp [ArrayIterator.deref, ArrayIterator.arrow, hb, operator_index, h2]
  · obtain ⟨m', hclear⟩ := clear_ok s es hes
    refine ⟨_, hclear, ?_, ?_⟩
    · by_cases hb : it.current_index ≥ it.array_size
      · simp [ArrayIterator.deref, hb]
      · simp [ArrayIterator.deref, hb, operator_index]
    · by_cases hb : it.current_index ≥ it.array_size
      · simp [ArrayIterator.arrow, hb]
      · simp [ArrayIterator.arrow, hb, operator_index]

/-- Witness of C19: the cursor `begin()` of the array holding `[10]` (index `0`, bound
`1`). -/
theorem cursor_deref_exact_witness :
    (∀ h : (vec_begin 1 vec_one).current_index < [10].length,
      (vec_begin 1 vec_one).current_index < (vec_begin 1 vec_one).array_size →
      ((vec_begin 1 vec_one).deref vec_one).1 =
        .ok ([10].get ⟨(vec_begin 1 vec_one).current_index, h⟩) ∧
      ((vec_begin 1 vec_one).arrow vec_one).1 =
        .ok ([10].get ⟨(vec_begin 1 vec_one).current_index, h⟩)) ∧
    (¬ ((vec_begin 1 vec_one).current_index < (vec_begin 1 vec_one).array_size ∧
        (vec_begin 1 vec_one).current_index < vec_one.vec.size) →
      ((vec_begin 1 vec_one).deref vec_one).1 = .error .out_of_range ∧
      ((vec_begin 1 vec_one).arrow vec_one).1 = .error .out_of_range) ∧
    (∃ s0, clear vec_one = (.ok (), s0) ∧
      ((vec_begin 1 vec_one).deref s0).1 = .error .out_of_range ∧
      ((vec_begin 1 vec_one).arrow s0).1 = .error .out_of_range) :=
  cursor_deref_exact vec_one [10] vec_one_ok.2 (vec_begin 1 vec_one)

/-! ## The memory resource: repeated requests -/

/-- What a successful release did. -/
theorem do_deallocate_inv (mr mr' : CustomMemoryResource) (p bytes alignment : Nat)
    (h : do_deallocate mr p bytes alignment = .ok mr') :
    ∃ pre b post,
      mr.used_blocks = pre ++ b :: post ∧ (∀ x ∈ pre, x.ptr ≠ p) ∧ b.ptr = p ∧
      mr' = { used_blocks := pre ++ { b with free := true } :: post,
              sys_news := mr.sys_news } := by
  have hex : ∃ b ∈ mr.used_blocks, b.ptr = p := by
    by_contra hc
    have hn : deallocate_scan p mr.used_blocks = none := by
      rw [deallocate_scan_none]
      intro b hb heq
      exact hc ⟨b, hb, heq⟩
    simp [do_deallocate, hn] at h
  obtain ⟨pre, b, post, hl, hpre, hb, hd⟩ := do_deallocate_ok mr p bytes alignment hex
  rw [hd] at h
  exact ⟨pre, b, post, hl, hpre, hb, (Except.ok.inj h).symm⟩

/-- C20 (double release).  The outcome of `do_deallocate` does not depend on the arguments
`bytes` and `alignment`; when the block the release applies to (the first tracked block with
the address `p`) is already free, the call does not throw and leaves the state of the memory
resource as it was; and a release that succeeded can be repeated, with any `bytes` and
`alignment`: the second call does not throw and yields the state the first one left. -/
theorem double_release (mr : CustomMemoryResource) (p bytes alignment bytes' alignment' : Nat) :
    do_deallocate mr p bytes alignment = do_deallocate mr p bytes' alignment' ∧
    (∀ pre b post, mr.used_blocks = pre ++ b :: post → (∀ x ∈ pre, x.ptr ≠ p) → b.ptr = p →
      b.free = true → do_deallocate mr p bytes alignment = .ok mr) ∧
    (∀ mr', do_deallocate mr p bytes alignment = .ok mr' →
      do_deallocate mr' p bytes' alignment' = .ok mr') := by
  have hfree : ∀ (m : CustomMemoryResource) (c d : Nat) pre b post,
      m.used_blocks = pre ++ b :: post → (∀ x ∈ pre, x.ptr ≠ p) → b.ptr = p →
      b.free = true → do_deallocate m p c d = .ok m := by
    intro m c d pre b post hl hpre hb hf
    have hbb : ({ b with free := true } : MemoryBlock) = b := by
      cases b
      simp_all
    simp only [do_deallocate, hl, deallocate_scan_split p pre b post hpre hb, hbb]
    cases m
    simp_all
  refine ⟨rfl, hfree mr bytes alignment, ?_⟩
  intro mr' h
  obtain ⟨pre, b, post, -, hpre, hb, rfl⟩ := do_deallocate_inv mr mr' p bytes alignment h
  exact hfree _ bytes' alignment' pre { b with free := true } post rfl hpre hb rfl

/-- C17 (same-request reuse).  Let the tracked addresses be pairwise distinct and let the
system allocator return an address that is not tracked.  If `allocate(S, A)` returns `p` and
`deallocate(p, S, A)` follows, the release succeeds, and the next `allocate(S, A)` returns
`p`, leaves the number of tracked blocks and the trace of system requests as they were after
the release, and brings the memory resource back to the state the first allocation left,
whatever other blocks are tracked. -/
theorem same_request_reuse (sys_new : Nat → Nat) (mr : CustomMemoryResource) (S A : Nat)
    (hnd : mr.ptrs.Nodup) (hfresh : sys_new mr.sys_news.length ∉ mr.ptrs) :
    ∃ mr2,
      do_deallocate (do_allocate sys_new mr S A).2 (do_allocate sys_new mr S A).1 S A = .ok mr2 ∧
      (do_allocate sys_new mr2 S A).1 = (do_allocate sys_new mr S A).1 ∧
      (do_allocate sys_new mr2 S A).2.used_blocks.length = mr2.used_blocks.length ∧
      (do_allocate sys_new mr2 S A).2.sys_news = mr2.sys_news ∧
      (do_allocate sys_new mr2 S A).2 = (do_allocate sys_new mr S A).2 := by
  rcases do_allocate_cases sys_new mr S A with ⟨hall, h⟩ | ⟨pre, b, post, hl, hpre, hb, h⟩
  · have hpre : ∀ x ∈ mr.used_blocks, x.ptr ≠ sys_new mr.sys_news.length := by
      intro x hx heq
      exact hfresh (heq ▸ List.mem_map_of_mem _ hx)
    have hd : do_deallocate (do_allocate sys_new mr S A).2 (do_allocate sys_new mr S A).1 S A =
        .ok { used_blocks := mr.used_blocks ++
                [{ ptr := sys_new mr.sys_news.length, size := S, alignment := A, free := true }],
              sys_news := mr.sys_news ++
                [{ ptr := sys_new mr.sys_news.length, bytes := S, alignment := A }] } := by
      rw [h]
      simp only [do_deallocate]
      rw [deallocate_scan_split _ mr.used_blocks _ [] hpre rfl]
    have hfit : (MemoryBlock.mk (sys_new mr.sys_news.length) S A true).fits S A = true :=
      (fits_iff _ S A).mpr ⟨rfl, le_refl _, le_refl _⟩
    have h2 := do_allocate_hit sys_new
      { used_blocks := mr.used_blocks ++
          [{ ptr := sys_new mr.sys_news.length, size := S, alignment := A, free := true }],
        sys_news := mr.sys_news ++
          [{ ptr := sys_new mr.sys_news.length, bytes := S, alignment := A }] }
      S A mr.used_blocks _ [] rfl hall hfit
    refine ⟨_, hd, ?_, ?_, ?_, ?_⟩
    · rw [h2, h]
    · rw [h2]; simp
    · rw [h2]
    · rw [h2, h]
  · have hnd' : ((pre ++ b :: post).map MemoryBlock.ptr).Nodup := by
      have := hnd
      simp only [CustomMemoryResource.ptrs, hl] at this
      exact this
    have hbf : b.free = true := ((fits_iff b S A).mp hb).1
    have hbb : ({ ptr := b.ptr, size := b.size, alignment := b.alignment, free := true }
        : MemoryBlock) = b := by
      cases b
      simp_all
    have hd : do_deallocate (do_allocate sys_new mr S A).2 (do_allocate sys_new mr S A).1 S A =
        .ok { used_blocks := pre ++ b :: post, sys_news := mr.sys_news } := by
      rw [h]
      simp only [do_deallocate]
      rw [deallocate_scan_split b.ptr pre { b with free := false } post
        (ptr_ne_of_nodup pre b post hnd') rfl]
      simp only [hbb]
    have h2 := do_allocate_hit sys_new
      { used_blocks := pre ++ b :: post, sys_news := mr.sys_news } S A pre b post rfl hpre hb
    refine ⟨_, hd, ?_, ?_, ?_, ?_⟩
    · rw [h2, h]
    · rw [h2]; simp
    · rw [h2]
    · rw [h2, h]

/-- Witness of C17: on `mr_two_free` the request `(8, 4)` is served by the block `101`, also
the second time. -/
theorem same_request_reuse_witness :
    ∃ mr2,
      do_deallocate (do_allocate sys_new_ex mr_two_free 8 4).2
        (do_allocate sys_new_ex mr_two_free 8 4).1 8 4 = .ok mr2 ∧
      (do_allocate sys_new_ex mr2 8 4).1 = (do_allocate sys_new_ex mr_two_free 8 4).1 ∧
      (do_allocate sys_new_ex mr2 8 4).2.used_blocks.length = mr2.used_blocks.length ∧
      (do_allocate sys_new_ex mr2 8 4).2.sys_news = mr2.sys_news ∧
      (do_allocate sys_new_ex mr2 8 4).2 = (do_allocate sys_new_ex mr_two_free 8 4).2 :=
  same_request_reuse sys_new_ex mr_two_free 8 4 (by decide) (by decide)

/-! ## The memory resource over a sequence of calls -/

theorem ptrs_eq_idents (mr : CustomMemoryResource) :
    mr.ptrs = (mr.used_blocks.map MemoryBlock.ident).map Prod.fst := by
  simp [CustomMemoryResource.ptrs, List.map_map, Function.comp_def, MemoryBlock.ident]

theorem do_allocate_idents (sys_new : Nat → Nat) (mr : CustomMemoryResource)
    (bytes alignment : Nat) :
    mr.used_blocks.map MemoryBlock.ident <+:
      (do_allocate sys_new mr bytes alignment).2.used_blocks.map MemoryBlock.ident := by
  rcases do_allocate_cases sys_new mr bytes alignment with ⟨-, h⟩ | ⟨pre, b, post, hl, -, -, h⟩
  · rw [h, List.map_append]
    exact List.prefix_append _ _
  · rw [h, hl]
    simp [MemoryBlock.ident]

theorem do_deallocate_idents (mr mr' : CustomMemoryResource) (p bytes alignment : Nat)
    (h : do_deallocate mr p bytes alignment = .ok mr') :
    mr'.used_blocks.map MemoryBlock.ident = mr.used_blocks.map MemoryBlock.ident := by
  obtain ⟨pre, b, post, hl, -, -, rfl⟩ := do_deallocate_inv mr mr' p bytes alignment h
  rw [hl]
  simp [MemoryBlock.ident]

theorem step_idents (sys_new : Nat → Nat) (r : TrackerRun) (op : TrackerOp) :
    r.mr.used_blocks.map MemoryBlock.ident <+:
      (r.step sys_new op).mr.used_blocks.map MemoryBlock.ident := by
  cases op with
  | allocate bytes alignment => exact do_allocate_idents sys_new r.mr bytes alignment
  | deallocate ptr bytes alignment =>
    simp only [TrackerRun.step]
    cases hd : do_deallocate r.mr ptr bytes alignment with
    | error e => exact List.prefix_refl _
    | ok mr' =>
      simp only
      rw [do_deallocate_idents r.mr mr' ptr bytes alignment hd]

theorem ptrs_prefix_of_idents (mr mr' : CustomMemoryResource)
    (h : mr.used_blocks.map MemoryBlock.ident <+: mr'.used_blocks.map MemoryBlock.ident) :
    mr.ptrs <+: mr'.ptrs := by
  rw [ptrs_eq_idents, ptrs_eq_idents]
  obtain ⟨t, ht⟩ := h
  exact ⟨t.map Prod.fst, by rw [← List.map_append, ht]⟩

theorem step_WF (sys_new : Nat → Nat) (r : TrackerRun) (op : TrackerOp)
    (hwf : r.mr.WF sys_new) : (r.step sys_new op).mr.WF sys_new := by
  cases op with
  | allocate bytes alignment => exact do_allocate_WF sys_new r.mr bytes alignment hwf
  | deallocate ptr bytes alignment =>
    simp only [TrackerRun.step]
    cases hd : do_deallocate r.mr ptr bytes alignment with
    | error e => exact hwf
    | ok mr' => exact do_deallocate_WF sys_new r.mr mr' ptr bytes alignment hwf hd

theorem step_returned (sys_new : Nat → Nat) (r : TrackerRun) (op : TrackerOp)
    (h : ∀ p ∈ r.returned, p ∈ r.mr.ptrs) :
    ∀ p ∈ (r.step sys_new op).returned, p ∈ (r.step sys_new op).mr.ptrs := by
  have hpre := ptrs_prefix_of_idents _ _ (step_idents sys_new r op)
  cases op with
  | allocate bytes alignment =>
    intro p hp
    simp only [TrackerRun.step] at hp ⊢
    rcases List.mem_append.mp hp with hp | hp
    · exact hpre.subset (h p hp)
    · rw [List.mem_singleton.mp hp]
      obtain ⟨b, hb, hbp, -⟩ := do_allocate_tracked sys_new r.mr bytes alignment
      rw [← hbp]
      exact List.mem_map_of_mem _ hb
  | deallocate ptr bytes alignment =>
    intro p hp
    have hret : (r.step sys_new (.deallocate ptr bytes alignment)).returned = r.returned := by
      simp only [TrackerRun.step]
      cases do_deallocate r.mr ptr bytes alignment <;> rfl
    rw [hret] at hp
    exact hpre.subset (h p hp)

theorem step_sys (sys_new : Nat → Nat) (r : TrackerRun) (op : TrackerOp)
    (h : r.mr.ptrs = r.mr.sys_news.map NewCall.ptr) :
    (r.step sys_new op).mr.ptrs = (r.step sys_new op).mr.sys_news.map NewCall.ptr := by
  cases op with
  | allocate bytes alignment =>
    simp only [TrackerRun.step]
    rcases do_allocate_cases sys_new r.mr bytes alignment with
      ⟨-, h'⟩ | ⟨pre, b, post, hl, -, -, h'⟩
    · rw [h']
      simp only [CustomMemoryResource.ptrs, List.map_append, List.map_cons, List.map_nil]
      rw [← h]
      rfl
    · rw [h']
      rw [← h]
      simp [CustomMemoryResource.ptrs, hl]
  | deallocate ptr bytes alignment =>
    simp only [TrackerRun.step]
    cases hd : do_deallocate r.mr ptr bytes alignment with
    | error e => exact h
    | ok mr' =>
      obtain ⟨hp, hn⟩ := do_deallocate_ptrs r.mr mr' ptr bytes alignment hd
      simp only
      rw [hp, hn]
      exact h

/-- What every sequence of calls preserves. -/
theorem run_invariant (sys_new : Nat → Nat) (ops : List TrackerOp) :
    ∀ r : TrackerRun, r.mr.WF sys_new → (∀ p ∈ r.returned, p ∈ r.mr.ptrs) →
      r.mr.ptrs = r.mr.sys_news.map NewCall.ptr →
      (TrackerRun.run sys_new ops r).mr.WF sys_new ∧
      (∀ p ∈ (TrackerRun.run sys_new ops r).returned,
        p ∈ (TrackerRun.run sys_new ops r).mr.ptrs) ∧
      (TrackerRun.run sys_new ops r).mr.ptrs =
        (TrackerRun.run sys_new ops r).mr.sys_news.map NewCall.ptr ∧
      r.mr.used_blocks.map MemoryBlock.ident <+:
        (TrackerRun.run sys_new ops r).mr.used_blocks.map MemoryBlock.ident := by
  induction ops with
  | nil => intro r hwf hret hsys; exact ⟨hwf, hret, hsys, List.prefix_refl _⟩
  | cons op ops ih =>
    intro r hwf hret hsys
    obtain ⟨h1, h2, h3, h4⟩ := ih (r.step sys_new op) (step_WF sys_new r op hwf)
      (step_returned sys_new r op hret) (step_sys sys_new r op hsys)
    exact ⟨h1, h2, h3, List.IsPrefix.trans (step_idents sys_new r op) h4⟩

theorem run_append (sys_new : Nat → Nat) (ops ops' : List TrackerOp) :
    ∀ r : TrackerRun, TrackerRun.run sys_new (ops ++ ops') r =
      TrackerRun.run sys_new ops' (TrackerRun.run sys_new ops r) := by
  induction ops with
  | nil => intro r; rfl
  | cons op ops ih => intro r; exact ih (r.step sys_new op)

theorem mr_empty_WF_of (sys_new : Nat → Nat) (hsys : ∀ j k, j < k → sys_new j ≠ sys_new k) :
    mr_empty.WF sys_new :=
  ⟨by simp [mr_empty, CustomMemoryResource.ptrs], by simp [mr_empty, CustomMemoryResource.ptrs],
    fun j k _ hjk => hsys j k hjk⟩

/-- C12 (invariant of the memory resource).  Let the system allocator return pairwise
distinct addresses (from the empty resource the tracked addresses are exactly the addresses
it has returned, so this says that it never returns an address that is still tracked).  After
every sequence `ops` of `allocate` and `deallocate` calls on the empty resource: the tracked
addresses are pairwise distinct and are the addresses the system allocator returned, in
order; every address that `allocate` has returned is the address of exactly one tracked
block; the used blocks have pairwise distinct addresses; and after any further calls `ops'`
the blocks tracked before are still tracked, at the same places of the registry and with the
same address, size and alignment. -/
theorem tracker_invariant (sys_new : Nat → Nat)
    (hsys : ∀ j k, j < k → sys_new j ≠ sys_new k) (ops ops' : List TrackerOp) :
    (TrackerRun.run sys_new ops ⟨mr_empty, []⟩).mr.ptrs.Nodup ∧
    (TrackerRun.run sys_new ops ⟨mr_empty, []⟩).mr.ptrs =
      (TrackerRun.run sys_new ops ⟨mr_empty, []⟩).mr.sys_news.map NewCall.ptr ∧
    (∀ p ∈ (TrackerRun.run sys_new ops ⟨mr_empty, []⟩).returned,
      (TrackerRun.run sys_new ops ⟨mr_empty, []⟩).mr.ptrs.count p = 1) ∧
    (((TrackerRun.run sys_new ops ⟨mr_empty, []⟩).mr.used_blocks.filter
        (fun b => !b.free)).map MemoryBlock.ptr).Nodup ∧
    (TrackerRun.run sys_new ops ⟨mr_empty, []⟩).mr.used_blocks.map MemoryBlock.ident <+:
      (TrackerRun.run sys_new (ops ++ ops') ⟨mr_empty, []⟩).mr.used_blocks.map
        MemoryBlock.ident := by
  have h0 := mr_empty_WF_of sys_new hsys
  obtain ⟨hwf, hret, hs, -⟩ := run_invariant sys_new ops ⟨mr_empty, []⟩ h0
    (by simp) (by simp [mr_empty, CustomMemoryResource.ptrs])
  obtain ⟨-, -, -, hpre⟩ := run_invariant sys_new ops' _ hwf hret hs
  refine ⟨hwf.1, hs, fun p hp => List.count_eq_one_of_mem hwf.1 (hret p hp), ?_, ?_⟩
  · exact List.Nodup.sublist (List.Sublist.map _ (List.filter_sublist _)) hwf.1
  · rw [run_append]
    exact hpre

/-- Witness of C12: two allocations, the release of both, a reuse, and then a further
allocation. -/
theorem tracker_invariant_witness :
    (TrackerRun.run sys_new_ex
      [.allocate 4 4, .allocate 8 4, .deallocate 100 4 4, .deallocate 101 8 4, .allocate 8 4]
      ⟨mr_empty, []⟩).mr.ptrs.Nodup ∧
    (TrackerRun.run sys_new_ex
      [.allocate 4 4, .allocate 8 4, .deallocate 100 4 4, .deallocate 101 8 4, .allocate 8 4]
      ⟨mr_empty, []⟩).mr.ptrs =
      (TrackerRun.run sys_new_ex
        [.allocate 4 4, .allocate 8 4, .deallocate 100 4 4, .deallocate 101 8 4, .allocate 8 4]
        ⟨mr_empty, []⟩).mr.sys_news.map NewCall.ptr ∧
    (∀ p ∈ (TrackerRun.run sys_new_ex
        [.allocate 4 4, .allocate 8 4, .deallocate 100 4 4, .deallocate 101 8 4, .allocate 8 4]
        ⟨mr_empty, []⟩).returned,
      (TrackerRun.run sys_new_ex
        [.allocate 4 4, .allocate 8 4, .deallocate 100 4 4, .deallocate 101 8 4, .allocate 8 4]
        ⟨mr_empty, []⟩).mr.ptrs.count p = 1) ∧
    (((TrackerRun.run sys_new_ex
        [.allocate 4 4, .allocate 8 4, .deallocate 100 4 4, .deallocate 101 8 4, .allocate 8 4]
        ⟨mr_empty, []⟩).mr.used_blocks.filter (fun b => !b.free)).map MemoryBlock.ptr).Nodup ∧
    (TrackerRun.run sys_new_ex
      [.allocate 4 4, .allocate 8 4, .deallocate 100 4 4, .deallocate 101 8 4, .allocate 8 4]
      ⟨mr_empty, []⟩).mr.used_blocks.map MemoryBlock.ident <+:
      (TrackerRun.run sys_new_ex
        ([.allocate 4 4, .allocate 8 4, .deallocate 100 4 4, .deallocate 101 8 4,
          .allocate 8 4] ++ [.allocate 16 4])
        ⟨mr_empty, []⟩).mr.used_blocks.map MemoryBlock.ident :=
  tracker_invariant sys_new_ex (fun j k hjk => by simp only [sys_new_ex]; omega)
    [.allocate 4 4, .allocate 8 4, .deallocate 100 4 4, .deallocate 101 8 4, .allocate 8 4]
    [.allocate 16 4]

theorem dtor_loop_eq (l : List MemoryBlock) :
    ∀ deletes : List DeleteCall,
      dtor_loop l deletes =
        deletes ++ l.map (fun b => { ptr := b.ptr, alignment := b.alignment }) := by
  induction l with
  | nil => intro deletes; simp [dtor_loop]
  | cons b rest ih => intro deletes; simp [dtor_loop, ih]

/-- C14 (teardown).  The destructor of the memory resource calls `::operator delete` once for
every tracked block, in registry order, with the address and the recorded alignment of that
block, whatever its flag is; the addresses released are the tracked addresses; and when
these are pairwise distinct, no address is released twice and every tracked address is
released exactly once. -/
theorem teardown_releases_every_block (mr : CustomMemoryResource) :
    mr.dtor = mr.used_blocks.map (fun b => { ptr := b.ptr, alignment := b.alignment }) ∧
    mr.dtor.length = mr.used_blocks.length ∧
    mr.dtor.map DeleteCall.ptr = mr.ptrs ∧
    (mr.ptrs.Nodup →
      (mr.dtor.map DeleteCall.ptr).Nodup ∧
      ∀ b ∈ mr.used_blocks, (mr.dtor.map DeleteCall.ptr).count b.ptr = 1) := by
  have h1 : mr.dtor =
      mr.used_blocks.map (fun b => { ptr := b.ptr, alignment := b.alignment }) := by
    simp [CustomMemoryResource.dtor, dtor_loop_eq]
  have h3 : mr.dtor.map DeleteCall.ptr = mr.ptrs := by
    rw [h1]
    simp [CustomMemoryResource.ptrs, List.map_map, Function.comp_def]
  refine ⟨h1, by rw [h1]; simp, h3, ?_⟩
  intro hnd
  rw [h3]
  exact ⟨hnd, fun b hb => List.count_eq_one_of_mem hnd (List.mem_map_of_mem _ hb)⟩

/-! ## Appending: failure of the new element -/

/-- The first half of `push_back` and `emplace_back` on a well-formed state whose elements
can be transferred without a throw: room for one more element. -/
theorem ensure_capacity_ok {T : Type} (E : ElemType T) (sys_new : Nat → Nat) (s : Machine T)
    (es : List T) (hwf : s.WF sys_new) (hes : s.holds es)
    (hsafe : E.nothrow_move = true ∨ ∀ x ∈ es, E.copy_throws x = false) :
    ∃ s1 p, ensure_capacity E sys_new (s.vec.size + 1) s = (.ok (), s1) ∧
      s1.WF sys_new ∧ s1.holds es ∧ s1.vec.size = s.vec.size ∧
      s1.vec.data_pointer = some p ∧ s1.vec.size + 1 ≤ s1.vec.capacity ∧
      s1.vec.capacity =
        (if s.vec.size + 1 ≤ s.vec.capacity then s.vec.capacity
         else max (s.vec.size + 1) (s.vec.capacity * 2)) := by
  by_cases hle : s.vec.size + 1 ≤ s.vec.capacity
  · have hens : ensure_capacity E sys_new (s.vec.size + 1) s = (.ok (), s) := by
      simp [ensure_capacity, hle]
    cases hdp : s.vec.data_pointer with
    | none =>
      have := hwf.2.2.1
      simp only [Machine.storage_ok, hdp] at this
      omega
    | some p => exact ⟨s, p, hens, hwf, hes, rfl, hdp, hle, by simp [hle]⟩
  · obtain ⟨s1, hens, hwf1, hes1, hsz1, hcap1, hdp1, -, -⟩ :=
      ensure_capacity_grow E sys_new (s.vec.size + 1) s es hwf hes hsafe (by omega)
    refine ⟨s1, _, hens, hwf1, hes1, hsz1, hdp1, ?_, by simp [hle, hcap1]⟩
    rw [hsz1, hcap1]
    exact le_max_left _ _

/-- An `emplace_back` whose constructor succeeds, on a well-formed state whose elements can
be transferred without a throw. -/
theorem emplace_back_ok {T : Type} (E : ElemType T) (sys_new : Nat → Nat) (value : T)
    (s : Machine T) (es : List T) (hwf : s.WF sys_new) (hes : s.holds es)
    (hsafe : E.nothrow_move = true ∨ ∀ x ∈ es, E.copy_throws x = false) :
    ∃ s', emplace_back E sys_new (some value) s = (.ok (), s') ∧ s'.WF sys_new ∧
      s'.holds (es ++ [value]) ∧
      s'.vec.capacity =
        (if s.vec.size + 1 ≤ s.vec.capacity then s.vec.capacity
         else max (s.vec.size + 1) (s.vec.capacity * 2)) := by
  obtain ⟨s1, p, hens, hwf1, hes1, hsz1, hdp1, hle1, hcap1⟩ :=
    ensure_capacity_ok E sys_new s es hwf hes hsafe
  obtain ⟨h1, h2⟩ := construct_at_end sys_new s1 es value p hwf1 hes1 hdp1 hle1
  refine ⟨_, ?_, h1, h2, hcap1⟩
  simp only [emplace_back, hens, hdp1]

/-- The transfer loop on live elements of which one cannot be copied, for an element type
that is copied: the loop ends with the exception of the copy constructor. -/
theorem transfer_loop_throws {T : Type} (E : ElemType T) (q p1 : Nat) (hne : p1 ≠ q)
    (hmove : E.nothrow_move = false) (n : Nat) :
    ∀ (i : Nat) (m : Mem T), (∀ j, i ≤ j → j < i + n → ∃ x, m q j = some x) →
      (∃ j x, i ≤ j ∧ j < i + n ∧ m q j = some x ∧ E.copy_throws x = true) →
      ∃ m1, transfer_loop E (some q) p1 n i m = (.error .ctor_failure, m1) := by
  induction n with
  | zero =>
    intro i m _ hbad
    obtain ⟨j, _, h1, h2, _, _⟩ := hbad
    omega
  | succ n ih =>
    intro i m hlive hbad
    obtain ⟨x, hx⟩ := hlive i (le_refl _) (by omega)
    by_cases hthrow : E.copy_throws x = true
    · exact ⟨m, by simp [transfer_loop, load, hx, hmove, hthrow]⟩
    · have hval : E.copy_throws x = false := by simpa using hthrow
      have hm1 : (m.write p1 i (some x)) q i = some x := by
        rw [Mem.write_other _ _ _ _ _ _ (by simp [Ne.symm hne])]
        exact hx
      have hkeep : ∀ j, i + 1 ≤ j →
          ((m.write p1 i (some x)).write q i none) q j = m q j := by
        intro j hj
        rw [Mem.write_other _ _ _ _ _ _ (by omega), Mem.write_other _ _ _ _ _ _ (by omega)]
      have hlive2 : ∀ j, i + 1 ≤ j → j < i + 1 + n →
          ∃ y, ((m.write p1 i (some x)).write q i none) q j = some y := by
        intro j h1 h2
        obtain ⟨y, hy⟩ := hlive j (by omega) (by omega)
        exact ⟨y, by rw [hkeep j h1]; exact hy⟩
      have hbad2 : ∃ j y, i + 1 ≤ j ∧ j < i + 1 + n ∧
          ((m.write p1 i (some x)).write q i none) q j = some y ∧ E.copy_throws y = true := by
        obtain ⟨j, y, h1, h2, h3, h4⟩ := hbad
        have hji : j ≠ i := by
          intro hji
          subst hji
          rw [hx] at h3
          rw [Option.some.inj h3] at hval
          rw [hval] at h4
          cases h4
        exact ⟨j, y, by omega, by omega, by rw [hkeep j (by omega)]; exact h3, h4⟩
      obtain ⟨m1, hrun⟩ := ih (i + 1) _ hlive2 hbad2
      refine ⟨m1, ?_⟩
      simp only [transfer_loop, load, hx, hmove, hval, destroy, hm1]
      simpa using hrun

/-- When `ensure_capacity` returns on a well-formed state, either it had nothing to do or no
transfer could throw. -/
theorem ensure_capacity_of_returned {T : Type} (E : ElemType T) (sys_new : Nat → Nat)
    (new_size : Nat) (s : Machine T) (es : List T) (hwf : s.WF sys_new) (hes : s.holds es)
    (hok : (ensure_capacity E sys_new new_size s).1 = .ok ()) :
    new_size ≤ s.vec.capacity ∨
      (E.nothrow_move = true ∨ ∀ x ∈ es, E.copy_throws x = false) := by
  by_cases hle : new_size ≤ s.vec.capacity
  · exact Or.inl hle
  · right
    by_contra hsafe
    have hmove : E.nothrow_move = false := by
      cases h : E.nothrow_move with
      | true => exact absurd (Or.inl h) hsafe
      | false => rfl
    obtain ⟨x, hxm, hxt⟩ : ∃ x ∈ es, E.copy_throws x = true := by
      by_contra hc
      apply hsafe
      right
      intro x hx
      by_contra hne
      exact hc ⟨x, hx, by simpa using hne⟩
    obtain ⟨j, hget⟩ := List.mem_iff_get.mp hxm
    obtain ⟨hmr, -, hst, -⟩ := hwf
    cases hdp : s.vec.data_pointer with
    | none =>
      have := hes.2 j.1 j.2
      rw [hdp] at this
      simp [load] at this
    | some q =>
      obtain ⟨b0, hb0, hb0p, hb0f⟩ : ∃ b ∈ s.mr.used_blocks, b.ptr = q ∧ b.free = false := by
        have := hst
        simp only [Machine.storage_ok, hdp] at this
        exact this
      have hne : (do_allocate sys_new s.mr
          (max new_size (s.vec.capacity * 2) * E.sizeof) E.alignof).1 ≠ q := by
        have := do_allocate_ne_used sys_new s.mr
          (max new_size (s.vec.capacity * 2) * E.sizeof) E.alignof hmr b0 hb0 hb0f
        rw [hb0p] at this
        exact fun h => this h.symm
      have hlive : ∀ k, 0 ≤ k → k < 0 + s.vec.size → ∃ y, s.mem q k = some y := by
        intro k _ hk
        have hk' : k < es.length := by rw [← hes.1]; omega
        exact ⟨_, holds_slot s es hes q hdp k hk'⟩
      have hbad : ∃ k y, 0 ≤ k ∧ k < 0 + s.vec.size ∧ s.mem q k = some y ∧
          E.copy_throws y = true := by
        refine ⟨j.1, x, Nat.zero_le _, by rw [hes.1]; simp, ?_, hxt⟩
        rw [holds_slot s es hes q hdp j.1 j.2]
        exact congrArg some hget
      obtain ⟨m1, hloop⟩ := transfer_loop_throws E q _ hne hmove s.vec.size 0 s.mem hlive hbad
      simp [ensure_capacity, hle, hdp, hloop] at hok

/-- The first half of `push_back` and `emplace_back` on a well-formed state, when it
returns: room for one more element, and the elements are the same. -/
theorem ensure_capacity_returned {T : Type} (E : ElemType T) (sys_new : Nat → Nat)
    (s : Machine T) (es : List T) (hwf : s.WF sys_new) (hes : s.holds es)
    (hok : (ensure_capacity E sys_new (s.vec.size + 1) s).1 = .ok ()) :
    ∃ s1 p, ensure_capacity E sys_new (s.vec.size + 1) s = (.ok (), s1) ∧
      s1.WF sys_new ∧ s1.holds es ∧ s1.vec.size = s.vec.size ∧
      s1.vec.data_pointer = some p ∧ s1.vec.size + 1 ≤ s1.vec.capacity := by
  rcases ensure_capacity_of_returned E sys_new _ s es hwf hes hok with hle | hsafe
  · have hens : ensure_capacity E sys_new (s.vec.size + 1) s = (.ok (), s) := by
      simp [ensure_capacity, hle]
    cases hdp : s.vec.data_pointer with
    | none =>
      have := hwf.2.2.1
      simp only [Machine.storage_ok, hdp] at this
      omega
    | some p => exact ⟨s, p, hens, hwf, hes, rfl, hdp, hle⟩
  · obtain ⟨s1, p, h1, h2, h3, h4, h5, h6, -⟩ :=
      ensure_capacity_ok E sys_new s es hwf hes hsafe
    exact ⟨s1, p, h1, h2, h3, h4, h5, h6⟩

/-- C15.  On a well-formed state that holds the elements `es`, when the growth step
`ensure_capacity(size + 1)` of the call has returned: if the construction of the new element
fails (the copy constructor throws in `push_back`, the constructor throws in
`emplace_back`), the call fails with that exception, the size is unchanged, the array still
holds `es` and `operator[]` gives at every index what it gave before; if the construction
succeeds, the size is larger by exactly `1` and the array holds `es` followed by the new
element.  The same for a `push_back` whose argument is any reference: when the call fails with
the exception of the copy constructor, size and elements are as before, and when it returns,
the size is larger by exactly `1`. -/
theorem append_failure_keeps_elements {T : Type} (E : ElemType T) (sys_new : Nat → Nat)
    (value : T) (s : Machine T) (es : List T) (hwf : s.WF sys_new) (hes : s.holds es)
    (hok : (ensure_capacity E sys_new (s.vec.size + 1) s).1 = .ok ()) :
    (E.copy_throws value = true →
      ∃ s1, push_back E sys_new (.object value) s = (.error .ctor_failure, s1) ∧
        get_size s1 = get_size s ∧ s1.holds es ∧
        ∀ i, (operator_index i s1).1 = (operator_index i s).1) ∧
    (∃ s1, emplace_back E sys_new none s = (.error .ctor_failure, s1) ∧
        get_size s1 = get_size s ∧ s1.holds es ∧
        ∀ i, (operator_index i s1).1 = (operator_index i s).1) ∧
    (E.copy_throws value = false →
      ∃ s1, push_back E sys_new (.object value) s = (.ok (), s1) ∧
        get_size s1 = get_size s + 1 ∧ s1.holds (es ++ [value])) ∧
    (∃ s1, emplace_back E sys_new (some value) s = (.ok (), s1) ∧
        get_size s1 = get_size s + 1 ∧ s1.holds (es ++ [value])) ∧
    (∀ arg : Ref T,
      ((push_back E sys_new arg s).1 = .error .ctor_failure →
        get_size (push_back E sys_new arg s).2 = get_size s ∧
        (push_back E sys_new arg s).2.holds es ∧
        ∀ i, (operator_index i (push_back E sys_new arg s).2).1 = (operator_index i s).1) ∧
      ((push_back E sys_new arg s).1 = .ok () →
        get_size (push_back E sys_new arg s).2 = get_size s + 1)) := by
  obtain ⟨s1, p, hens, hwf1, hes1, hsz1, hdp1, hle1⟩ :=
    ensure_capacity_returned E sys_new s es hwf hes hok
  have hread : ∀ i, (operator_index i s1).1 = (operator_index i s).1 := by
    intro i
    rw [(read_of_holds s1 es hes1).1 i, (read_of_holds s es hes).1 i]
  obtain ⟨-, hh⟩ := construct_at_end sys_new s1 es value p hwf1 hes1 hdp1 hle1
  have hsize : s1.vec.size + 1 = get_size s + 1 := by simp only [get_size, hsz1]
  refine ⟨?_, ?_, ?_, ?_, ?_⟩
  · intro hthrow
    exact ⟨s1, by simp only [push_back, Ref.read, hens, hdp1, hthrow, if_true], hsz1, hes1,
      hread⟩
  · exact ⟨s1, by simp only [emplace_back, hens, hdp1], hsz1, hes1, hread⟩
  · intro hval
    have hpb : push_back E sys_new (.object value) s =
        (.ok (), { s1 with mem := s1.mem.write p s1.vec.size (some value),
                           vec := { s1.vec with size := s1.vec.size + 1 } }) := by
      simp only [push_back, Ref.read, hens, hdp1, hval]
      rfl
    exact ⟨_, hpb, hsize, hh⟩
  · have hpb : emplace_back E sys_new (some value) s =
        (.ok (), { s1 with mem := s1.mem.write p s1.vec.size (some value),
                           vec := { s1.vec with size := s1.vec.size + 1 } }) := by
      simp only [emplace_back, hens, hdp1]
    exact ⟨_, hpb, hsize, hh⟩
  · intro arg
    cases hr : arg.read s1.mem with
    | error e =>
      have hpb : push_back E sys_new arg s = (.error e, s1) := by
        simp only [push_back, hens, hdp1, hr]
      rw [hpb]
      exact ⟨fun _ => ⟨hsz1, hes1, hread⟩, fun h => (by cases h)⟩
    | ok x =>
      by_cases hthrow : E.copy_throws x = true
      · have hpb : push_back E sys_new arg s = (.error .ctor_failure, s1) := by
          simp only [push_back, hens, hdp1, hr, hthrow, if_true]
        rw [hpb]
        exact ⟨fun _ => ⟨hsz1, hes1, hread⟩, fun h => (by cases h)⟩
      · have hval : E.copy_throws x = false := by simpa using hthrow
        have hpb : push_back E sys_new arg s =
            (.ok (), { s1 with mem := s1.mem.write p s1.vec.size (some x),
                               vec := { s1.vec with size := s1.vec.size + 1 } }) := by
          simp only [push_back, hens, hdp1, hr, hval]
          rfl
        rw [hpb]
        exact ⟨fun h => (by cases h), fun _ => hsize⟩

theorem vec_seven_roomy_ok : vec_seven_roomy.WF sys_new_ex ∧ vec_seven_roomy.holds [7] := by
  obtain ⟨h1, h2, -, -⟩ := ctor_ok E_copy sys_new_ex 2 mr_empty mem_raw mr_empty_WF
  obtain ⟨s', hp, hwf, hh, -⟩ :=
    emplace_back_ok E_copy sys_new_ex 7 _ [] h1 h2 (Or.inr (by simp))
  have : vec_seven_roomy = s' := by
    simp only [vec_seven_roomy, hp]
  rw [this]
  exact ⟨hwf, by simpa using hh⟩

/-- Witness of C15: the array holding `[7]` with capacity `2`, for the element type whose
copy constructor throws on `7`: no growth is needed, and `push_back(7)` fails in the
construction of the new element. -/
theorem append_failure_keeps_elements_witness :
    (E_copy.copy_throws 7 = true →
      ∃ s1, push_back E_copy sys_new_ex (.object 7) vec_seven_roomy =
          (.error .ctor_failure, s1) ∧
        get_size s1 = get_size vec_seven_roomy ∧ s1.holds [7] ∧
        ∀ i, (operator_index i s1).1 = (operator_index i vec_seven_roomy).1) ∧
    (∃ s1, emplace_back E_copy sys_new_ex none vec_seven_roomy = (.error .ctor_failure, s1) ∧
        get_size s1 = get_size vec_seven_roomy ∧ s1.holds [7] ∧
        ∀ i, (operator_index i s1).1 = (operator_index i vec_seven_roomy).1) ∧
    (E_copy.copy_throws 7 = false →
      ∃ s1, push_back E_copy sys_new_ex (.object 7) vec_seven_roomy = (.ok (), s1) ∧
        get_size s1 = get_size vec_seven_roomy + 1 ∧ s1.holds ([7] ++ [7])) ∧
    (∃ s1, emplace_back E_copy sys_new_ex (some 7) vec_seven_roomy = (.ok (), s1) ∧
        get_size s1 = get_size vec_seven_roomy + 1 ∧ s1.holds ([7] ++ [7])) ∧
    (∀ arg : Ref Nat,
      ((push_back E_copy sys_new_ex arg vec_seven_roomy).1 = .error .ctor_failure →
        get_size (push_back E_copy sys_new_ex arg vec_seven_roomy).2 =
          get_size vec_seven_roomy ∧
        (push_back E_copy sys_new_ex arg vec_seven_roomy).2.holds [7] ∧
        ∀ i, (operator_index i (push_back E_copy sys_new_ex arg vec_seven_roomy).2).1 =
          (operator_index i vec_seven_roomy).1) ∧
      ((push_back E_copy sys_new_ex arg vec_seven_roomy).1 = .ok () →
        get_size (push_back E_copy sys_new_ex arg vec_seven_roomy).2 =
          get_size vec_seven_roomy + 1)) :=
  append_failure_keeps_elements E_copy sys_new_ex 7 vec_seven_roomy [7]
    vec_seven_roomy_ok.1 vec_seven_roomy_ok.2 rfl

/-! ## A throwing copy during growth: the invariants it breaks -/

/-- C13 fails on the code.  The array `vec_five_seven` satisfies the invariant: size `2`,
capacity `2`, slots `0` and `1` of its storage `100` live, slot `2` and the region `101` raw.
`push_back(9)` grows; the transfer loop copies `5`, destroys slot `0` of the old storage and
throws on the copy of `7`.  The state the call leaves still has size `2 ≤ 2 = capacity` and
the storage `100`, but slot `0 < size` of that storage holds no live element, and a live
object sits in slot `0` of the region `101`, which is not the storage of the array. -/
theorem array_invariant_broken_by_throwing_copy :
    vec_five_seven.vec = { data_pointer := some 100, size := 2, capacity := 2 } ∧
    vec_five_seven.mem 100 0 = some 5 ∧ vec_five_seven.mem 100 1 = some 7 ∧
    vec_five_seven.mem 100 2 = none ∧ vec_five_seven.mem 101 0 = none ∧
    (push_back E_copy sys_new_ex (.object 9) vec_five_seven).1 = .error .ctor_failure ∧
    (push_back E_copy sys_new_ex (.object 9) vec_five_seven).2.vec =
      { data_pointer := some 100, size := 2, capacity := 2 } ∧
    (push_back E_copy sys_new_ex (.object 9) vec_five_seven).2.mem 100 0 = none ∧
    (push_back E_copy sys_new_ex (.object 9) vec_five_seven).2.mem 101 0 = some 5 :=
  ⟨rfl, rfl, rfl, rfl, rfl, rfl, rfl, rfl, rfl⟩

/-- C18 fails on the code.  The array `vec_seven` was constructed with capacity `1` on the
empty memory resource and holds `7`; its storage `100` is the only tracked block.
`push_back(9)` grows: `ensure_capacity` obtains the block `101` and the copy of `7` throws
before anything is transferred.  The array keeps its storage `100`, and the block `101`
stays used: two used blocks were obtained for the array.  The destructor of the array then
succeeds and releases `100` only, so the block `101`, allocated for the array, is still used
after the destruction. -/
theorem array_lifetime_leaks_block :
    vec_seven.mr.used_blocks = [{ ptr := 100, size := 4, alignment := 4, free := false }] ∧
    (push_back E_copy sys_new_ex (.object 9) vec_seven).1 = .error .ctor_failure ∧
    (push_back E_copy sys_new_ex (.object 9) vec_seven).2.vec = vec_seven.vec ∧
    (push_back E_copy sys_new_ex (.object 9) vec_seven).2.mr.used_blocks =
      [{ ptr := 100, size := 4, alignment := 4, free := false },
       { ptr := 101, size := 8, alignment := 4, free := false }] ∧
    (PmrVector.dtor E_copy (push_back E_copy sys_new_ex (.object 9) vec_seven).2).1 = .ok () ∧
    (PmrVector.dtor E_copy (push_back E_copy sys_new_ex (.object 9) vec_seven).2).2.mr.used_blocks =
      [{ ptr := 100, size := 4, alignment := 4, free := true },
       { ptr := 101, size := 8, alignment := 4, free := false }] :=
  ⟨rfl, rfl, rfl, rfl, rfl, rfl⟩

/-! ## The invariant of the array when no transfer throws -/

/-- The used blocks after an allocation: the block handed out and the blocks used before. -/
theorem do_allocate_used (sys_new : Nat → Nat) (mr : CustomMemoryResource)
    (bytes alignment : Nat) :
    ∀ b ∈ (do_allocate sys_new mr bytes alignment).2.used_blocks, b.free = false →
      b.ptr = (do_allocate sys_new mr bytes alignment).1 ∨ b ∈ mr.used_blocks := by
  intro b hb hfree
  rcases do_allocate_cases sys_new mr bytes alignment with ⟨-, h⟩ | ⟨pre, b0, post, hl, -, -, h⟩
  · rw [h] at hb ⊢
    rcases List.mem_append.mp hb with hb | hb
    · exact Or.inr hb
    · rw [List.mem_singleton.mp hb]
      exact Or.inl rfl
  · rw [h] at hb ⊢
    rcases List.mem_append.mp hb with hb | hb
    · exact Or.inr (by rw [hl]; exact List.mem_append_left _ hb)
    · rcases List.mem_cons.mp hb with hb | hb
      · rw [hb]
        exact Or.inl rfl
      · exact Or.inr (by rw [hl]; exact List.mem_append_right _ (List.mem_cons_of_mem _ hb))

/-- The used blocks after a release: blocks used before, and not the released one. -/
theorem do_deallocate_used (mr mr' : CustomMemoryResource) (p bytes alignment : Nat)
    (hnd : mr.ptrs.Nodup) (h : do_deallocate mr p bytes alignment = .ok mr') :
    ∀ b ∈ mr'.used_blocks, b.free = false → b ∈ mr.used_blocks ∧ b.ptr ≠ p := by
  obtain ⟨pre, b0, post, hl, hpre, hb0, rfl⟩ := do_deallocate_inv mr mr' p bytes alignment h
  have hnd' : ((pre ++ b0 :: post).map MemoryBlock.ptr).Nodup := by
    have := hnd
    simp only [CustomMemoryResource.ptrs, hl] at this
    exact this
  intro b hb hfree
  have hb' : b ∈ pre ++ { b0 with free := true } :: post := hb
  rcases List.mem_append.mp hb' with hb' | hb'
  · exact ⟨by rw [hl]; exact List.mem_append_left _ hb', hpre b hb'⟩
  · rcases List.mem_cons.mp hb' with hb' | hb'
    · rw [hb'] at hfree
      cases hfree
    · refine ⟨by rw [hl]; exact List.mem_append_right _ (List.mem_cons_of_mem _ hb'), ?_⟩
      intro heq
      rw [List.map_append, List.map_cons, List.nodup_append] at hnd'
      have h2 := (List.nodup_cons.mp hnd'.2.1).1
      exact h2 (by rw [hb0, ← heq]; exact List.mem_map_of_mem _ hb')

/-- Growth in detail: where every object is afterwards. -/
theorem ensure_capacity_grow_detail {T : Type} (E : ElemType T) (sys_new : Nat → Nat)
    (new_size : Nat) (s : Machine T) (es : List T) (hwf : s.WF sys_new) (hes : s.holds es)
    (hsafe : E.nothrow_move = true ∨ ∀ x ∈ es, E.copy_throws x = false)
    (hgt : s.vec.capacity < new_size) :
    ∃ s', ensure_capacity E sys_new new_size s = (.ok (), s') ∧
      (s.vec.data_pointer = none →
        s'.mem = s.mem ∧
        s'.mr = (do_allocate sys_new s.mr
          (max new_size (s.vec.capacity * 2) * E.sizeof) E.alignof).2) ∧
      (∀ q, s.vec.data_pointer = some q →
        (do_allocate sys_new s.mr
          (max new_size (s.vec.capacity * 2) * E.sizeof) E.alignof).1 ≠ q ∧
        do_deallocate (do_allocate sys_new s.mr
          (max new_size (s.vec.capacity * 2) * E.sizeof) E.alignof).2 q
          (s.vec.capacity * E.sizeof) E.alignof = .ok s'.mr ∧
        (∀ j, j < s.vec.size →
          s'.mem (do_allocate sys_new s.mr
            (max new_size (s.vec.capacity * 2) * E.sizeof) E.alignof).1 j = s.mem q j) ∧
        (∀ j, j < s.vec.size → s'.mem q j = none) ∧
        (∀ r k, ¬ (k < s.vec.size ∧ (r = (do_allocate sys_new s.mr
            (max new_size (s.vec.capacity * 2) * E.sizeof) E.alignof).1 ∨ r = q)) →
          s'.mem r k = s.mem r k)) := by
  obtain ⟨hmr, hle, hst, -⟩ := hwf
  have hnle : ¬ new_size ≤ s.vec.capacity := by omega
  cases hdp : s.vec.data_pointer with
  | none =>
    have hcap : s.vec.capacity = 0 := by
      have := hst
      simp only [Machine.storage_ok, hdp] at this
      exact this
    have hsz : s.vec.size = 0 := by omega
    have hrun : ensure_capacity E sys_new new_size s =
        (.ok (), { mr := (do_allocate sys_new s.mr
                      (max new_size (s.vec.capacity * 2) * E.sizeof) E.alignof).2,
                   mem := s.mem,
                   vec := { data_pointer := some (do_allocate sys_new s.mr
                              (max new_size (s.vec.capacity * 2) * E.sizeof) E.alignof).1,
                            size := s.vec.size,
                            capacity := max new_size (s.vec.capacity * 2) } }) := by
      simp only [ensure_capacity, hnle, if_false, hdp, hsz, transfer_loop]
    exact ⟨_, hrun, fun _ => ⟨rfl, rfl⟩, fun q hq => by cases hq⟩
  | some q =>
    obtain ⟨b0, hb0, hb0p, hb0f⟩ : ∃ b ∈ s.mr.used_blocks, b.ptr = q ∧ b.free = false := by
      have := hst
      simp only [Machine.storage_ok, hdp] at this
      exact this
    have hne : (do_allocate sys_new s.mr
        (max new_size (s.vec.capacity * 2) * E.sizeof) E.alignof).1 ≠ q := by
      have := do_allocate_ne_used sys_new s.mr
        (max new_size (s.vec.capacity * 2) * E.sizeof) E.alignof hmr b0 hb0 hb0f
      rw [hb0p] at this
      exact fun h => this h.symm
    have hb0' := do_allocate_keeps_used sys_new s.mr
      (max new_size (s.vec.capacity * 2) * E.sizeof) E.alignof b0 hb0 hb0f
    obtain ⟨pre, b, post, -, -, -, hd⟩ := do_deallocate_ok _ q (s.vec.capacity * E.sizeof)
      E.alignof ⟨b0, hb0', hb0p⟩
    have hlive : ∀ j, 0 ≤ j → j < 0 + s.vec.size →
        ∃ x, s.mem q j = some x ∧ (E.nothrow_move = true ∨ E.copy_throws x = false) := by
      intro j _ hj
      have hj' : j < es.length := by rw [← hes.1]; omega
      refine ⟨es.get ⟨j, hj'⟩, holds_slot s es hes q hdp j hj', ?_⟩
      rcases hsafe with h | h
      · exact Or.inl h
      · exact Or.inr (h _ (List.get_mem _ _ _))
    obtain ⟨m', hloop, hnew, hold, hframe⟩ :=
      transfer_loop_ok E q _ hne s.vec.size 0 s.mem hlive
    have hrun : ensure_capacity E sys_new new_size s =
        (.ok (), { mr := { used_blocks := pre ++ { b with free := true } :: post,
                           sys_news := (do_allocate sys_new s.mr
                              (max new_size (s.vec.capacity * 2) * E.sizeof)
                              E.alignof).2.sys_news },
                   mem := m',
                   vec := { data_pointer := some (do_allocate sys_new s.mr
                              (max new_size (s.vec.capacity * 2) * E.sizeof) E.alignof).1,
                            size := s.vec.size,
                            capacity := max new_size (s.vec.capacity * 2) } }) := by
      simp only [ensure_capacity, hnle, if_false, hdp, hloop, hd]
    refine ⟨_, hrun, ?_, ?_⟩
    · intro h
      cases h
    intro q' hq'
    cases hq'
    refine ⟨hne, hd, ?_, ?_, ?_⟩
    · intro j hj
      exact hnew j (Nat.zero_le _) (by omega)
    · intro j hj
      exact hold j (Nat.zero_le _) (by omega)
    · intro r k hk
      exact hframe r k (by omega)

/-- `ensure_capacity` keeps the invariant when no transfer throws. -/
theorem ensure_capacity_Inv {T : Type} (E : ElemType T) (sys_new : Nat → Nat) (new_size : Nat)
    (s : Machine T) (es : List T) (hinv : s.Inv sys_new) (hes : s.holds es)
    (hsafe : E.nothrow_move = true ∨ ∀ x ∈ es, E.copy_throws x = false) :
    ∃ s', ensure_capacity E sys_new new_size s = (.ok (), s') ∧ s'.Inv sys_new ∧
      s'.holds es ∧ s'.vec.size = s.vec.size ∧ new_size ≤ s'.vec.capacity ∧
      s'.vec.capacity =
        (if new_size ≤ s.vec.capacity then s.vec.capacity
         else max new_size (s.vec.capacity * 2)) := by
  obtain ⟨hwf, hlive, hraw⟩ := hinv
  by_cases hle : new_size ≤ s.vec.capacity
  · exact ⟨s, by simp [ensure_capacity, hle], ⟨hwf, hlive, hraw⟩, hes, rfl, hle, by simp [hle]⟩
  · obtain ⟨s', hrun, hwf', hes', hsz', hcap', hdp', -, -⟩ :=
      ensure_capacity_grow E sys_new new_size s es hwf hes hsafe (by omega)
    obtain ⟨s'', hrun'', hnone, hsome⟩ :=
      ensure_capacity_grow_detail E sys_new new_size s es hwf hes hsafe (by omega)
    have hs : s'' = s' := by
      rw [hrun''] at hrun
      exact (Prod.mk.inj hrun).2
    subst hs
    -- the new storage was not the address of a used block, so it was raw
    have hp1raw : ∀ k, s.mem (do_allocate sys_new s.mr
        (max new_size (s.vec.capacity * 2) * E.sizeof) E.alignof).1 k = none := by
      intro k
      by_contra hk
      obtain ⟨b, hb, hbp, hbf⟩ := hraw _ k hk
      exact do_allocate_ne_used sys_new s.mr _ _ hwf.1 b hb hbf hbp
    obtain ⟨b1, hb1, hb1p, hb1f⟩ : ∃ b ∈ s''.mr.used_blocks,
        b.ptr = (do_allocate sys_new s.mr
          (max new_size (s.vec.capacity * 2) * E.sizeof) E.alignof).1 ∧ b.free = false := by
      have := hwf'.2.2.1
      simp only [Machine.storage_ok, hdp'] at this
      exact this
    refine ⟨s'', hrun'', ⟨hwf', ?_, ?_⟩, hes', hsz', ?_, by simp [hle, hcap']⟩
    · -- exactly the slots below `size` of the new storage are live
      intro p hp i
      rw [hdp'] at hp
      cases hp
      rw [hsz']
      cases hdp : s.vec.data_pointer with
      | none =>
        have hcap0 : s.vec.capacity = 0 := by
          have := hwf.2.2.1
          simp only [Machine.storage_ok, hdp] at this
          exact this
        have hsz0 : s.vec.size = 0 := by have := hwf.2.1; omega
        rw [(hnone hdp).1, hp1raw i, hsz0]
        simp
      | some q =>
        obtain ⟨-, -, hnew, -, hframe⟩ := hsome q hdp
        by_cases hi : i < s.vec.size
        · rw [hnew i hi]
          have hi' : i < es.length := by rw [← hes.1]; exact hi
          rw [holds_slot s es hes q hdp i hi']
          simp [hi]
        · rw [hframe _ i (by omega), hp1raw i]
          simp [hi]
    · -- live objects sit in used regions
      intro r k hk
      cases hdp : s.vec.data_pointer with
      | none =>
        rw [(hnone hdp).1] at hk
        obtain ⟨b, hb, hbp, hbf⟩ := hraw r k hk
        refine ⟨b, ?_, hbp, hbf⟩
        rw [(hnone hdp).2]
        exact do_allocate_keeps_used sys_new s.mr _ _ b hb hbf
      | some q =>
        obtain ⟨hne, hd, hnew, hold, hframe⟩ := hsome q hdp
        by_cases hr1 : r = (do_allocate sys_new s.mr
            (max new_size (s.vec.capacity * 2) * E.sizeof) E.alignof).1
        · exact ⟨b1, hb1, by rw [hb1p, hr1], hb1f⟩
        · by_cases hrq : r = q
          · subst hrq
            by_cases hks : k < s.vec.size
            · exact absurd (hold k hks) hk
            · rw [hframe r k (by omega)] at hk
              exact absurd ((hlive r hdp k).mp hk) hks
          · rw [hframe r k (by omega)] at hk
            obtain ⟨b, hb, hbp, hbf⟩ := hraw r k hk
            refine ⟨b, ?_, hbp, hbf⟩
            exact do_deallocate_keeps _ _ q _ _ hd b
              (do_allocate_keeps_used sys_new s.mr _ _ b hb hbf) (by rw [hbp]; exact hrq)
    · rw [hcap']
      exact le_max_left _ _

/-- The construction of the new element in slot `size` keeps the invariant. -/
theorem construct_at_end_Inv {T : Type} (sys_new : Nat → Nat) (s : Machine T) (es : List T)
    (value : T) (p : Nat) (hinv : s.Inv sys_new) (hes : s.holds es)
    (hp : s.vec.data_pointer = some p) (hcap : s.vec.size + 1 ≤ s.vec.capacity) :
    Machine.Inv sys_new
      { s with mem := s.mem.write p s.vec.size (some value),
               vec := { s.vec with size := s.vec.size + 1 } } := by
  obtain ⟨hwf, hlive, hraw⟩ := hinv
  obtain ⟨h1, -⟩ := construct_at_end sys_new s es value p hwf hes hp hcap
  refine ⟨h1, ?_, ?_⟩
  · intro p' hp' i
    have hpp : p' = p := by
      have : s.vec.data_pointer = some p' := hp'
      rw [hp] at this
      exact (Option.some.inj this).symm
    subst hpp
    show (s.mem.write p' s.vec.size (some value)) p' i ≠ none ↔ i < s.vec.size + 1
    by_cases hi : i = s.vec.size
    · subst hi
      rw [Mem.write_same]
      simp
    · rw [Mem.write_other _ _ _ _ _ _ (by omega), hlive p' hp i]
      omega
  · intro r k hk
    have hk' : (s.mem.write p s.vec.size (some value)) r k ≠ none := hk
    by_cases hrk : r = p ∧ k = s.vec.size
    · have hst := hwf.2.2.1
      simp only [Machine.storage_ok, hp] at hst
      obtain ⟨b, hb, hbp, hbf⟩ := hst
      exact ⟨b, hb, by rw [hbp, hrk.1], hbf⟩
    · rw [Mem.write_other _ _ _ _ _ _ hrk] at hk'
      exact hraw r k hk'

/-- The loop of `clear` in detail: the slots visited become raw, nothing else changes. -/
theorem destroy_loop_mem {T : Type} (p n : Nat) :
    ∀ (i : Nat) (m : Mem T), (∀ j, i ≤ j → j < i + n → ∃ x, m p j = some x) →
      ∃ m', destroy_loop (some p) n i m = (.ok (), m') ∧
        (∀ j, i ≤ j → j < i + n → m' p j = none) ∧
        (∀ r k, ¬ (r = p ∧ i ≤ k ∧ k < i + n) → m' r k = m r k) := by
  induction n with
  | zero => intro i m _; exact ⟨m, rfl, fun j h1 h2 => by omega, fun _ _ _ => rfl⟩
  | succ n ih =>
    intro i m hlive
    obtain ⟨x, hx⟩ := hlive i (le_refl _) (by omega)
    have hlive2 : ∀ j, i + 1 ≤ j → j < i + 1 + n → ∃ y, (m.write p i none) p j = some y := by
      intro j h1 h2
      obtain ⟨y, hy⟩ := hlive j (by omega) (by omega)
      exact ⟨y, by rw [Mem.write_other _ _ _ _ _ _ (by omega)]; exact hy⟩
    obtain ⟨m', hrun, hnone, hframe⟩ := ih (i + 1) _ hlive2
    refine ⟨m', by simp only [destroy_loop, destroy, hx]; exact hrun, ?_, ?_⟩
    · intro j h1 h2
      by_cases hj : j = i
      · subst hj
        rw [hframe p j (by omega), Mem.write_same]
      · exact hnone j (by omega) (by omega)
    · intro r k hk
      rw [hframe r k (by omega), Mem.write_other _ _ _ _ _ _ (by omega)]

/-- `clear` keeps the invariant. -/
theorem clear_Inv {T : Type} (sys_new : Nat → Nat) (s : Machine T) (hinv : s.Inv sys_new) :
    ∃ s', clear s = (.ok (), s') ∧ s'.Inv sys_new ∧ s'.holds [] ∧
      s'.vec.capacity = s.vec.capacity ∧ s'.mr = s.mr ∧
      s'.vec.data_pointer = s.vec.data_pointer := by
  obtain ⟨⟨hmr, hle, hst, es, hes⟩, hlive, hraw⟩ := hinv
  cases hdp : s.vec.data_pointer with
  | none =>
    have hsz : s.vec.size = 0 := by
      have := hst
      simp only [Machine.storage_ok, hdp] at this
      omega
    have hrun : clear s = (.ok (), { s with mem := s.mem, vec := { s.vec with size := 0 } }) := by
      simp only [clear, hdp, hsz, destroy_loop]
    have hh0 : Machine.holds { s with mem := s.mem, vec := { s.vec with size := 0 } } [] :=
      ⟨rfl, fun i hi => absurd hi (by simp)⟩
    refine ⟨_, hrun, ⟨⟨hmr, Nat.zero_le _, hst, [], hh0⟩, ?_, hraw⟩, hh0, rfl, rfl, hdp⟩
    intro p hp
    have : s.vec.data_pointer = some p := hp
    rw [hdp] at this
    cases this
  | some p =>
    have hl : ∀ j, 0 ≤ j → j < 0 + s.vec.size → ∃ x, s.mem p j = some x := by
      intro j _ hj
      have hj' : j < es.length := by rw [← hes.1]; omega
      exact ⟨_, holds_slot s es hes p hdp j hj'⟩
    obtain ⟨m', hloop, hnone, hframe⟩ := destroy_loop_mem p s.vec.size 0 s.mem hl
    have hrun : clear s = (.ok (), { s with mem := m', vec := { s.vec with size := 0 } }) := by
      simp only [clear, hdp, hloop]
    have hh0 : Machine.holds { s with mem := m', vec := { s.vec with size := 0 } } [] :=
      ⟨rfl, fun i hi => absurd hi (by simp)⟩
    refine ⟨_, hrun, ⟨⟨hmr, Nat.zero_le _, hst, [], hh0⟩, ?_, ?_⟩, hh0, rfl, rfl, hdp⟩
    · intro p' hp' i
      have hpp : p' = p := by
        have : s.vec.data_pointer = some p' := hp'
        rw [hdp] at this
        exact (Option.some.inj this).symm
      subst hpp
      show m' p' i ≠ none ↔ i < 0
      by_cases hi : i < s.vec.size
      · rw [hnone i (Nat.zero_le _) (by omega)]
        simp
      · rw [hframe p' i (by omega)]
        have := (hlive p' hdp i).not.mpr hi
        simp only [Nat.not_lt_zero, iff_false]
        exact this
    · intro r k hk
      have hk' : m' r k ≠ none := hk
      by_cases hrk : r = p ∧ 0 ≤ k ∧ k < 0 + s.vec.size
      · rw [hrk.1, hnone k hrk.2.1 hrk.2.2] at hk'
        exact absurd rfl hk'
      · rw [hframe r k hrk] at hk'
        exact hraw r k hk'

/-- The constructor establishes the invariant on a memory whose live objects sit in used
regions. -/
theorem ctor_Inv {T : Type} (E : ElemType T) (sys_new : Nat → Nat) (capacity : Nat)
    (mr : CustomMemoryResource) (mem : Mem T) (hmr : mr.WF sys_new)
    (hraw : ∀ p i, mem p i ≠ none → ∃ b ∈ mr.used_blocks, b.ptr = p ∧ b.free = false) :
    (PmrVector.ctor E sys_new capacity mr mem).Inv sys_new := by
  obtain ⟨hwf, -, -, hsz⟩ := ctor_ok E sys_new capacity mr mem hmr
  refine ⟨hwf, ?_, ?_⟩
  · intro p hp i
    rw [hsz]
    by_cases hc : capacity > 0
    · simp only [PmrVector.ctor, hc, if_true, Option.some.injEq] at hp
      have hm : (PmrVector.ctor E sys_new capacity mr mem).mem = mem := by
        simp [PmrVector.ctor, hc]
      rw [hm]
      have : mem p i = none := by
        by_contra hk
        obtain ⟨b, hb, hbp, hbf⟩ := hraw p i hk
        exact do_allocate_ne_used sys_new mr _ _ hmr b hb hbf (by rw [hbp, hp])
      simp [this]
    · simp [PmrVector.ctor, hc] at hp
  · intro r k hk
    by_cases hc : capacity > 0
    · have hm : (PmrVector.ctor E sys_new capacity mr mem).mem = mem := by
        simp [PmrVector.ctor, hc]
      rw [hm] at hk
      obtain ⟨b, hb, hbp, hbf⟩ := hraw r k hk
      refine ⟨b, ?_, hbp, hbf⟩
      simp only [PmrVector.ctor, hc, if_true]
      exact do_allocate_keeps_used sys_new mr _ _ b hb hbf
    · have hm : (PmrVector.ctor E sys_new capacity mr mem) =
          { mr := mr, mem := mem,
            vec := { data_pointer := none, size := 0, capacity := capacity } } := by
        simp [PmrVector.ctor, hc]
      rw [hm] at hk ⊢
      exact hraw r k hk

/-- The invariant of the array on every path on which no transfer of growth throws:
`ctor_Inv` establishes it, and `push_back`, `emplace_back`, `ensure_capacity` and
`clear` leave a state that satisfies it, whether the construction of a new element succeeds
or throws. -/
theorem array_invariant_when_transfer_safe {T : Type} (E : ElemType T) (sys_new : Nat → Nat)
    (s : Machine T) (es : List T) (hinv : s.Inv sys_new) (hes : s.holds es)
    (hsafe : E.nothrow_move = true ∨ ∀ x ∈ es, E.copy_throws x = false)
    (value : T) (built : Option T) (new_size : Nat) :
    (push_back E sys_new (.object value) s).2.Inv sys_new ∧
    (emplace_back E sys_new built s).2.Inv sys_new ∧
    (ensure_capacity E sys_new new_size s).2.Inv sys_new ∧
    (clear s).2.Inv sys_new := by
  obtain ⟨s1, hens, hinv1, hes1, hsz1, hcap1, -⟩ :=
    ensure_capacity_Inv E sys_new (s.vec.size + 1) s es hinv hes hsafe
  obtain ⟨p, hdp1⟩ : ∃ p, s1.vec.data_pointer = some p := by
    cases hdp : s1.vec.data_pointer with
    | none =>
      have := hinv1.1.2.2.1
      simp only [Machine.storage_ok, hdp] at this
      omega
    | some p => exact ⟨p, rfl⟩
  have hstep := construct_at_end_Inv sys_new s1 es
  refine ⟨?_, ?_, ?_, ?_⟩
  · by_cases hthrow : E.copy_throws value = true
    · simp only [push_back, Ref.read, hens, hdp1, hthrow, if_true]
      exact hinv1
    · have hval : E.copy_throws value = false := by simpa using hthrow
      have hpb : push_back E sys_new (.object value) s =
          (.ok (), { s1 with mem := s1.mem.write p s1.vec.size (some value),
                             vec := { s1.vec with size := s1.vec.size + 1 } }) := by
        simp only [push_back, Ref.read, hens, hdp1, hval]
        rfl
      rw [hpb]
      exact hstep value p hinv1 hes1 hdp1 (by omega)
  · cases built with
    | none =>
      simp only [emplace_back, hens, hdp1]
      exact hinv1
    | some v =>
      have hpb : emplace_back E sys_new (some v) s =
          (.ok (), { s1 with mem := s1.mem.write p s1.vec.size (some v),
                             vec := { s1.vec with size := s1.vec.size + 1 } }) := by
        simp only [emplace_back, hens, hdp1]
      rw [hpb]
      exact hstep v p hinv1 hes1 hdp1 (by omega)
  · obtain ⟨s2, hens2, hinv2, -, -, -, -⟩ :=
      ensure_capacity_Inv E sys_new new_size s es hinv hes hsafe
    rw [hens2]
    exact hinv2
  · obtain ⟨s3, hcl, hinv3, -, -, -, -⟩ := clear_Inv sys_new s hinv
    rw [hcl]
    exact hinv3

/-! ## The lifetime of the array when no transfer throws -/

theorem mem_used_ptrs (mr : CustomMemoryResource) (p : Nat) :
    p ∈ mr.used_ptrs ↔ ∃ b ∈ mr.used_blocks, b.ptr = p ∧ b.free = false := by
  simp only [CustomMemoryResource.used_ptrs, List.mem_map, List.mem_filter,
    Bool.not_eq_true', and_assoc]
  constructor
  · rintro ⟨b, hb, hf, hp⟩; exact ⟨b, hb, hp, hf⟩
  · rintro ⟨b, hb, hp, hf⟩; exact ⟨b, hb, hf, hp⟩

/-- `ensure_capacity` keeps the accounts when no transfer throws. -/
theorem ensure_capacity_accounts {T : Type} (E : ElemType T) (sys_new : Nat → Nat)
    (new_size : Nat) (U0 : List Nat) (s : Machine T) (es : List T) (hwf : s.WF sys_new)
    (hes : s.holds es) (hacc : s.accounts U0)
    (hsafe : E.nothrow_move = true ∨ ∀ x ∈ es, E.copy_throws x = false) :
    ∃ s', ensure_capacity E sys_new new_size s = (.ok (), s') ∧ s'.WF sys_new ∧
      s'.holds es ∧ s'.accounts U0 ∧ s'.vec.size = s.vec.size ∧ new_size ≤ s'.vec.capacity := by
  by_cases hle : new_size ≤ s.vec.capacity
  · exact ⟨s, by simp [ensure_capacity, hle], hwf, hes, hacc, rfl, hle⟩
  · obtain ⟨s', hrun, hwf', hes', hsz', hcap', hdp', hnone, hsome⟩ :=
      ensure_capacity_grow E sys_new new_size s es hwf hes hsafe (by omega)
    obtain ⟨h1, h2, h3⟩ := hacc
    have hp1 : ∀ p ∈ U0, p ≠ (do_allocate sys_new s.mr
        (max new_size (s.vec.capacity * 2) * E.sizeof) E.alignof).1 := by
      intro p hp
      obtain ⟨b, hb, hbp, hbf⟩ := h2 p hp
      rw [← hbp]
      exact do_allocate_ne_used sys_new s.mr _ _ hwf.1 b hb hbf
    refine ⟨s', hrun, hwf', hes', ⟨?_, ?_, ?_⟩, hsz', by rw [hcap']; exact le_max_left _ _⟩
    · intro b hb hbf
      cases hdp : s.vec.data_pointer with
      | none =>
        rw [hnone hdp] at hb
        rcases do_allocate_used sys_new s.mr _ _ b hb hbf with h | h
        · exact Or.inr (by rw [hdp', h])
        · rcases h1 b h hbf with h | h
          · exact Or.inl h
          · rw [hdp] at h
            cases h
      | some q =>
        have hd := hsome q hdp
        obtain ⟨hb', hne⟩ := do_deallocate_used _ _ q _ _
          (do_allocate_WF sys_new s.mr _ _ hwf.1).1 hd b hb hbf
        rcases do_allocate_used sys_new s.mr _ _ b hb' hbf with h | h
        · exact Or.inr (by rw [hdp', h])
        · rcases h1 b h hbf with h | h
          · exact Or.inl h
          · rw [hdp] at h
            exact absurd (Option.some.inj h).symm hne
    · intro p hp
      obtain ⟨b, hb, hbp, hbf⟩ := h2 p hp
      have hb' := do_allocate_keeps_used sys_new s.mr
        (max new_size (s.vec.capacity * 2) * E.sizeof) E.alignof b hb hbf
      cases hdp : s.vec.data_pointer with
      | none =>
        rw [hnone hdp]
        exact ⟨b, hb', hbp, hbf⟩
      | some q =>
        have hd := hsome q hdp
        refine ⟨b, do_deallocate_keeps _ _ q _ _ hd b hb' ?_, hbp, hbf⟩
        rw [hbp]
        intro hpq
        exact h3 q hdp (hpq ▸ hp)
    · intro p hp hpU
      rw [hdp'] at hp
      exact hp1 p hpU (Option.some.inj hp).symm

/-- Every call keeps well-formedness and the accounts when no transfer throws. -/
theorem apply_accounts {T : Type} (E : ElemType T) (sys_new : Nat → Nat) (U0 : List Nat)
    (hsafe : E.nothrow_move = true ∨ ∀ x, E.copy_throws x = false)
    (s : Machine T) (hwf : s.WF sys_new) (hacc : s.accounts U0) (op : VecOp T) :
    (op.apply E sys_new s).WF sys_new ∧ (op.apply E sys_new s).accounts U0 := by
  obtain ⟨hmr, hle, hst, es, hes⟩ := hwf
  have hwf : s.WF sys_new := ⟨hmr, hle, hst, es, hes⟩
  have hsafe' : E.nothrow_move = true ∨ ∀ x ∈ es, E.copy_throws x = false := by
    rcases hsafe with h | h
    · exact Or.inl h
    · exact Or.inr fun x _ => h x
  obtain ⟨s1, hens, hwf1, hes1, hacc1, hsz1, hcap1⟩ :=
    ensure_capacity_accounts E sys_new (s.vec.size + 1) U0 s es hwf hes hacc hsafe'
  obtain ⟨p, hdp1⟩ : ∃ p, s1.vec.data_pointer = some p := by
    cases hdp : s1.vec.data_pointer with
    | none =>
      have := hwf1.2.2.1
      simp only [Machine.storage_ok, hdp] at this
      omega
    | some p => exact ⟨p, rfl⟩
  have hstep : ∀ v : T,
      Machine.WF sys_new
        { s1 with mem := s1.mem.write p s1.vec.size (some v),
                  vec := { s1.vec with size := s1.vec.size + 1 } } ∧
      Machine.accounts U0
        { s1 with mem := s1.mem.write p s1.vec.size (some v),
                  vec := { s1.vec with size := s1.vec.size + 1 } } := by
    intro v
    exact ⟨(construct_at_end sys_new s1 es v p hwf1 hes1 hdp1 (by omega)).1, hacc1⟩
  cases op with
  | push_back value =>
    by_cases hthrow : E.copy_throws value = true
    · have hpb : push_back E sys_new (.object value) s = (.error .ctor_failure, s1) := by
        simp only [push_back, Ref.read, hens, hdp1, hthrow, if_true]
      simp only [VecOp.apply, hpb]
      exact ⟨hwf1, hacc1⟩
    · have hval : E.copy_throws value = false := by simpa using hthrow
      have hpb : push_back E sys_new (.object value) s =
          (.ok (), { s1 with mem := s1.mem.write p s1.vec.size (some value),
                             vec := { s1.vec with size := s1.vec.size + 1 } }) := by
        simp only [push_back, Ref.read, hens, hdp1, hval]
        rfl
      simp only [VecOp.apply, hpb]
      exact hstep value
  | emplace_back built =>
    cases built with
    | none =>
      have hpb : emplace_back E sys_new none s = (.error .ctor_failure, s1) := by
        simp only [emplace_back, hens, hdp1]
      simp only [VecOp.apply, hpb]
      exact ⟨hwf1, hacc1⟩
    | some v =>
      have hpb : emplace_back E sys_new (some v) s =
          (.ok (), { s1 with mem := s1.mem.write p s1.vec.size (some v),
                             vec := { s1.vec with size := s1.vec.size + 1 } }) := by
        simp only [emplace_back, hens, hdp1]
      simp only [VecOp.apply, hpb]
      exact hstep v
  | clear =>
    obtain ⟨m', hclear⟩ := clear_ok s es hes
    simp only [VecOp.apply, hclear]
    exact ⟨⟨hmr, Nat.zero_le _, hst, [], rfl, fun i hi => absurd hi (by simp)⟩, hacc⟩

theorem run_ops_accounts {T : Type} (E : ElemType T) (sys_new : Nat → Nat) (U0 : List Nat)
    (hsafe : E.nothrow_move = true ∨ ∀ x, E.copy_throws x = false) (ops : List (VecOp T)) :
    ∀ s : Machine T, s.WF sys_new → s.accounts U0 →
      (run_ops E sys_new ops s).WF sys_new ∧ (run_ops E sys_new ops s).accounts U0 := by
  induction ops with
  | nil => intro s hwf hacc; exact ⟨hwf, hacc⟩
  | cons op ops ih =>
    intro s hwf hacc
    obtain ⟨h1, h2⟩ := apply_accounts E sys_new U0 hsafe s hwf hacc op
    exact ih _ h1 h2

theorem ctor_accounts {T : Type} (E : ElemType T) (sys_new : Nat → Nat) (capacity : Nat)
    (mr : CustomMemoryResource) (mem : Mem T) (hmr : mr.WF sys_new) :
    (PmrVector.ctor E sys_new capacity mr mem).accounts mr.used_ptrs := by
  by_cases hc : capacity > 0
  · have hm : PmrVector.ctor E sys_new capacity mr mem =
        { mr := (do_allocate sys_new mr (capacity * E.sizeof) E.alignof).2, mem := mem,
          vec := { data_pointer := some (do_allocate sys_new mr (capacity * E.sizeof)
                                    E.alignof).1,
                   size := 0, capacity := capacity } } := by
      simp [PmrVector.ctor, hc]
    rw [hm]
    refine ⟨?_, ?_, ?_⟩
    · intro b hb hbf
      rcases do_allocate_used sys_new mr _ _ b hb hbf with h | h
      · exact Or.inr (by rw [h])
      · exact Or.inl ((mem_used_ptrs mr b.ptr).mpr ⟨b, h, rfl, hbf⟩)
    · intro p hp
      obtain ⟨b, hb, hbp, hbf⟩ := (mem_used_ptrs mr p).mp hp
      exact ⟨b, do_allocate_keeps_used sys_new mr _ _ b hb hbf, hbp, hbf⟩
    · intro p hp hpU
      obtain ⟨b, hb, hbp, hbf⟩ := (mem_used_ptrs mr p).mp hpU
      have hne := do_allocate_ne_used sys_new mr (capacity * E.sizeof) E.alignof hmr b hb hbf
      exact hne (by rw [hbp]; exact (Option.some.inj hp).symm)
  · have hm : PmrVector.ctor E sys_new capacity mr mem =
        { mr := mr, mem := mem,
          vec := { data_pointer := none, size := 0, capacity := capacity } } := by
      simp [PmrVector.ctor, hc]
    rw [hm]
    refine ⟨?_, ?_, ?_⟩
    · intro b hb hbf
      exact Or.inl ((mem_used_ptrs mr b.ptr).mpr ⟨b, hb, rfl, hbf⟩)
    · intro p hp
      exact (mem_used_ptrs mr p).mp hp
    · intro p hp
      cases hp

/-- The lifetime of an array on a well-formed memory resource when no transfer of growth
throws (the move cannot throw, or no copy does): after the constructor and any sequence of
`push_back`, `emplace_back` and `clear` calls, returning or throwing, every used block is a
block that was used before the construction or the storage of the array; the destructor
then succeeds, and after it the used blocks are exactly the blocks used before the
construction. -/
theorem array_lifetime_when_transfer_safe {T : Type} (E : ElemType T) (sys_new : Nat → Nat)
    (capacity : Nat) (mr : CustomMemoryResource) (mem : Mem T) (ops : List (VecOp T))
    (hmr : mr.WF sys_new) (hsafe : E.nothrow_move = true ∨ ∀ x, E.copy_throws x = false) :
    (run_ops E sys_new ops (PmrVector.ctor E sys_new capacity mr mem)).accounts mr.used_ptrs ∧
    (PmrVector.dtor E
      (run_ops E sys_new ops (PmrVector.ctor E sys_new capacity mr mem))).1 = .ok () ∧
    (∀ b ∈ (PmrVector.dtor E
        (run_ops E sys_new ops (PmrVector.ctor E sys_new capacity mr mem))).2.mr.used_blocks,
      b.free = false → b.ptr ∈ mr.used_ptrs) ∧
    (∀ p ∈ mr.used_ptrs, ∃ b ∈ (PmrVector.dtor E
        (run_ops E sys_new ops (PmrVector.ctor E sys_new capacity mr mem))).2.mr.used_blocks,
      b.ptr = p ∧ b.free = false) := by
  obtain ⟨hwf0, -, -, -⟩ := ctor_ok E sys_new capacity mr mem hmr
  obtain ⟨hwf, hacc⟩ := run_ops_accounts E sys_new mr.used_ptrs hsafe ops _ hwf0
    (ctor_accounts E sys_new capacity mr mem hmr)
  generalize run_ops E sys_new ops (PmrVector.ctor E sys_new capacity mr mem) = s at hwf hacc
  obtain ⟨hmr', hle, hst, es, hes⟩ := hwf
  obtain ⟨h1, h2, h3⟩ := hacc
  refine ⟨⟨h1, h2, h3⟩, ?_⟩
  cases hdp : s.vec.data_pointer with
  | none =>
    have hd : PmrVector.dtor E s = (.ok (), s) := by simp only [PmrVector.dtor, hdp]
    rw [hd]
    refine ⟨rfl, ?_, h2⟩
    intro b hb hbf
    rcases h1 b hb hbf with h | h
    · exact h
    · rw [hdp] at h
      cases h
  | some q =>
    have hl : ∀ j, 0 ≤ j → j < 0 + s.vec.size → ∃ x, s.mem q j = some x := by
      intro j _ hj
      have hj' : j < es.length := by rw [← hes.1]; omega
      exact ⟨_, holds_slot s es hes q hdp j hj'⟩
    obtain ⟨m', hloop⟩ := destroy_loop_ok q s.vec.size 0 s.mem hl
    obtain ⟨b0, hb0, hb0p, -⟩ : ∃ b ∈ s.mr.used_blocks, b.ptr = q ∧ b.free = false := by
      have := hst
      simp only [Machine.storage_ok, hdp] at this
      exact this
    obtain ⟨pre, b, post, hl', hpre, hb, hdd⟩ := do_deallocate_ok s.mr q
      (s.vec.capacity * E.sizeof) E.alignof ⟨b0, hb0, hb0p⟩
    have hd : PmrVector.dtor E s =
        (.ok (), { s with mr := { used_blocks := pre ++ { b with free := true } :: post,
                                  sys_news := s.mr.sys_news },
                          mem := m' }) := by
      simp only [PmrVector.dtor, hdp, hloop, hdd]
    rw [hd]
    refine ⟨rfl, ?_, ?_⟩
    · intro x hx hxf
      obtain ⟨hx', hne⟩ := do_deallocate_used s.mr _ q _ _ hmr'.1 hdd x hx hxf
      rcases h1 x hx' hxf with h | h
      · exact h
      · rw [hdp] at h
        exact absurd (Option.some.inj h).symm hne
    · intro p hp
      obtain ⟨x, hx, hxp, hxf⟩ := h2 p hp
      refine ⟨x, do_deallocate_keeps s.mr _ q _ _ hdd x hx ?_, hxp, hxf⟩
      rw [hxp]
      intro hpq
      exact h3 q hdp (hpq ▸ hp)

/-! ## Doubling under appends -/

/-- The growth step of an append that returns, on a well-formed state: without growth the
state is untouched; with growth the capacity is `max (size + 1) (capacity * 2)` and the
storage is the new address the allocator returned, which is not the old storage. -/
theorem growth_step {T : Type} (E : ElemType T) (sys_new : Nat → Nat) (s : Machine T)
    (es : List T) (hwf : s.WF sys_new) (hes : s.holds es)
    (hok : (ensure_capacity E sys_new (s.vec.size + 1) s).1 = .ok ()) :
    ∃ s1 p, ensure_capacity E sys_new (s.vec.size + 1) s = (.ok (), s1) ∧
      s1.WF sys_new ∧ s1.holds es ∧ s1.vec.size = s.vec.size ∧
      s1.vec.data_pointer = some p ∧ s1.vec.size + 1 ≤ s1.vec.capacity ∧
      (s.vec.size + 1 ≤ s.vec.capacity → s1 = s) ∧
      (¬ s.vec.size + 1 ≤ s.vec.capacity →
        s1.vec.capacity = max (s.vec.size + 1) (s.vec.capacity * 2) ∧
        s1.vec.data_pointer ≠ s.vec.data_pointer ∧
        s1.vec.data_pointer =
          some (do_allocate sys_new s.mr
            (max (s.vec.size + 1) (s.vec.capacity * 2) * E.sizeof) E.alignof).1) := by
  by_cases hle : s.vec.size + 1 ≤ s.vec.capacity
  · have hens : ensure_capacity E sys_new (s.vec.size + 1) s = (.ok (), s) := by
      simp [ensure_capacity, hle]
    cases hdp : s.vec.data_pointer with
    | none =>
      have := hwf.2.2.1
      simp only [Machine.storage_ok, hdp] at this
      omega
    | some p =>
      exact ⟨s, p, hens, hwf, hes, rfl, hdp, hle, fun _ => rfl, fun h => absurd hle h⟩
  · have hsafe : E.nothrow_move = true ∨ ∀ x ∈ es, E.copy_throws x = false := by
      rcases ensure_capacity_of_returned E sys_new _ s es hwf hes hok with h | h
      · exact absurd h hle
      · exact h
    obtain ⟨s1, hrun, hwf1, hes1, hsz1, hcap1, hdp1, -, -⟩ :=
      ensure_capacity_grow E sys_new (s.vec.size + 1) s es hwf hes hsafe (by omega)
    obtain ⟨s2, hrun2, -, hsome⟩ :=
      ensure_capacity_grow_detail E sys_new (s.vec.size + 1) s es hwf hes hsafe (by omega)
    have hs : s2 = s1 := by
      rw [hrun2] at hrun
      exact (Prod.mk.inj hrun).2
    subst hs
    refine ⟨s2, _, hrun2, hwf1, hes1, hsz1, hdp1, ?_, fun h => absurd h hle, fun _ => ?_⟩
    · rw [hsz1, hcap1]
      exact le_max_left _ _
    · refine ⟨hcap1, ?_, hdp1⟩
      rw [hdp1]
      cases hdp : s.vec.data_pointer with
      | none => simp
      | some q =>
        intro heq
        exact (hsome q hdp).1 (Option.some.inj heq)

/-- What an append leaves of the growth step: storage, capacity and memory resource are
those the growth step left, whether the new element gets constructed or not. -/
theorem append_keeps_growth {T : Type} (E : ElemType T) (sys_new : Nat → Nat) (s s1 : Machine T)
    (p : Nat) (hens : ensure_capacity E sys_new (s.vec.size + 1) s = (.ok (), s1))
    (hdp1 : s1.vec.data_pointer = some p) (arg : Ref T) (built : Option T) :
    (push_back E sys_new arg s).2.vec.data_pointer = s1.vec.data_pointer ∧
    (push_back E sys_new arg s).2.vec.capacity = s1.vec.capacity ∧
    (push_back E sys_new arg s).2.mr = s1.mr ∧
    (emplace_back E sys_new built s).2.vec.data_pointer = s1.vec.data_pointer ∧
    (emplace_back E sys_new built s).2.vec.capacity = s1.vec.capacity ∧
    (emplace_back E sys_new built s).2.mr = s1.mr := by
  have hpush : (push_back E sys_new arg s).2.vec.data_pointer = s1.vec.data_pointer ∧
      (push_back E sys_new arg s).2.vec.capacity = s1.vec.capacity ∧
      (push_back E sys_new arg s).2.mr = s1.mr := by
    cases hr : arg.read s1.mem with
    | error e => simp [push_back, hens, hdp1, hr]
    | ok x => by_cases h : E.copy_throws x = true <;> simp [push_back, hens, hdp1, hr, h]
  refine ⟨hpush.1, hpush.2.1, hpush.2.2, ?_, ?_, ?_⟩
  · cases built <;> simp [emplace_back, hens, hdp1]
  · cases built <;> simp [emplace_back, hens, hdp1]
  · cases built <;> simp [emplace_back, hens, hdp1]

/-- One append whose new element gets constructed, on a well-formed state whose elements can
be transferred: the state it leaves, its capacity, and whether the array reallocated. -/
theorem apply_push {T : Type} (E : ElemType T) (sys_new : Nat → Nat) (s : Machine T)
    (es : List T) (op : VecOp T) (hwf : s.WF sys_new) (hes : s.holds es)
    (hsafe : E.nothrow_move = true ∨ ∀ x ∈ es, E.copy_throws x = false)
    (hop : op.pushes E = true) :
    ∃ v, (op = .push_back v ∨ op = .emplace_back (some v)) ∧
      (op.apply E sys_new s).WF sys_new ∧ (op.apply E sys_new s).holds (es ++ [v]) ∧
      (op.apply E sys_new s).vec.capacity =
        (if s.vec.size + 1 ≤ s.vec.capacity then s.vec.capacity
         else max (s.vec.size + 1) (s.vec.capacity * 2)) ∧
      (reallocated s (op.apply E sys_new s) = true ↔ ¬ s.vec.size + 1 ≤ s.vec.capacity) := by
  obtain ⟨s0, -, hens0, -, -, -, -, -, -⟩ := ensure_capacity_ok E sys_new s es hwf hes hsafe
  have hok : (ensure_capacity E sys_new (s.vec.size + 1) s).1 = .ok () := by rw [hens0]
  obtain ⟨s1, p, hens, -, -, -, hdp1, -, hsame, hmoved⟩ := growth_step E sys_new s es hwf hes hok
  have hre : ∀ s' : Machine T, s'.vec.data_pointer = s1.vec.data_pointer →
      (reallocated s s' = true ↔ ¬ s.vec.size + 1 ≤ s.vec.capacity) := by
    intro s' hs'
    simp only [reallocated, hs', decide_eq_true_eq]
    by_cases hle : s.vec.size + 1 ≤ s.vec.capacity
    · rw [hsame hle]
      simp [hle]
    · simp only [hle, not_false_eq_true, iff_true]
      exact (hmoved hle).2.1
  cases op with
  | push_back v =>
    have hval : E.copy_throws v = false := by simpa [VecOp.pushes] using hop
    obtain ⟨s', hrun, hwf', hh, hcap⟩ := push_back_ok E sys_new v s es hwf hes hsafe hval
    have hkeep := (append_keeps_growth E sys_new s s1 p hens hdp1 (.object v) none).1
    refine ⟨v, Or.inl rfl, ?_, ?_, ?_, ?_⟩
    · simp only [VecOp.apply, hrun]; exact hwf'
    · simp only [VecOp.apply, hrun]; exact hh
    · simp only [VecOp.apply, hrun]; exact hcap
    · exact hre _ hkeep
  | emplace_back built =>
    cases built with
    | none => simp [VecOp.pushes] at hop
    | some v =>
      obtain ⟨s', hrun, hwf', hh, hcap⟩ := emplace_back_ok E sys_new v s es hwf hes hsafe
      have hkeep := (append_keeps_growth E sys_new s s1 p hens hdp1 (.object v) (some v)).2.2.2.1
      refine ⟨v, Or.inr rfl, ?_, ?_, ?_, ?_⟩
      · simp only [VecOp.apply, hrun]; exact hwf'
      · simp only [VecOp.apply, hrun]; exact hh
      · simp only [VecOp.apply, hrun]; exact hcap
      · exact hre _ hkeep
  | clear => simp [VecOp.pushes] at hop

/-- A sequence of appends from a state whose capacity `c * 2 ^ j` is the first of the chain
`c, 2c, 4c, …` that is not below its size: the capacity stays the first such, and the
reallocations are counted by the exponent. -/
theorem appends_from {T : Type} (E : ElemType T) (sys_new : Nat → Nat) (c : Nat) (hc : 1 ≤ c)
    (ops : List (VecOp T)) :
    ∀ (s : Machine T) (es : List T) (j : Nat), s.WF sys_new → s.holds es →
      (∀ op ∈ ops, op.pushes E = true) →
      (E.nothrow_move = true ∨ ∀ x ∈ es, E.copy_throws x = false) →
      (E.nothrow_move = true ∨
        ∀ op ∈ ops, ∀ v, (op = .push_back v ∨ op = .emplace_back (some v)) →
          E.copy_throws v = false) →
      s.vec.capacity = c * 2 ^ j → (∀ i, i < j → c * 2 ^ i < s.vec.size) →
      ∃ k, j ≤ k ∧
        (run_ops E sys_new ops s).vec.capacity = c * 2 ^ k ∧
        (run_ops E sys_new ops s).vec.size = s.vec.size + ops.length ∧
        (run_ops E sys_new ops s).vec.size ≤ c * 2 ^ k ∧
        (∀ i, i < k → c * 2 ^ i < (run_ops E sys_new ops s).vec.size) ∧
        count_reallocs E sys_new ops s = k - j := by
  induction ops with
  | nil =>
    intro s es j hwf _ _ _ _ hcap hleast
    refine ⟨j, le_refl _, hcap, rfl, ?_, hleast, by simp [count_reallocs]⟩
    show s.vec.size ≤ c * 2 ^ j
    rw [← hcap]
    exact hwf.2.1
  | cons op ops ih =>
    intro s es j hwf hes hops hsafe hsafe_ops hcap hleast
    obtain ⟨v, hv, hwf', hh', hcap', hre⟩ :=
      apply_push E sys_new s es op hwf hes hsafe (hops op (List.mem_cons_self _ _))
    have hsafe' : E.nothrow_move = true ∨ ∀ x ∈ es ++ [v], E.copy_throws x = false := by
      rcases hsafe with h | h
      · exact Or.inl h
      · rcases hsafe_ops with h2 | h2
        · exact Or.inl h2
        · refine Or.inr fun x hx => ?_
          rcases List.mem_append.mp hx with hx | hx
          · exact h x hx
          · rw [List.mem_singleton.mp hx]
            exact h2 op (List.mem_cons_self _ _) v hv
    have hsafe_ops' : E.nothrow_move = true ∨
        ∀ op' ∈ ops, ∀ w, (op' = .push_back w ∨ op' = .emplace_back (some w)) →
          E.copy_throws w = false := by
      rcases hsafe_ops with h | h
      · exact Or.inl h
      · exact Or.inr fun op' hop' => h op' (List.mem_cons_of_mem _ hop')
    have hops' : ∀ op' ∈ ops, op'.pushes E = true :=
      fun op' hop' => hops op' (List.mem_cons_of_mem _ hop')
    have hsz' : (op.apply E sys_new s).vec.size = s.vec.size + 1 := by
      rw [hh'.1, hes.1]
      simp
    have hle : s.vec.size ≤ c * 2 ^ j := by rw [← hcap]; exact hwf.2.1
    have hpos : 1 ≤ c * 2 ^ j := Nat.mul_pos hc (Nat.pow_pos (by norm_num))
    by_cases hroom : s.vec.size + 1 ≤ s.vec.capacity
    · -- room left: no reallocation
      have hcapj : (op.apply E sys_new s).vec.capacity = c * 2 ^ j := by
        rw [hcap', if_pos hroom, hcap]
      have hleast' : ∀ i, i < j → c * 2 ^ i < (op.apply E sys_new s).vec.size := by
        intro i hi
        have := hleast i hi
        omega
      obtain ⟨k, hjk, h1, h2, h3, h4, h5⟩ :=
        ih (op.apply E sys_new s) (es ++ [v]) j hwf' hh' hops' hsafe' hsafe_ops' hcapj hleast'
      have hnot : reallocated s (op.apply E sys_new s) = false := by
        cases hr : reallocated s (op.apply E sys_new s) with
        | false => rfl
        | true => exact absurd hroom (hre.mp hr)
      refine ⟨k, hjk, h1, ?_, h3, h4, ?_⟩
      · simp only [run_ops] at h2 ⊢
        rw [h2, hsz', List.length_cons]
        omega
      · simp only [count_reallocs, hnot]
        simp [h5]
    · -- full: the capacity doubles
      have hfull : s.vec.size = c * 2 ^ j := by omega
      have hcapj : (op.apply E sys_new s).vec.capacity = c * 2 ^ (j + 1) := by
        rw [hcap', if_neg hroom, hcap, hfull, Nat.pow_succ, ← Nat.mul_assoc]
        exact max_eq_right (by omega)
      have hleast' : ∀ i, i < j + 1 → c * 2 ^ i < (op.apply E sys_new s).vec.size := by
        intro i hi
        have hmono : c * 2 ^ i ≤ c * 2 ^ j :=
          Nat.mul_le_mul_left c (Nat.pow_le_pow_right (by norm_num) (by omega))
        omega
      obtain ⟨k, hjk, h1, h2, h3, h4, h5⟩ :=
        ih (op.apply E sys_new s) (es ++ [v]) (j + 1) hwf' hh' hops' hsafe' hsafe_ops' hcapj
          hleast'
      have hyes : reallocated s (op.apply E sys_new s) = true := hre.mpr hroom
      refine ⟨k, by omega, h1, ?_, h3, h4, ?_⟩
      · simp only [run_ops] at h2 ⊢
        rw [h2, hsz', List.length_cons]
        omega
      · simp only [count_reallocs, hyes, if_true]
        rw [h5]
        omega

/-- C21 (doubling under appends).  First, on a well-formed state (so `size ≤ capacity`) for
which the growth step of the call returns: `push_back` (whatever its argument refers to) and
`emplace_back` reallocate exactly when `size = capacity`; when they do, the new capacity is `2 * capacity` for `capacity ≥ 1`
and `1` for `capacity = 0`, and the new storage is what the one allocation of that many
elements returned; when they do not, capacity and memory resource are untouched.  Second,
for an array constructed with capacity `c ≥ 1` on a well-formed memory resource that receives
the appends `ops` (each constructs its new element, and no transfer throws): there is `k`
such that the final capacity is `c * 2 ^ k`, the number of appends is at most `c * 2 ^ k` and
above `c * 2 ^ i` for every `i < k` (so `k` is the least such exponent), exactly `k` of the
calls reallocated, and the size is the number of appends. -/
theorem doubling_under_appends {T : Type} (E : ElemType T) (sys_new : Nat → Nat)
    (s : Machine T) (es : List T) (arg : Ref T) (built : Option T)
    (hwf : s.WF sys_new) (hes : s.holds es)
    (hok : (ensure_capacity E sys_new (s.vec.size + 1) s).1 = .ok ())
    (c : Nat) (mr : CustomMemoryResource) (mem : Mem T) (ops : List (VecOp T))
    (hmr : mr.WF sys_new) (hc : 1 ≤ c) (hops : ∀ op ∈ ops, op.pushes E = true)
    (hsafe : E.nothrow_move = true ∨
      ∀ op ∈ ops, ∀ v, op = .emplace_back (some v) → E.copy_throws v = false) :
    ((reallocated s (push_back E sys_new arg s).2 = true ↔ s.vec.size = s.vec.capacity) ∧
     (reallocated s (emplace_back E sys_new built s).2 = true ↔
        s.vec.size = s.vec.capacity) ∧
     (s.vec.size = s.vec.capacity →
        (push_back E sys_new arg s).2.vec.capacity =
          (if s.vec.capacity = 0 then 1 else 2 * s.vec.capacity) ∧
        (emplace_back E sys_new built s).2.vec.capacity =
          (if s.vec.capacity = 0 then 1 else 2 * s.vec.capacity) ∧
        (push_back E sys_new arg s).2.vec.data_pointer =
          some (do_allocate sys_new s.mr
            ((if s.vec.capacity = 0 then 1 else 2 * s.vec.capacity) * E.sizeof) E.alignof).1 ∧
        (emplace_back E sys_new built s).2.vec.data_pointer =
          some (do_allocate sys_new s.mr
            ((if s.vec.capacity = 0 then 1 else 2 * s.vec.capacity) * E.sizeof) E.alignof).1) ∧
     (s.vec.size ≠ s.vec.capacity →
        (push_back E sys_new arg s).2.vec.capacity = s.vec.capacity ∧
        (emplace_back E sys_new built s).2.vec.capacity = s.vec.capacity ∧
        (push_back E sys_new arg s).2.mr = s.mr ∧
        (emplace_back E sys_new built s).2.mr = s.mr)) ∧
    (∃ k,
      (run_ops E sys_new ops (PmrVector.ctor E sys_new c mr mem)).vec.capacity = c * 2 ^ k ∧
      ops.length ≤ c * 2 ^ k ∧
      (∀ i, i < k → c * 2 ^ i < ops.length) ∧
      count_reallocs E sys_new ops (PmrVector.ctor E sys_new c mr mem) = k ∧
      get_size (run_ops E sys_new ops (PmrVector.ctor E sys_new c mr mem)) = ops.length) := by
  constructor
  · obtain ⟨s1, p, hens, -, -, -, hdp1, -, hsame, hmoved⟩ :=
      growth_step E sys_new s es hwf hes hok
    obtain ⟨k1, k2, k3, k4, k5, k6⟩ := append_keeps_growth E sys_new s s1 p hens hdp1 arg built
    have hle : s.vec.size ≤ s.vec.capacity := hwf.2.1
    have hiff : s.vec.size = s.vec.capacity ↔ ¬ s.vec.size + 1 ≤ s.vec.capacity := by omega
    have hre : s1.vec.data_pointer ≠ s.vec.data_pointer ↔ s.vec.size = s.vec.capacity := by
      rw [hiff]
      by_cases hroom : s.vec.size + 1 ≤ s.vec.capacity
      · rw [hsame hroom]
        simp [hroom]
      · simp only [hroom, not_false_eq_true, iff_true]
        exact (hmoved hroom).2.1
    have hnew : s.vec.size = s.vec.capacity →
        max (s.vec.size + 1) (s.vec.capacity * 2) =
          (if s.vec.capacity = 0 then 1 else 2 * s.vec.capacity) := by
      intro hfull
      by_cases h0 : s.vec.capacity = 0
      · rw [if_pos h0, hfull, h0]
        rfl
      · rw [if_neg h0, hfull]
        omega
    refine ⟨?_, ?_, ?_, ?_⟩
    · simp only [reallocated, k1, decide_eq_true_eq]
      exact hre
    · simp only [reallocated, k4, decide_eq_true_eq]
      exact hre
    · intro hfull
      obtain ⟨hcap, -, hdp⟩ := hmoved (hiff.mp hfull)
      rw [hnew hfull] at hcap hdp
      exact ⟨by rw [k2, hcap], by rw [k5, hcap], by rw [k1, hdp], by rw [k4, hdp]⟩
    · intro hne
      have hroom : s.vec.size + 1 ≤ s.vec.capacity := by omega
      have hs1 := hsame hroom
      exact ⟨by rw [k2, hs1], by rw [k5, hs1], by rw [k3, hs1], by rw [k6, hs1]⟩
  · obtain ⟨hwf0, hh0, hcap0, hsz0⟩ := ctor_ok E sys_new c mr mem hmr
    have hsafe_ops : E.nothrow_move = true ∨
        ∀ op ∈ ops, ∀ v, (op = .push_back v ∨ op = .emplace_back (some v)) →
          E.copy_throws v = false := by
      rcases hsafe with h | h
      · exact Or.inl h
      · refine Or.inr fun op hop v hv => ?_
        rcases hv with hv | hv
        · have := hops op hop
          rw [hv] at this
          simpa [VecOp.pushes] using this
        · exact h op hop v hv
    obtain ⟨k, -, h1, h2, h3, h4, h5⟩ :=
      appends_from E sys_new c hc ops _ [] 0 hwf0 hh0 hops (Or.inr (by simp)) hsafe_ops
        (by rw [hcap0]; simp) (fun i hi => absurd hi (Nat.not_lt_zero i))
    rw [hsz0, Nat.zero_add] at h2
    rw [h2] at h3 h4
    exact ⟨k, h1, h3, h4, by rw [h5]; rfl, h2⟩

/-- Witness of C21: the full array holding `[10]` (capacity `1`) for the first part; for the
second the array of the demonstration, constructed with capacity `2` and given three
`emplace_back`: it ends with capacity `4` after one reallocation. -/
theorem doubling_under_appends_witness :
    (((reallocated vec_one (push_back E_int sys_new_ex (.object 20) vec_one).2 = true ↔
        vec_one.vec.size = vec_one.vec.capacity) ∧
     (reallocated vec_one (emplace_back E_int sys_new_ex (some 20) vec_one).2 = true ↔
        vec_one.vec.size = vec_one.vec.capacity) ∧
     (vec_one.vec.size = vec_one.vec.capacity →
        (push_back E_int sys_new_ex (.object 20) vec_one).2.vec.capacity =
          (if vec_one.vec.capacity = 0 then 1 else 2 * vec_one.vec.capacity) ∧
        (emplace_back E_int sys_new_ex (some 20) vec_one).2.vec.capacity =
          (if vec_one.vec.capacity = 0 then 1 else 2 * vec_one.vec.capacity) ∧
        (push_back E_int sys_new_ex (.object 20) vec_one).2.vec.data_pointer =
          some (do_allocate sys_new_ex vec_one.mr
            ((if vec_one.vec.capacity = 0 then 1 else 2 * vec_one.vec.capacity) *
              E_int.sizeof) E_int.alignof).1 ∧
        (emplace_back E_int sys_new_ex (some 20) vec_one).2.vec.data_pointer =
          some (do_allocate sys_new_ex vec_one.mr
            ((if vec_one.vec.capacity = 0 then 1 else 2 * vec_one.vec.capacity) *
              E_int.sizeof) E_int.alignof).1) ∧
     (vec_one.vec.size ≠ vec_one.vec.capacity →
        (push_back E_int sys_new_ex (.object 20) vec_one).2.vec.capacity = vec_one.vec.capacity ∧
        (emplace_back E_int sys_new_ex (some 20) vec_one).2.vec.capacity =
          vec_one.vec.capacity ∧
        (push_back E_int sys_new_ex (.object 20) vec_one).2.mr = vec_one.mr ∧
        (emplace_back E_int sys_new_ex (some 20) vec_one).2.mr = vec_one.mr)) ∧
    (∃ k,
      (run_ops E_int sys_new_ex three_emplaces
        (PmrVector.ctor E_int sys_new_ex 2 mr_empty mem_raw)).vec.capacity = 2 * 2 ^ k ∧
      three_emplaces.length ≤ 2 * 2 ^ k ∧
      (∀ i, i < k → 2 * 2 ^ i < three_emplaces.length) ∧
      count_reallocs E_int sys_new_ex three_emplaces
        (PmrVector.ctor E_int sys_new_ex 2 mr_empty mem_raw) = k ∧
      get_size (run_ops E_int sys_new_ex three_emplaces
        (PmrVector.ctor E_int sys_new_ex 2 mr_empty mem_raw)) = three_emplaces.length)) ∧
    (run_ops E_int sys_new_ex three_emplaces
      (PmrVector.ctor E_int sys_new_ex 2 mr_empty mem_raw)).vec.capacity = 4 ∧
    count_reallocs E_int sys_new_ex three_emplaces
      (PmrVector.ctor E_int sys_new_ex 2 mr_empty mem_raw) = 1 :=
  ⟨doubling_under_appends E_int sys_new_ex vec_one [10] (.object 20) (some 20) vec_one_ok.1
      vec_one_ok.2
      rfl 2 mr_empty mem_raw three_emplaces mr_empty_WF (by decide) (by decide) (Or.inl rfl),
    rfl, rfl⟩

/-! ## A reference to an own element across a reallocation -/

/-- On a well-formed full array whose elements can be transferred, `push_back` of a reference
to one of its own elements always reads a destroyed object: the growth step has destroyed
every slot `i < size` of the old storage before line 172 reads the reference. -/
theorem push_back_own_element_when_full {T : Type} (E : ElemType T) (sys_new : Nat → Nat)
    (s : Machine T) (es : List T) (q i : Nat) (hwf : s.WF sys_new) (hes : s.holds es)
    (hsafe : E.nothrow_move = true ∨ ∀ x ∈ es, E.copy_throws x = false)
    (hdp : s.vec.data_pointer = some q) (hi : i < s.vec.size)
    (hfull : s.vec.size = s.vec.capacity) :
    operator_index_ref i s = .ok (.slot q i) ∧
    (push_back E sys_new (.slot q i) s).1 = .error .undefined_behaviour := by
  constructor
  · simp [operator_index_ref, hi, hdp]
  · obtain ⟨s1, hrun, hwf1, -, hsz1, hcap1, hdp1, -, -⟩ :=
      ensure_capacity_grow E sys_new (s.vec.size + 1) s es hwf hes hsafe (by omega)
    obtain ⟨s2, hrun2, -, hsome⟩ :=
      ensure_capacity_grow_detail E sys_new (s.vec.size + 1) s es hwf hes hsafe (by omega)
    have hs : s2 = s1 := by
      rw [hrun2] at hrun
      exact (Prod.mk.inj hrun).2
    subst hs
    have hraw : s2.mem q i = none := (hsome q hdp).2.2.2.1 i hi
    simp [push_back, hrun2, hdp1, Ref.read, load, hraw]

end PmrLab
